import Mathlib

/-!
# blake3: the "custom Bao" tree encoder, the second-layer piece combiner and the chunk compressor

Shallow embedding of `custom_bao.go`, `compress_noasm.go` and `compress_amd64.go`.

* Bytes are `Fin 256`, 32-bit words are `Fin 4294967296`, a chaining value is a
  list of exactly eight words.
* `uint64` values are natural numbers; every `uint64` operation of the source
  that can wrap is reduced modulo `2 ^ 64` (`u64`), and the conversion
  `int64(off)` is `toInt64`.
* The helpers `compressChunk`, `chainingValue`, `parentNode` and the constants
  `iv` and `flagRoot` are called by `custom_bao.go` and defined elsewhere in the
  package; they are parameters, bundled in `Primitives`, so every statement holds
  for any compression function.
* A Go `panic` is an `Except.error` carrying a `Panic`; the encoder threads an
  explicit state (`EncState`) that also records every read and write issued.
* `bytesToCV` reads 32 bytes from the address of the first byte of a slice; what lies
  in memory behind a slice shorter than that is a parameter (`beyond`, `mem`).
* The flag constants, `Iv`, `ChainingValue`, `ParentNode` and `compressNodeGeneric`
  used by the two compress files are defined elsewhere in the package and are
  bundled in `Engine`; the assembly routines, of which the sources hold only the
  declarations, are modelled lane by lane.
-/

namespace Blake3

/-! ## Machine integers -/

abbrev Byte := Fin 256

abbrev Word := Fin 4294967296

/-- Reduction of a natural number to the `uint64` range. -/
def u64 (x : Nat) : Nat := x % 2 ^ 64

/-- Go conversion `int64(x)` of a `uint64` value (two's complement). -/
def toInt64 (x : Nat) : Int :=
  if u64 x < 2 ^ 63 then (u64 x : Int) else (u64 x : Int) - 2 ^ 64

def len64Aux : Nat → Nat → Nat
  | 0, _ => 0
  | fuel + 1, x => if x = 0 then 0 else len64Aux fuel (x / 2) + 1

/-- Go `bits.Len64`: number of bits needed to write a `uint64` (0 for 0). -/
def len64 (x : Nat) : Nat := len64Aux 64 x

/-- Constant `chunkSize` of the package (1024 bytes). -/
def chunkSize : Nat := 1024

/-- Expression `uint64(1) << (bits.Len64(n-1) - 1)`: the split point used by `rec` and by
`subtreeChainingValue` (the shift count is at most 63, so the value fits `uint64`). -/
def splitMid (n : Nat) : Nat := 1 <<< (len64 (n - 1) - 1)

/-! ## Chaining values, nodes and the primitives taken as parameters -/

/-- Go `[8]uint32`. -/
structure CV where
  words : List Word
  size_eq : words.length = 8
deriving DecidableEq

/-- The zero value `[8]uint32{}`. -/
def CV.zero : CV := ⟨List.replicate 8 0, rfl⟩

/-- Go struct `Node` as used by the sources (`cv`, `block`, `counter`, `blockLen`, `flags`). -/
structure Node where
  cv : CV
  block : List Word
  counter : Nat
  blockLen : Nat
  flags : Nat
deriving DecidableEq

/-- Functions and constants of the package that `custom_bao.go` calls and that are defined
elsewhere in the package. -/
structure Primitives where
  iv : CV
  flagRoot : Nat
  compressChunk : List Byte → CV → Nat → Nat → Node
  chainingValue : Node → CV
  parentNode : CV → CV → CV → Nat → Node

/-- Little-endian bytes of one 32-bit word. -/
def putUint32 (w : Word) : List Byte :=
  [⟨w.val % 256, Nat.mod_lt _ (by decide)⟩, ⟨w.val / 256 % 256, Nat.mod_lt _ (by decide)⟩,
   ⟨w.val / 65536 % 256, Nat.mod_lt _ (by decide)⟩,
   ⟨w.val / 16777216 % 256, Nat.mod_lt _ (by decide)⟩]

/-- Little-endian word made of four bytes. -/
def uint32LE (b0 b1 b2 b3 : Byte) : Word :=
  ⟨b0.val + 256 * b1.val + 65536 * b2.val + 16777216 * b3.val, by omega⟩

/-- Go `cvToBytes`: the 32 bytes of a chaining value, each word little-endian. -/
def cvToBytes (cv : CV) : List Byte :=
  cv.words.flatMap putUint32

def wordsOfBytes : Nat → List Byte → List Word
  | 0, _ => []
  | n + 1, b0 :: b1 :: b2 :: b3 :: rest => uint32LE b0 b1 b2 b3 :: wordsOfBytes n rest
  | n + 1, _ => (0 : Word) :: wordsOfBytes n []

theorem wordsOfBytes_length (n : Nat) (b : List Byte) : (wordsOfBytes n b).length = n := by
  induction n generalizing b with
  | zero => rfl
  | succ n ih =>
    match b with
    | [] => simp [wordsOfBytes, ih]
    | [_] => simp [wordsOfBytes, ih]
    | [_, _] => simp [wordsOfBytes, ih]
    | [_, _, _] => simp [wordsOfBytes, ih]
    | _ :: _ :: _ :: _ :: rest => simp [wordsOfBytes, ih]

/-- Go `bytesToCV` of `compress_amd64.go`, `*(*[8]uint32)(unsafe.Pointer(&b[0]))`: `b[0]` panics
on an empty slice (`none`); otherwise eight little-endian words are read from the 32 bytes that
start at the first byte of the slice, with no test of its length. For a slice of fewer than 32
bytes the read goes on into the memory behind it, whose bytes are `beyond 0`, `beyond 1`, ... -/
def bytesToCV (beyond : Nat → Byte) (b : List Byte) : Option CV :=
  if b.length = 0 then none
  else some ⟨wordsOfBytes 8 (b ++ (List.range (32 - b.length)).map beyond),
    wordsOfBytes_length 8 _⟩

/-- Eight little-endian bytes of a `uint64` (`binary.LittleEndian.PutUint64`). -/
def putUint64 (x : Nat) : List Byte :=
  (List.range 8).map fun i => ⟨u64 x / 256 ^ i % 256, Nat.mod_lt _ (by decide)⟩

/-! ## Hexadecimal strings (`encoding/hex`) -/

def hexDigit (n : Nat) : Char :=
  if n < 10 then Char.ofNat (48 + n) else Char.ofNat (87 + n)

def fromHexChar (c : Char) : Option Nat :=
  if 48 ≤ c.toNat ∧ c.toNat ≤ 57 then some (c.toNat - 48)
  else if 97 ≤ c.toNat ∧ c.toNat ≤ 102 then some (c.toNat - 87)
  else if 65 ≤ c.toNat ∧ c.toNat ≤ 70 then some (c.toNat - 55)
  else none

def hexEncodeChars : List Byte → List Char
  | [] => []
  | b :: rest => hexDigit (b.val / 16) :: hexDigit (b.val % 16) :: hexEncodeChars rest

/-- Go `hex.EncodeToString`. -/
def hexEncodeToString (bs : List Byte) : String := String.mk (hexEncodeChars bs)

def hexDecodeChars : List Char → Option (List Byte)
  | [] => some []
  | [_] => none
  | hi :: lo :: rest =>
    match fromHexChar hi, fromHexChar lo, hexDecodeChars rest with
    | some h, some l, some bs => some (⟨(16 * h + l) % 256, Nat.mod_lt _ (by decide)⟩ :: bs)
    | _, _, _ => none

/-- Go `hex.DecodeString`; `none` stands for a returned error (odd length or a character that is
not a hexadecimal digit). -/
def hexDecodeString (s : String) : Option (List Byte) := hexDecodeChars s.data

/-! ## The plain tree hash -/

theorem len64Aux_pos (fuel x : Nat) (hx : x ≠ 0) (hf : fuel ≠ 0) : 0 < len64Aux fuel x := by
  cases fuel with
  | zero => exact absurd rfl hf
  | succ f => simp [len64Aux, hx]

theorem len64Aux_lower (fuel x : Nat) (hx : x ≠ 0) (hf : fuel ≠ 0) :
    2 ^ (len64Aux fuel x - 1) ≤ x := by
  induction fuel generalizing x with
  | zero => exact absurd rfl hf
  | succ f ih =>
    simp only [len64Aux, hx, if_false, Nat.add_sub_cancel]
    cases f with
    | zero => simp [len64Aux]; omega
    | succ g =>
      by_cases h2 : x / 2 = 0
      · simp [len64Aux, h2]; omega
      · have h := ih (x / 2) h2 (by simp)
        have hp := len64Aux_pos (g + 1) (x / 2) h2 (by simp)
        have e : len64Aux (g + 1) (x / 2) = (len64Aux (g + 1) (x / 2) - 1) + 1 := by omega
        rw [e, pow_succ]
        omega

/-- The split point is positive. -/
theorem splitMid_pos (n : Nat) : 0 < splitMid n := by
  unfold splitMid
  rw [Nat.one_shiftLeft]
  exact Nat.pos_pow_of_pos _ (by decide)

/-- The split point lies strictly below the length when the length is at least two. -/
theorem splitMid_lt (n : Nat) (h : 2 ≤ n) : splitMid n < n := by
  unfold splitMid len64
  rw [Nat.one_shiftLeft]
  have := len64Aux_lower 64 (n - 1) (by omega) (by decide)
  omega

/-- Go `subtreeChainingValue`. The chunk index is a `uint64`; `chunkIndex += mid / chunkSize`
wraps. -/
def subtreeChainingValue (P : Primitives) (subtreeBytes : List Byte) (startingChunkIndex : Nat)
    (flags : Nat) : CV :=
  if h : subtreeBytes.length ≤ chunkSize then
    P.chainingValue (P.compressChunk subtreeBytes P.iv startingChunkIndex flags)
  else
    let mid := splitMid subtreeBytes.length
    let chunkIndex := startingChunkIndex
    let l := subtreeChainingValue P (subtreeBytes.take mid) chunkIndex 0
    let chunkIndex := u64 (chunkIndex + mid / chunkSize)
    let r := subtreeChainingValue P (subtreeBytes.drop mid) chunkIndex 0
    P.chainingValue (P.parentNode l r P.iv flags)
termination_by subtreeBytes.length
decreasing_by
  · have h1 := splitMid_lt subtreeBytes.length (by unfold chunkSize at h; omega)
    simp only [List.length_take]
    omega
  · have h1 := splitMid_pos subtreeBytes.length
    simp only [List.length_drop]
    omega

/-- Go `groupChainingValue`. -/
def groupChainingValue (P : Primitives) (blockSize : Nat) (groupBytes : List Byte)
    (groupIndex : Nat) (flags : Nat) : CV :=
  let startingChunkIndex := u64 (groupIndex * (blockSize / chunkSize))
  subtreeChainingValue P groupBytes startingChunkIndex flags

/-! ## Readers, writers and panics -/

/-- Errors of the I/O collaborators (`io.EOF`, `io.ErrUnexpectedEOF`, the negative-offset error of
a file, any other error of a writer). -/
inductive IOError where
  | eof
  | unexpectedEOF
  | negativeOffset
  | other (code : Nat)
deriving DecidableEq

/-- Ways in which the Go code panics: `panic(err)` with an I/O error, or a run-time error. -/
inductive Panic where
  | io (e : IOError)
  | divideByZero
  | sliceBounds
  | negativeShift
  | indexOutOfRange
  | hexError
  | makeSliceLen
deriving DecidableEq

/-- Go `io.ReadFull(data, p)` with `len(p) = n`, on a reader that holds the bytes `data` and then
reports end of file. Returns the bytes read (or the error) and what is left in the reader. -/
def readFull (data : List Byte) (n : Nat) : Except IOError (List Byte) × List Byte :=
  if n ≤ data.length then (.ok (data.take n), data.drop n)
  else (.error (if data = [] then .eof else .unexpectedEOF), [])

/-- Go `io.WriterAt`: a state and a `WriteAt(p, off)` that succeeds or returns an error. -/
structure WriterAt (σ : Type) where
  writeAt : σ → List Byte → Int → Except IOError σ

/-- A file held in memory, as `os.File.WriteAt` treats it: a negative offset is an error, a write
past the end fills the gap with zero bytes, an empty write changes nothing. -/
def memWriter : WriterAt (List Byte) where
  writeAt f p off :=
    if off < 0 then .error .negativeOffset
    else if p = [] then .ok f
    else .ok (f.take off.toNat ++ List.replicate (off.toNat - f.length) 0 ++ p
      ++ f.drop (off.toNat + p.length))

/-- One call issued to the reader or to the writer, with its outcome (`none`: success). -/
inductive IOOp where
  | read (n : Nat) (err : Option IOError)
  | write (p : List Byte) (off : Int) (err : Option IOError)
deriving DecidableEq

/-- Variables captured by the closures of `CustomBaoEncode`: the reader, the writer, `counter`,
`err`, and (for the statements about I/O) the list of calls issued so far. -/
structure EncState (σ : Type) where
  data : List Byte
  dst : σ
  counter : Nat
  err : Option IOError
  log : List IOOp

/-- Closure `read` of `CustomBaoEncode`, called with a buffer of `n` bytes. -/
def CustomBaoEncode.read {σ : Type} (n : Nat) (st : EncState σ) :
    Except Panic (List Byte) × EncState σ :=
  match st.err with
  | some e => (.error (.io e), st)
  | none =>
    match readFull st.data n with
    | (.ok p, rest) => (.ok p, { st with data := rest, log := st.log ++ [.read n none] })
    | (.error e, rest) =>
      (.error (.io e),
        { st with data := rest, err := some e, log := st.log ++ [.read n (some e)] })

/-- Closure `write` of `CustomBaoEncode`. -/
def CustomBaoEncode.write {σ : Type} (W : WriterAt σ) (p : List Byte) (off : Nat)
    (st : EncState σ) : Except Panic Unit × EncState σ :=
  match st.err with
  | some e => (.error (.io e), st)
  | none =>
    match W.writeAt st.dst p (toInt64 off) with
    | .ok d => (.ok (), { st with dst := d, log := st.log ++ [.write p (toInt64 off) none] })
    | .error e =>
      (.error (.io e),
        { st with err := some e, log := st.log ++ [.write p (toInt64 off) (some e)] })

/-- Closure `rec` of `CustomBaoEncode`. Returns the number of chaining values written below the
node and the node's chaining value. The shift `1 << (bits.Len64(bufLen-1) - 1)` panics in Go when
the count is negative, which is the case `len64 (bufLen - 1) = 0`. -/
def CustomBaoEncode.rec {σ : Type} (P : Primitives) (W : WriterAt σ) (blockSize : Nat)
    (outboard : Bool) (bufLen flags off : Nat) (st : EncState σ) :
    Except Panic (Nat × CV) × EncState σ :=
  if st.err ≠ none then (.ok (0, CV.zero), st)
  else if bufLen ≤ blockSize then
    match CustomBaoEncode.read bufLen st with
    | (.error p, st1) => (.error p, st1)
    | (.ok bytes, st1) =>
      let cv := groupChainingValue P blockSize bytes st1.counter flags
      let st2 := { st1 with counter := u64 (st1.counter + 1) }
      if !outboard then
        match CustomBaoEncode.write W bytes off st2 with
        | (.error p, st3) => (.error p, st3)
        | (.ok _, st3) => (.ok (0, cv), st3)
      else (.ok (0, cv), st2)
  else if hz : len64 (bufLen - 1) = 0 then (.error .negativeShift, st)
  else
    let mid := splitMid bufLen
    match CustomBaoEncode.rec P W blockSize outboard mid 0 (u64 (off + 64)) st with
    | (.error p, st1) => (.error p, st1)
    | (.ok (lchildren, l), st1) =>
      let llen := u64 (lchildren * 32)
      let llen := if !outboard then u64 (llen + u64 (mid / blockSize * blockSize)) else llen
      match CustomBaoEncode.rec P W blockSize outboard (bufLen - mid) 0 (u64 (off + 64 + llen))
          st1 with
      | (.error p, st2) => (.error p, st2)
      | (.ok (rchildren, r), st2) =>
        match CustomBaoEncode.write W (cvToBytes l) off st2 with
        | (.error p, st3) => (.error p, st3)
        | (.ok _, st3) =>
          match CustomBaoEncode.write W (cvToBytes r) (u64 (off + 32)) st3 with
          | (.error p, st4) => (.error p, st4)
          | (.ok _, st4) =>
            (.ok (u64 (2 + lchildren + rchildren),
              P.chainingValue (P.parentNode l r P.iv flags)), st4)
termination_by bufLen
decreasing_by
  · have h2 : 2 ≤ bufLen := by
      rcases Nat.lt_or_ge bufLen 2 with h | h
      · exfalso
        apply hz
        have : bufLen - 1 = 0 := by omega
        rw [this]
        rfl
      · exact h
    exact splitMid_lt bufLen h2
  · have h1 := splitMid_pos bufLen
    have h2 : bufLen ≠ 0 := by
      intro h0
      apply hz
      rw [h0]
      rfl
    omega

/-- Go `CustomBaoEncode`. `dataLen` is given by its `uint64` conversion. The result is the pair
returned by the function (32 bytes and `err`), or the panic, together with the final state of
the captured variables. `pieceSize / blockSize` panics for a zero block size,
`make([]byte, blockSize)` for a length that does not fit `int` (`2 ^ 63` and above; the
allocation of a smaller buffer is taken to succeed), and `chunkBuf[:8]` for a buffer shorter than
8 bytes. -/
def CustomBaoEncode {σ : Type} (P : Primitives) (W : WriterAt σ) (dst : σ) (data : List Byte)
    (dataLen : Nat) (blockSize : Nat) (outboard : Bool) (isRoot : Bool) (pieceSize : Nat)
    (pieceIndex : Nat) : Except Panic (List Byte × Option IOError) × EncState σ :=
  if blockSize = 0 then
    (.error .divideByZero, { data := data, dst := dst, counter := 0, err := none, log := [] })
  else
    let st0 : EncState σ :=
      { data := data, dst := dst, counter := u64 (pieceSize / blockSize * pieceIndex),
        err := none, log := [] }
    if 2 ^ 63 ≤ blockSize then (.error .makeSliceLen, st0)
    else if blockSize < 8 then (.error .sliceBounds, st0)
    else
      match CustomBaoEncode.write W (putUint64 dataLen) 0 st0 with
      | (.error p, st1) => (.error p, st1)
      | (.ok _, st1) =>
        let flags := if isRoot then P.flagRoot else 0
        match CustomBaoEncode.rec P W blockSize outboard (u64 dataLen) flags 8 st1 with
        | (.error p, st2) => (.error p, st2)
        | (.ok (_, root), st2) => (.ok (cvToBytes root, st2.err), st2)

/-- Go `CustomBaoEncodeFile`. -/
def CustomBaoEncodeFile {σ : Type} (P : Primitives) (W : WriterAt σ) (dst : σ)
    (data : List Byte) (dataLen : Nat) (blockSize : Nat) (outboard : Bool) :
    Except Panic (List Byte × Option IOError) × EncState σ :=
  CustomBaoEncode P W dst data dataLen blockSize outboard true 0 0

/-- Go `CustomBaoEncodePiece`. -/
def CustomBaoEncodePiece {σ : Type} (P : Primitives) (W : WriterAt σ) (dst : σ)
    (data : List Byte) (dataLen : Nat) (blockSize : Nat) (outboard : Bool) (pieceSize : Nat)
    (pieceIndex : Nat) : Except Panic (List Byte × Option IOError) × EncState σ :=
  CustomBaoEncode P W dst data dataLen blockSize outboard false pieceSize pieceIndex

/-! ## The second-layer tree -/

/-- Go `enqueue`. -/
def enqueue (queue : List CV) (element : CV) : List CV := queue ++ [element]

/-- Go `dequeue`; `none` stands for the index panic on an empty queue. -/
def dequeue (queue : List CV) : Option (CV × List CV) :=
  match queue with
  | [] => none
  | x :: rest => some (x, rest)

/-- The loop `for len(hashQueue) > 2` of `CustomBaoEncodeSecondLayerHashTree`. -/
def reduceHashQueue (P : Primitives) (hashQueue : List CV) : Except Panic (List CV) :=
  if hlen : 2 < hashQueue.length then
    match h1 : dequeue hashQueue with
    | none => .error .indexOutOfRange
    | some (l, q1) =>
      match h2 : dequeue q1 with
      | none => .error .indexOutOfRange
      | some (r, q2) =>
        if hexEncodeToString (cvToBytes l) = hexEncodeToString (cvToBytes r) then
          reduceHashQueue P (enqueue q2 l)
        else
          let parentHash := P.chainingValue (P.parentNode l r P.iv 0)
          reduceHashQueue P (enqueue q2 parentHash)
  else .ok hashQueue
termination_by hashQueue.length
decreasing_by
  all_goals
    cases hashQueue with
    | nil => simp [dequeue] at h1
    | cons a t =>
      simp only [dequeue, Option.some.injEq, Prod.mk.injEq] at h1
      obtain ⟨-, rfl⟩ := h1
      cases t with
      | nil => simp [dequeue] at h2
      | cons b u =>
        simp only [dequeue, Option.some.injEq, Prod.mk.injEq] at h2
        obtain ⟨-, rfl⟩ := h2
        simp [enqueue]

/-- The first loop of `CustomBaoEncodeSecondLayerHashTree`: decode each hexadecimal string into a
chaining value, panicking on a decoding error. `mem i` is the memory behind the slice decoded
from string `i`, which `bytesToCV` reads when that slice has fewer than 32 bytes. -/
def decodeHashes (mem : Nat → Nat → Byte) : List String → Except Panic (List CV)
  | [] => .ok []
  | hash :: rest =>
    match hexDecodeString hash with
    | none => .error .hexError
    | some h =>
      match bytesToCV (mem 0) h with
      | none => .error .indexOutOfRange
      | some cv =>
        match decodeHashes (fun i => mem (i + 1)) rest with
        | .error p => .error p
        | .ok cvs => .ok (cv :: cvs)

/-- Go `CustomBaoEncodeSecondLayerHashTree`; `mem` as in `decodeHashes`. -/
def CustomBaoEncodeSecondLayerHashTree (P : Primitives) (mem : Nat → Nat → Byte)
    (hashes : List String) : Except Panic (List Byte × Option IOError) :=
  match decodeHashes mem hashes with
  | .error p => .error p
  | .ok hashQueue =>
    let padded : Except Panic (List CV) :=
      if hashes.length % 2 = 1 then
        match hashQueue[hashes.length - 1]? with
        | none => .error .indexOutOfRange
        | some last => .ok (enqueue hashQueue last)
      else .ok hashQueue
    match padded with
    | .error p => .error p
    | .ok hashQueue =>
      match reduceHashQueue P hashQueue with
      | .error p => .error p
      | .ok hashQueue =>
        match hashQueue[0]?, hashQueue[1]? with
        | some q0, some q1 =>
          let rootNode := P.parentNode q0 q1 P.iv P.flagRoot
          let rootCv := P.chainingValue rootNode
          .ok (cvToBytes rootCv, none)
        | _, _ => .error .indexOutOfRange

/-! ## What `rec` computes and writes, as pure functions of the bytes

These functions describe a run of `rec` in which no operation fails; `rec_memWriter` below proves
that `rec` on a file in memory behaves exactly so. They follow the arithmetic of the source for
an arbitrary block size. -/

/-- Number of leaf groups of a range of `n` bytes: how often `rec` increments `counter`. -/
def treeGroups (B n : Nat) : Nat :=
  if h : n ≤ B ∨ n < 2 then 1
  else treeGroups B (splitMid n) + treeGroups B (n - splitMid n)
termination_by n
decreasing_by
  · exact splitMid_lt n (by omega)
  · have := splitMid_pos n
    omega

/-- First component returned by `rec`: the number of chaining values written below the node. -/
def treeChildren (B n : Nat) : Nat :=
  if h : n ≤ B ∨ n < 2 then 0
  else 2 + treeChildren B (splitMid n) + treeChildren B (n - splitMid n)
termination_by n
decreasing_by
  · exact splitMid_lt n (by omega)
  · have := splitMid_pos n
    omega

/-- Value of `llen` computed by `rec` for a left subtree of `mid` bytes. -/
def leftExtent (B : Nat) (outboard : Bool) (mid : Nat) : Nat :=
  treeChildren B mid * 32 + (if outboard then 0 else mid / B * B)

/-- Second component returned by `rec` on the bytes `bytes`, entered with `counter`. -/
def treeCV (P : Primitives) (B : Nat) (bytes : List Byte) (counter flags : Nat) : CV :=
  if h : bytes.length ≤ B ∨ bytes.length < 2 then
    groupChainingValue P B bytes counter flags
  else
    let mid := splitMid bytes.length
    let l := treeCV P B (bytes.take mid) counter 0
    let r := treeCV P B (bytes.drop mid) (u64 (counter + treeGroups B mid)) 0
    P.chainingValue (P.parentNode l r P.iv flags)
termination_by bytes.length
decreasing_by
  · have h1 := splitMid_lt bytes.length (by omega)
    simp only [List.length_take]
    omega
  · have h1 := splitMid_pos bytes.length
    simp only [List.length_drop]
    omega

/-- Reads and writes issued by `rec` on the bytes `bytes`, in the order of the calls. -/
def treeOps (P : Primitives) (B : Nat) (outboard : Bool) (bytes : List Byte)
    (counter flags off : Nat) : List IOOp :=
  if h : bytes.length ≤ B ∨ bytes.length < 2 then
    IOOp.read bytes.length none :: (if outboard then [] else [IOOp.write bytes (off : Int) none])
  else
    let mid := splitMid bytes.length
    let counterR := u64 (counter + treeGroups B mid)
    let l := treeCV P B (bytes.take mid) counter 0
    let r := treeCV P B (bytes.drop mid) counterR 0
    treeOps P B outboard (bytes.take mid) counter 0 (off + 64)
      ++ treeOps P B outboard (bytes.drop mid) counterR 0 (off + 64 + leftExtent B outboard mid)
      ++ [IOOp.write (cvToBytes l) (off : Int) none,
          IOOp.write (cvToBytes r) ((off + 32 : Nat) : Int) none]
termination_by bytes.length
decreasing_by
  · have h1 := splitMid_lt bytes.length (by omega)
    simp only [List.length_take]
    omega
  · have h1 := splitMid_pos bytes.length
    simp only [List.length_drop]
    omega

/-- Effect of one successful `WriteAt` on a file in memory (offset already known non-negative). -/
def memWrite (f : List Byte) (p : List Byte) (off : Nat) : List Byte :=
  if p = [] then f
  else f.take off ++ List.replicate (off - f.length) 0 ++ p ++ f.drop (off + p.length)

/-- Effect of one logged call on a file in memory. -/
def applyOp (f : List Byte) : IOOp → List Byte
  | .write p off none => memWrite f p off.toNat
  | _ => f

/-- Contents of a file in memory after the logged calls. -/
def replay (ops : List IOOp) (f : List Byte) : List Byte := ops.foldl applyOp f

/-- Byte range `[start, start + len)` of every write in a log. -/
def writeRanges : List IOOp → List (Int × Nat)
  | [] => []
  | .write p off _ :: rest => (off, p.length) :: writeRanges rest
  | .read _ _ :: rest => writeRanges rest

/-- Two byte ranges have no offset in common. -/
def RangesDisjoint (a b : Int × Nat) : Prop :=
  a.2 = 0 ∨ b.2 = 0 ∨ a.1 + a.2 ≤ b.1 ∨ b.1 + b.2 ≤ a.1

instance (a b : Int × Nat) : Decidable (RangesDisjoint a b) := by
  unfold RangesDisjoint
  infer_instance

/-! ## A concrete stand-in for the primitives

The statements below hold for every choice of the primitives. To evaluate the code at concrete
inputs, `samplePrims` supplies a small compression function that, like the real one, depends on
the message words and their order, on the counter, on the block length and on the flags. -/

/-- Weighted sum of a list of words; the weights make it depend on the order. -/
def sampleSum : Nat → List Word → Nat
  | _, [] => 0
  | k, x :: rest => k * (x.val + 1) + sampleSum (k + 1) rest

/-- One output word of the stand-in compression function. -/
def sampleWord (n : Node) (i : Nat) : Word :=
  ⟨(sampleSum (i + 1) (n.cv.words ++ n.block) + 7 * n.counter + 11 * n.blockLen
      + 13 * n.flags + i) % 4294967296, Nat.mod_lt _ (by decide)⟩

/-- Stand-in primitives: initial value and `ROOT` flag of BLAKE3, a chunk compression that keeps
the chunk length, its counter and its flags, and a parent node holding the two children. -/
def samplePrims : Primitives where
  iv := ⟨[1779033703, 3144134277, 1013904242, 2773480762, 1359893119, 2600822924, 528734635,
    1541459225], rfl⟩
  flagRoot := 8
  compressChunk := fun bytes key counter flags =>
    { cv := key, block := [⟨bytes.length % 4294967296, Nat.mod_lt _ (by decide)⟩],
      counter := counter, blockLen := bytes.length % 64, flags := flags + 1 }
  chainingValue := fun n => ⟨(List.range 8).map (sampleWord n), by simp⟩
  parentNode := fun l r key flags =>
    { cv := key, block := l.words ++ r.words, counter := 0, blockLen := 64, flags := flags + 4 }

/-! ## The second-layer tree: the canonical tree and the queue -/

/-- Root of the canonical tree over a sequence of chaining values: a range of at least two values
is split at the largest power of two below its count (`splitMid`, see `splitMid_spec`), inner
nodes are `parentNode(l, r, iv, 0)`, and the top node is compressed with `flags`. A single value
is its own root. -/
def canonicalTree (P : Primitives) (leaves : List CV) (flags : Nat) : CV :=
  if h : leaves.length < 2 then leaves.headD CV.zero
  else
    let mid := splitMid leaves.length
    P.chainingValue (P.parentNode (canonicalTree P (leaves.take mid) 0)
      (canonicalTree P (leaves.drop mid) 0) P.iv flags)
termination_by leaves.length
decreasing_by
  · have h1 := splitMid_lt leaves.length (by omega)
    simp only [List.length_take]
    omega
  · have h1 := splitMid_pos leaves.length
    simp only [List.length_drop]
    omega

/-- Value enqueued by one iteration of the loop for the dequeued pair `(l, r)`. -/
def combinePair (P : Primitives) (l r : CV) : CV :=
  if hexEncodeToString (cvToBytes l) = hexEncodeToString (cvToBytes r) then l
  else P.chainingValue (P.parentNode l r P.iv 0)

/-- Pairs `(l, r)` dequeued by the successive iterations of the loop of
`CustomBaoEncodeSecondLayerHashTree` started on `hashQueue`, in order. -/
def dequeuedPairs (P : Primitives) : List CV → List (CV × CV)
  | l :: r :: x :: rest => (l, r) :: dequeuedPairs P (enqueue (x :: rest) (combinePair P l r))
  | _ => []
termination_by q => q.length
decreasing_by simp [enqueue]

/-- Queue with which the loop starts: the decoded roots, the last one repeated when their number
is odd. -/
def paddedQueue (roots : List CV) : List CV :=
  if roots.length % 2 = 1 then
    match roots[roots.length - 1]? with
    | none => roots
    | some last => enqueue roots last
  else roots

/-- One pass of the loop over a queue: every adjacent pair is replaced by the value the loop
enqueues for it; a last value without partner stays. -/
def queueLevel (P : Primitives) : List CV → List CV
  | l :: r :: rest => combinePair P l r :: queueLevel P rest
  | q => q

/-- Adjacent pairs of a list. -/
def pairsOf : List CV → List (CV × CV)
  | l :: r :: rest => (l, r) :: pairsOf rest
  | _ => []

/-- One level of parents: every adjacent pair is replaced by its parent chaining value (flags 0);
a last value without partner stays. -/
def pairUp (P : Primitives) : List CV → List CV
  | l :: r :: rest => P.chainingValue (P.parentNode l r P.iv 0) :: pairUp P rest
  | q => q

/-- Three distinct chaining values used to run the second-layer tree on a concrete input. -/
def sampleRoots : List CV :=
  [CV.zero, samplePrims.iv, ⟨[1, 2, 3, 4, 5, 6, 7, 8], rfl⟩]

/-- The 32 bytes returned by an encoder call (empty when the call panicked). -/
def returnedRoot (r : Except Panic (List Byte × Option IOError)) : List Byte :=
  match r with
  | .ok (root, _) => root
  | .error _ => []

/-- Chaining value of piece `i` of the 4097 zero bytes cut into pieces of 1024 bytes. -/
def samplePieceCV (len i : Nat) : CV :=
  samplePrims.chainingValue (samplePrims.compressChunk (List.replicate len 0) samplePrims.iv i 0)

/-- Pre-order layout of the tree below the header, in the words of the specification: a range
`X` of at most `B` bytes is stored as itself in inline mode and as nothing in outboard mode; a
longer range is stored as the 32-byte chaining values of its two children followed by the
layouts of the children, the left child being the first `mid` bytes, `mid` the largest power of
two below `len(X)`. `idx` is the index of the first chunk of `X`; the chaining value of a child
is its plain tree hash `subtreeChainingValue` without the root flag. (The test `len(X) < 2` only
serves termination for `B = 0`.) -/
def preOrder (P : Primitives) (B : Nat) (outboard : Bool) (X : List Byte) (idx : Nat) :
    List Byte :=
  if h : X.length ≤ B ∨ X.length < 2 then (if outboard then [] else X)
  else
    let mid := splitMid X.length
    let idxR := u64 (idx + mid / 1024)
    cvToBytes (subtreeChainingValue P (X.take mid) idx 0)
      ++ cvToBytes (subtreeChainingValue P (X.drop mid) idxR 0)
      ++ preOrder P B outboard (X.take mid) idx
      ++ preOrder P B outboard (X.drop mid) idxR
termination_by X.length
decreasing_by
  · have h1 := splitMid_lt X.length (by omega)
    simp only [List.length_take]
    omega
  · have h1 := splitMid_pos X.length
    simp only [List.length_drop]
    omega

/-- Number of bytes of the file that `rec` uses for a range of `n` bytes when nothing overlaps. -/
def treeExtent (B : Nat) (outboard : Bool) (n : Nat) : Nat :=
  treeChildren B n * 32 + (if outboard then 0 else n)

/-! ## Failures of the reader and of the writer -/

/-- Outcome recorded for a call: `none` when it succeeded. -/
def IOOp.outcome : IOOp → Option IOError
  | .read _ e => e
  | .write _ _ e => e

/-- Every call of the list succeeded. -/
def AllSucceeded (ops : List IOOp) : Prop := ∀ op ∈ ops, op.outcome = none

/-- The last call of the list failed with `e`, and every call before it succeeded. -/
def FailsLastWith (ops : List IOOp) (e : IOError) : Prop :=
  ∃ oks op, ops = oks ++ [op] ∧ AllSucceeded oks ∧ op.outcome = some e

/-- What a step started in state `st` on `n` bytes guarantees about its result `res` and its final
state `st'`: either it succeeded, every call it issued succeeded and it consumed `n` bytes of the
reader; or it panicked with the error of a failed call, which is the last call issued. -/
def StepPost {σ α : Type} (st : EncState σ) (n : Nat) (res : Except Panic α)
    (st' : EncState σ) : Prop :=
  ∃ ops, st'.log = st.log ++ ops ∧
    match res with
    | .ok _ => AllSucceeded ops ∧ st'.err = none ∧ n ≤ st.data.length
        ∧ st'.data = st.data.drop n
    | .error p => ∃ e, p = .io e ∧ FailsLastWith ops e

/-- Queues held at the head of the loop of `CustomBaoEncodeSecondLayerHashTree`, one per test of
`len(hashQueue) > 2`, from the starting queue to the queue with which the loop ends. -/
def queueStates (P : Primitives) : List CV → List (List CV)
  | l :: r :: x :: rest =>
    (l :: r :: x :: rest) :: queueStates P (enqueue (x :: rest) (combinePair P l r))
  | q => [q]
termination_by q => q.length
decreasing_by simp [enqueue]

/-! ## The chunk compressor (`compress_noasm.go`, `compress_amd64.go`) -/

/-- Constant `blockSize` of the package: the sources pass their `[blockSize]byte` arrays where
`[64]byte` is declared. -/
def blockSize : Nat := 64

/-- Constants and functions of the package that the two compress files use and that are defined
elsewhere in the package. `compressNodeGeneric` is given by the sixteen words it stores. -/
structure Engine where
  flagChunkStart : Nat
  flagChunkEnd : Nat
  FlagRoot : Nat
  Iv : CV
  ChainingValue : Node → CV
  ParentNode : CV → CV → CV → Nat → Node
  compressNodeGeneric : Node → List Word
  mergeSubtreesGeneric : List CV → Nat → CV → Nat → Node

/-- Go `x &^ y` (bit clear): the bits of `x` that are not set in `y`. -/
def bitClear (x y : Nat) : Nat := x ^^^ (x &&& y)

/-- Go `copy(dst, src)` on byte slices: the first `min(len(dst), len(src))` bytes of `dst` are
replaced by those of `src`; the value is the new content of `dst`. -/
def copyBytes (dst src : List Byte) : List Byte := src.take dst.length ++ dst.drop src.length

/-- Go `bytesToWords` of `compress_noasm.go`: word `i` is the little-endian word at `bytes[4*i:]`. -/
def bytesToWords (bytes : List Byte) : List Word := wordsOfBytes 16 bytes

/-- Go `wordsToBytes`: each word as four little-endian bytes. -/
def wordsToBytes (words : List Word) : List Byte := words.flatMap putUint32

/-- The zero value `[16]uint32{}`. -/
def zeroBlock : List Word := List.replicate 16 0

/-- The loop `for len(chunk) > blockSize` of the portable `CompressChunk`. The state is the rest
of the chunk, the byte array `block` and the node; `log` collects, in order, the nodes passed to
`ChainingValue`. -/
def noasm.CompressChunk.loop (E : Engine) (chunk block : List Byte) (n : Node)
    (log : List Node) : List Byte × List Byte × Node × List Node :=
  if h : blockSize < chunk.length then
    let block := copyBytes block chunk
    let chunk1 := chunk.drop blockSize
    let n := { n with block := bytesToWords block }
    let log := log ++ [n]
    let n := { n with cv := E.ChainingValue n }
    let n := { n with flags := bitClear n.flags E.flagChunkStart }
    noasm.CompressChunk.loop E chunk1 block n log
  else (chunk, block, n, log)
termination_by chunk.length
decreasing_by
  simp only [List.length_drop, blockSize] at h ⊢
  omega

/-- Go `CompressChunk` of `compress_noasm.go`, together with the nodes it passed to
`ChainingValue`, in order. -/
def noasm.CompressChunkRun (E : Engine) (chunk : List Byte) (key : CV) (counter flags : Nat) :
    Node × List Node :=
  let n : Node :=
    { cv := key, block := zeroBlock, counter := counter, blockLen := blockSize,
      flags := flags ||| E.flagChunkStart }
  let block : List Byte := List.replicate blockSize 0
  match noasm.CompressChunk.loop E chunk block n [] with
  | (chunk, _, n, log) =>
    let block : List Byte := List.replicate blockSize 0
    let n := { n with blockLen := chunk.length % 4294967296 }
    let block := copyBytes block chunk
    let n := { n with block := bytesToWords block }
    let n := { n with flags := n.flags ||| E.flagChunkEnd }
    (n, log)

/-- Go `CompressChunk` of `compress_noasm.go`. -/
def noasm.CompressChunk (E : Engine) (chunk : List Byte) (key : CV) (counter flags : Nat) :
    Node :=
  (noasm.CompressChunkRun E chunk key counter flags).1

/-- The loop of the amd64 `CompressChunk`. `blockBytes` is a byte view of `n.block`: a copy into
it replaces the bytes of the words, read here as little-endian. -/
def amd64.CompressChunk.loop (E : Engine) (chunk : List Byte) (n : Node) (log : List Node) :
    List Byte × Node × List Node :=
  if h : blockSize < chunk.length then
    let n := { n with block := bytesToWords (copyBytes (wordsToBytes n.block) chunk) }
    let chunk1 := chunk.drop blockSize
    let log := log ++ [n]
    let n := { n with cv := E.ChainingValue n }
    let n := { n with flags := bitClear n.flags E.flagChunkStart }
    amd64.CompressChunk.loop E chunk1 n log
  else (chunk, n, log)
termination_by chunk.length
decreasing_by
  simp only [List.length_drop, blockSize] at h ⊢
  omega

/-- Go `CompressChunk` of `compress_amd64.go`, together with the nodes it passed to
`ChainingValue`, in order. -/
def amd64.CompressChunkRun (E : Engine) (chunk : List Byte) (key : CV) (counter flags : Nat) :
    Node × List Node :=
  let n : Node :=
    { cv := key, block := zeroBlock, counter := counter, blockLen := blockSize,
      flags := flags ||| E.flagChunkStart }
  match amd64.CompressChunk.loop E chunk n [] with
  | (chunk, n, log) =>
    let n := { n with block := zeroBlock }
    let n := { n with block := bytesToWords (copyBytes (wordsToBytes n.block) chunk) }
    let n := { n with blockLen := chunk.length % 4294967296 }
    let n := { n with flags := n.flags ||| E.flagChunkEnd }
    (n, log)

/-- Go `CompressChunk` of `compress_amd64.go`. -/
def amd64.CompressChunk (E : Engine) (chunk : List Byte) (key : CV) (counter flags : Nat) :
    Node :=
  (amd64.CompressChunkRun E chunk key counter flags).1

/-- Go `compressNode` (the same in both files): the sixteen words stored by
`compressNodeGeneric`. -/
def compressNode (E : Engine) (n : Node) : List Word := E.compressNodeGeneric n

/-- Go `hashBlock` of `compress_noasm.go`; the value is the content of `out` after the call. -/
def noasm.hashBlock (E : Engine) (buf : List Byte) : List Byte :=
  let block : List Byte := List.replicate 64 0
  let block := copyBytes block buf
  let words := bytesToWords block
  let words := E.compressNodeGeneric
    { cv := E.Iv, block := words, counter := 0, blockLen := buf.length % 4294967296,
      flags := E.flagChunkStart ||| E.flagChunkEnd ||| E.FlagRoot }
  wordsToBytes words

/-- Go `hashBlock` of `compress_amd64.go`: the block is filled through its byte view and the
output words are stored in `out` seen as `[16]uint32`, little-endian. -/
def amd64.hashBlock (E : Engine) (buf : List Byte) : List Byte :=
  let block := zeroBlock
  let block := bytesToWords (copyBytes (wordsToBytes block) buf)
  wordsToBytes (E.compressNodeGeneric
    { cv := E.Iv, block := block, counter := 0, blockLen := buf.length % 4294967296,
      flags := E.flagChunkStart ||| E.flagChunkEnd ||| E.FlagRoot })

/-- Stand-in for the package: the flag values of BLAKE3 and the stand-in compression. -/
def sampleEngine : Engine where
  flagChunkStart := 1
  flagChunkEnd := 2
  FlagRoot := 8
  Iv := samplePrims.iv
  ChainingValue := samplePrims.chainingValue
  ParentNode := samplePrims.parentNode
  compressNodeGeneric := fun n => (List.range 16).map (sampleWord n)
  mergeSubtreesGeneric := fun cvs _ key flags =>
    samplePrims.parentNode (cvs.getD 0 CV.zero) (cvs.getD 1 CV.zero) key flags

/-- The primitives called by `custom_bao.go`, taken from the compress files: `compressChunk` is
the portable `CompressChunk`. -/
def enginePrims (E : Engine) : Primitives where
  iv := E.Iv
  flagRoot := E.FlagRoot
  compressChunk := noasm.CompressChunk E
  chainingValue := E.ChainingValue
  parentNode := E.ParentNode

/-- Primitives that agree with `P` except for the node computed for the empty chunk, which is
given by `f`. -/
def withEmptyChunk (P : Primitives) (f : CV → Nat → Nat → Node) : Primitives where
  iv := P.iv
  flagRoot := P.flagRoot
  compressChunk := fun bytes key counter flags =>
    if bytes = [] then f key counter flags else P.compressChunk bytes key counter flags
  chainingValue := P.chainingValue
  parentNode := P.parentNode

/-! ## Merging subtrees and compressing a buffer (`compress_amd64.go`) -/

/-- Modelled from the spec: the assembly routine `compressParentsAVX2` is only declared in
`compress_amd64.go`. It is taken to write
`parents[i] = ChainingValue(ParentNode(cvs[2i], cvs[2i+1], key, flags))` for `i < 8`.
`mergeSubtrees` passes the first eight slots of `cvs` as `parents`, so the value is the array
`cvs` after the call: eight parents, then the slots 8 to 15 unchanged. (Slot `i` is written after
the slots `2i` and `2i+1` are read, also when the routine works in place from `i = 0` upwards.) -/
def compressParentsAVX2 (E : Engine) (cvs : List CV) (key : CV) (flags : Nat) : List CV :=
  (List.range 8).map (fun i =>
    E.ChainingValue (E.ParentNode (cvs.getD (2 * i) CV.zero) (cvs.getD (2 * i + 1) CV.zero)
      key flags)) ++ cvs.drop 8

/-- The loop `for numCVs > 2` of `mergeSubtrees`; the value is the array and the count at the
end of the loop. An index outside the array panics. The index test keeps `numCVs` within the
array where it is incremented, so `numCVs++` does not wrap. -/
def mergeSubtrees.loop (E : Engine) (key : CV) (flags : Nat) (cvs : List CV) (numCVs : Nat) :
    Except Panic (List CV × Nat) :=
  if h : 2 < numCVs then
    if numCVs % 2 = 0 then
      mergeSubtrees.loop E key flags (compressParentsAVX2 E cvs key flags) (numCVs / 2)
    else
      match cvs[numCVs - 1]? with
      | none => .error .indexOutOfRange
      | some keep =>
        let cvs := compressParentsAVX2 E cvs key flags
        if numCVs / 2 < cvs.length then
          mergeSubtrees.loop E key flags (cvs.set (numCVs / 2) keep) ((numCVs + 1) / 2)
        else .error .indexOutOfRange
  else .ok (cvs, numCVs)
termination_by numCVs
decreasing_by
  all_goals omega

/-- Go `mergeSubtrees` of `compress_amd64.go`. `haveAVX2` is the package variable of that name;
`cvs` is the array `[maxSIMD][8]uint32`. -/
def mergeSubtrees (E : Engine) (haveAVX2 : Bool) (cvs : List CV) (numCVs : Nat) (key : CV)
    (flags : Nat) : Except Panic Node :=
  if !haveAVX2 then .ok (E.mergeSubtreesGeneric cvs numCVs key flags)
  else
    match mergeSubtrees.loop E key flags cvs numCVs with
    | .error p => .error p
    | .ok (cvs, _) =>
      match cvs[0]?, cvs[1]? with
      | some c0, some c1 => .ok (E.ParentNode c0 c1 key flags)
      | _, _ => .error .indexOutOfRange

/-- Chaining value of the canonical tree over a sequence of leaf chaining values, every parent
being `ChainingValue(ParentNode(l, r, key, flags))`: a sequence of at least two leaves is split at
the largest power of two below its length (`splitMid`); a single leaf is its own value. -/
def mergeTree (E : Engine) (key : CV) (flags : Nat) (leaves : List CV) : CV :=
  if h : leaves.length < 2 then leaves.headD CV.zero
  else
    let mid := splitMid leaves.length
    E.ChainingValue (E.ParentNode (mergeTree E key flags (leaves.take mid))
      (mergeTree E key flags (leaves.drop mid)) key flags)
termination_by leaves.length
decreasing_by
  · have h1 := splitMid_lt leaves.length (by omega)
    simp only [List.length_take]
    omega
  · have h1 := splitMid_pos leaves.length
    simp only [List.length_drop]
    omega

/-- Primitives whose parent compression is that of `mergeSubtrees` for a given key and flags. -/
def mergePrims (E : Engine) (key : CV) (flags : Nat) : Primitives where
  iv := key
  flagRoot := flags
  compressChunk := noasm.CompressChunk E
  chainingValue := E.ChainingValue
  parentNode := fun l r _ _ => E.ParentNode l r key flags

/-- Constant `maxSIMD` of the package: the arrays `[maxSIMD][8]uint32` of the sources are passed
where `[16][8]uint32` is declared. -/
def maxSIMD : Nat := 16

/-- Constant `ChunkSize` of the package (1024 bytes). -/
def ChunkSize : Nat := 1024

/-- Modelled from the spec: the assembly routine `compressChunksAVX512` is only declared in
`compress_amd64.go`. It is taken to compute in every lane what the scalar chunk path computes:
`cvs[i] = ChainingValue(CompressChunk(buf[1024*i : 1024*(i+1)], key, counter + i, flags))` for
`i < 16`. -/
def compressChunksAVX512 (E : Engine) (buf : List Byte) (key : CV) (counter flags : Nat) :
    List CV :=
  (List.range 16).map (fun i =>
    E.ChainingValue (amd64.CompressChunk E ((buf.drop (ChunkSize * i)).take ChunkSize) key
      (u64 (counter + i)) flags))

/-- Modelled from the spec: the assembly routine `compressChunksAVX2` is only declared in
`compress_amd64.go`. It is taken to compute in every lane what the scalar chunk path computes:
`cvs[i] = ChainingValue(CompressChunk(buf[1024*i : 1024*(i+1)], key, counter + i, flags))` for
`i < 8`. -/
def compressChunksAVX2 (E : Engine) (buf : List Byte) (key : CV) (counter flags : Nat) :
    List CV :=
  (List.range 8).map (fun i =>
    E.ChainingValue (amd64.CompressChunk E ((buf.drop (ChunkSize * i)).take ChunkSize) key
      (u64 (counter + i)) flags))

/-- The tail shared by `compressBufferAVX512` and `compressBufferAVX2`: the scalar path for a
partial last chunk, then `mergeSubtrees`. Slicing `buf` beyond its length and indexing `cvs`
beyond its length panic. -/
def compressBufferTail (E : Engine) (haveAVX2 : Bool) (cvs : List CV) (buf : List Byte)
    (buflen : Nat) (key : CV) (counter flags : Nat) : Except Panic Node :=
  let numChunks := buflen / ChunkSize
  if buflen % ChunkSize ≠ 0 then
    if buf.length < buflen then .error .sliceBounds
    else
      let partialChunk := (buf.take buflen).drop (buflen - buflen % ChunkSize)
      if cvs.length ≤ numChunks then .error .indexOutOfRange
      else
        let cvs := cvs.set numChunks
          (E.ChainingValue (amd64.CompressChunk E partialChunk key (u64 (counter + numChunks))
            flags))
        mergeSubtrees E haveAVX2 cvs (u64 (numChunks + 1)) key flags
  else mergeSubtrees E haveAVX2 cvs numChunks key flags

/-- Go `compressBufferAVX512`. `buf` is the array of `maxSIMD * ChunkSize` bytes, `buflen` a
non-negative `int`. -/
def compressBufferAVX512 (E : Engine) (haveAVX2 : Bool) (buf : List Byte) (buflen : Nat)
    (key : CV) (counter flags : Nat) : Except Panic Node :=
  let cvs := compressChunksAVX512 E buf key counter flags
  compressBufferTail E haveAVX2 cvs buf buflen key counter flags

/-- Go `compressBufferAVX2`: the first half of the buffer fills the first eight slots of `cvs`,
and the second half the last eight when more than eight whole chunks are present. -/
def compressBufferAVX2 (E : Engine) (haveAVX2 : Bool) (buf : List Byte) (buflen : Nat)
    (key : CV) (counter flags : Nat) : Except Panic Node :=
  let cvs : List CV := List.replicate maxSIMD CV.zero
  let cvs := compressChunksAVX2 E (buf.take (8 * ChunkSize)) key counter flags ++ cvs.drop 8
  let numChunks := buflen / ChunkSize
  let cvs :=
    if 8 < numChunks then
      cvs.take 8
        ++ compressChunksAVX2 E ((buf.drop (8 * ChunkSize)).take (8 * ChunkSize)) key
            (u64 (counter + 8)) flags
    else cvs
  compressBufferTail E haveAVX2 cvs buf buflen key counter flags

/-- Go `compressBuffer` of `compress_amd64.go`; `compressBufferGeneric` is defined elsewhere in
the package and is a parameter. -/
def compressBuffer (E : Engine) (haveAVX512 haveAVX2 : Bool)
    (compressBufferGeneric : List Byte → Nat → CV → Nat → Nat → Node) (buf : List Byte)
    (buflen : Nat) (key : CV) (counter flags : Nat) : Except Panic Node :=
  if haveAVX512 = true ∧ ChunkSize * 2 ≤ buflen then
    compressBufferAVX512 E haveAVX2 buf buflen key counter flags
  else if haveAVX2 = true ∧ ChunkSize * 2 ≤ buflen then
    compressBufferAVX2 E haveAVX2 buf buflen key counter flags
  else .ok (compressBufferGeneric buf buflen key counter flags)

/-- The scalar chunk path on chunk `i` of the first `buflen` bytes of the buffer:
`ChainingValue(CompressChunk(chunk_i, key, counter + i, flags))`. -/
def scalarCV (E : Engine) (buf : List Byte) (buflen : Nat) (key : CV) (counter flags : Nat)
    (i : Nat) : CV :=
  E.ChainingValue (amd64.CompressChunk E (((buf.take buflen).drop (1024 * i)).take 1024) key
    (u64 (counter + i)) flags)

/-- The array of the scalar values of the `⌈buflen/1024⌉` chunks of `buf[:buflen]`, the unused
slots being zero. -/
def scalarCVs (E : Engine) (buf : List Byte) (buflen : Nat) (key : CV) (counter flags : Nat) :
    List CV :=
  (List.range ((buflen + 1023) / 1024)).map (scalarCV E buf buflen key counter flags)
    ++ List.replicate (16 - (buflen + 1023) / 1024) CV.zero

/-- Memory holding zero bytes behind every decoded slice. The strings of the examples decode to
32 bytes, so that it is never read. -/
def zeroMemory : Nat → Nat → Byte := fun _ _ => 0

/-- Chaining value held by a hexadecimal string that decodes to at least 32 bytes: the eight
little-endian words of its first 32 bytes (zero when the string does not decode). -/
def rootOfHex (h : String) : CV :=
  match hexDecodeString h with
  | some b => ⟨wordsOfBytes 8 b, wordsOfBytes_length 8 b⟩
  | none => CV.zero

/-- The calls `ops` made in order on the writer `W` started in state `d`, up to the first write
that `W` refuses: the state of the writer at the end, the calls made with their outcomes, and the
error of the refused write if there is one. The outcomes recorded in `ops` are ignored; a read
does not touch the writer. -/
def runOps {σ : Type} (W : WriterAt σ) : σ → List IOOp → σ × List IOOp × Option IOError
  | d, [] => (d, [], none)
  | d, IOOp.read n _ :: rest =>
    match runOps W d rest with
    | (d1, log, e) => (d1, IOOp.read n none :: log, e)
  | d, IOOp.write p off _ :: rest =>
    match W.writeAt d p off with
    | .ok d1 =>
      match runOps W d1 rest with
      | (d2, log, e) => (d2, IOOp.write p off none :: log, e)
    | .error e => (d, [IOOp.write p off (some e)], some e)

/-- A file in memory with room for `cap` bytes: a write that would end past `cap` fails with the
error code 28 ("no space left on device"), any other write is that of `memWriter`. -/
def boundedWriter (cap : Nat) : WriterAt (List Byte) where
  writeAt f p off :=
    if off.toNat + p.length ≤ cap then memWriter.writeAt f p off else .error (.other 28)

/-! ## Lemmas and theorems -/

theorem u64_of_lt {x : Nat} (h : x < 2 ^ 64) : u64 x = x := Nat.mod_eq_of_lt h

theorem toInt64_of_lt {x : Nat} (h : x < 2 ^ 63) : toInt64 x = (x : Int) := by
  have h1 : u64 x = x := u64_of_lt (by omega)
  unfold toInt64
  rw [h1, if_pos h]

theorem len64_ne_zero {x : Nat} (hx : x ≠ 0) : len64 x ≠ 0 := by
  have := len64Aux_pos 64 x hx (by decide)
  unfold len64
  omega

theorem len64Aux_upper (fuel x : Nat) (h : x < 2 ^ fuel) : x < 2 ^ len64Aux fuel x := by
  induction fuel generalizing x with
  | zero =>
    simp only [pow_zero, Nat.lt_one_iff] at h
    simp [h, len64Aux]
  | succ f ih =>
    by_cases hx : x = 0
    · simp [len64Aux, hx]
    · simp only [len64Aux, hx, if_false]
      have h2 : x / 2 < 2 ^ f := by
        rw [pow_succ] at h
        omega
      have := ih (x / 2) h2
      rw [pow_succ]
      omega

/-- The split point is a power of two, below the length and at least half of it. -/
theorem splitMid_spec (n : Nat) (h2 : 2 ≤ n) (hn : n ≤ 2 ^ 64) :
    ∃ k, splitMid n = 2 ^ k ∧ 2 ^ k < n ∧ n ≤ 2 * 2 ^ k := by
  refine ⟨len64 (n - 1) - 1, ?_, ?_, ?_⟩
  · unfold splitMid
    rw [Nat.one_shiftLeft]
  · have := splitMid_lt n h2
    unfold splitMid at this
    rwa [Nat.one_shiftLeft] at this
  · have hu := len64Aux_upper 64 (n - 1) (by omega)
    have hp := len64Aux_pos 64 (n - 1) (by omega) (by decide)
    unfold len64
    have e : len64Aux 64 (n - 1) = (len64Aux 64 (n - 1) - 1) + 1 := by omega
    rw [e, pow_succ] at hu
    omega

/-! ## `rec` on a file in memory -/

theorem read_ok {σ : Type} (n : Nat) (st : EncState σ) (he : st.err = none)
    (hn : n ≤ st.data.length) :
    CustomBaoEncode.read n st =
      (.ok (st.data.take n),
        { st with data := st.data.drop n, log := st.log ++ [IOOp.read n none] }) := by
  unfold CustomBaoEncode.read readFull
  rw [he]
  simp [hn]

theorem memWriter_writeAt (f p : List Byte) (off : Nat) :
    memWriter.writeAt f p (off : Int) = .ok (memWrite f p off) := by
  unfold memWriter memWrite
  by_cases hp : p = []
  · simp [hp]
  · simp [hp]

theorem write_mem_ok (p : List Byte) (off : Nat) (st : EncState (List Byte))
    (he : st.err = none) (ho : off < 2 ^ 63) :
    CustomBaoEncode.write memWriter p off st =
      (.ok (),
        { st with dst := memWrite st.dst p off,
                  log := st.log ++ [IOOp.write p (off : Int) none] }) := by
  unfold CustomBaoEncode.write
  rw [he, toInt64_of_lt ho, memWriter_writeAt]

theorem treeGroups_leaf {B n : Nat} (h : n ≤ B) : treeGroups B n = 1 := by
  rw [treeGroups, dif_pos (Or.inl h)]

theorem treeGroups_node {B n : Nat} (hB : 1 ≤ B) (h : B < n) :
    treeGroups B n = treeGroups B (splitMid n) + treeGroups B (n - splitMid n) := by
  rw [treeGroups, dif_neg (by omega)]

theorem treeChildren_leaf {B n : Nat} (h : n ≤ B) : treeChildren B n = 0 := by
  rw [treeChildren, dif_pos (Or.inl h)]

theorem treeChildren_node {B n : Nat} (hB : 1 ≤ B) (h : B < n) :
    treeChildren B n = 2 + treeChildren B (splitMid n) + treeChildren B (n - splitMid n) := by
  rw [treeChildren, dif_neg (by omega)]

theorem treeCV_leaf (P : Primitives) {B : Nat} {bytes : List Byte} (counter flags : Nat)
    (h : bytes.length ≤ B) :
    treeCV P B bytes counter flags = groupChainingValue P B bytes counter flags := by
  rw [treeCV, dif_pos (Or.inl h)]

theorem treeCV_node (P : Primitives) {B : Nat} {bytes : List Byte} (counter flags : Nat)
    (hB : 1 ≤ B) (h : B < bytes.length) :
    treeCV P B bytes counter flags =
      P.chainingValue (P.parentNode
        (treeCV P B (bytes.take (splitMid bytes.length)) counter 0)
        (treeCV P B (bytes.drop (splitMid bytes.length))
          (u64 (counter + treeGroups B (splitMid bytes.length))) 0) P.iv flags) := by
  rw [treeCV, dif_neg (by omega)]

theorem treeOps_leaf (P : Primitives) {B : Nat} (outboard : Bool) {bytes : List Byte}
    (counter flags off : Nat) (h : bytes.length ≤ B) :
    treeOps P B outboard bytes counter flags off =
      IOOp.read bytes.length none ::
        (if outboard then [] else [IOOp.write bytes (off : Int) none]) := by
  rw [treeOps, dif_pos (Or.inl h)]

theorem treeOps_node (P : Primitives) {B : Nat} (outboard : Bool) {bytes : List Byte}
    (counter flags off : Nat) (hB : 1 ≤ B) (h : B < bytes.length) :
    treeOps P B outboard bytes counter flags off =
      treeOps P B outboard (bytes.take (splitMid bytes.length)) counter 0 (off + 64)
        ++ treeOps P B outboard (bytes.drop (splitMid bytes.length))
            (u64 (counter + treeGroups B (splitMid bytes.length))) 0
            (off + 64 + leftExtent B outboard (splitMid bytes.length))
        ++ [IOOp.write (cvToBytes (treeCV P B (bytes.take (splitMid bytes.length)) counter 0))
              (off : Int) none,
            IOOp.write (cvToBytes (treeCV P B (bytes.drop (splitMid bytes.length))
              (u64 (counter + treeGroups B (splitMid bytes.length))) 0))
              ((off + 32 : Nat) : Int) none] := by
  rw [treeOps, dif_neg (by omega)]

/-- A range of `n ≥ 1` bytes has at most `n` leaf groups. -/
theorem treeChildren_le (B : Nat) (hB : 1 ≤ B) (n : Nat) (hn : 1 ≤ n) :
    treeChildren B n + 2 ≤ 2 * n := by
  induction n using Nat.strong_induction_on with
  | _ n ih =>
    rcases Nat.lt_or_ge B n with h | h
    · have h1 := splitMid_lt n (by omega)
      have h2 := splitMid_pos n
      rw [treeChildren_node hB h]
      have a := ih (splitMid n) h1 h2
      have b := ih (n - splitMid n) (by omega) (by omega)
      omega
    · rw [treeChildren_leaf h]
      omega

theorem leftExtent_le (B : Nat) (hB : 1 ≤ B) (outboard : Bool) (m : Nat) (hm : 1 ≤ m) :
    leftExtent B outboard m + 64 ≤ 65 * m := by
  unfold leftExtent
  have h1 := treeChildren_le B hB m hm
  have h2 : m / B * B ≤ m := Nat.div_mul_le_self m B
  cases outboard <;> simp <;> omega

theorem replay_append (a b : List IOOp) (f : List Byte) :
    replay (a ++ b) f = replay b (replay a f) := by
  unfold replay
  rw [List.foldl_append]

/-- On a file in memory, with the `n` bytes available in the reader and offsets that stay within
`int64`, `rec` returns `treeChildren` and `treeCV`, consumes the `n` bytes, advances the counter
by `treeGroups`, and issues exactly the calls `treeOps`, all successful. -/
theorem rec_memWriter (P : Primitives) (B : Nat) (outboard : Bool) (hB : 1 ≤ B) (n : Nat) :
    ∀ (flags off : Nat) (st : EncState (List Byte)), st.err = none → n ≤ st.data.length →
      off + 65 * n < 2 ^ 63 →
      CustomBaoEncode.rec P memWriter B outboard n flags off st =
        (.ok (treeChildren B n, treeCV P B (st.data.take n) st.counter flags),
          { data := st.data.drop n,
            dst := replay (treeOps P B outboard (st.data.take n) st.counter flags off) st.dst,
            counter := u64 (st.counter + treeGroups B n),
            err := none,
            log := st.log ++ treeOps P B outboard (st.data.take n) st.counter flags off }) := by
  induction n using Nat.strong_induction_on with
  | _ n ih =>
    intro flags off st he hn hoff
    obtain ⟨data, dst, counter, err, log⟩ := st
    simp only at he hn ⊢
    subst he
    have hlen : (data.take n).length = n := by
      rw [List.length_take]; omega
    rcases Nat.lt_or_ge B n with h | h
    · -- inner node
      have h2 : 2 ≤ n := by omega
      have hm1 := splitMid_lt n h2
      have hm0 := splitMid_pos n
      have hle := leftExtent_le B hB outboard (splitMid n) hm0
      have hch := treeChildren_le B hB (splitMid n) hm0
      have hch2 := treeChildren_le B hB (n - splitMid n) (by omega)
      have hdm : splitMid n / B * B ≤ splitMid n := Nat.div_mul_le_self _ _
      have e1 : (data.take n).take (splitMid n) = data.take (splitMid n) := by
        rw [List.take_take, min_eq_left (by omega)]
      have e2 : (data.take n).drop (splitMid n)
          = (data.drop (splitMid n)).take (n - splitMid n) := by
        rw [List.drop_take]
      have e3 : (data.drop (splitMid n)).drop (n - splitMid n) = data.drop n := by
        rw [List.drop_drop]; congr 1; omega
      rw [@treeCV_node P B (data.take n) counter flags hB (by omega),
        @treeOps_node P B outboard (data.take n) counter flags off hB (by omega),
        treeChildren_node hB h, treeGroups_node hB h, hlen, e1, e2]
      rw [CustomBaoEncode.rec]
      rw [if_neg (by simp), if_neg (by omega), dif_neg (len64_ne_zero (by omega))]
      simp only []
      rw [u64_of_lt (by omega : off + 64 < 2 ^ 64)]
      rw [ih (splitMid n) hm1 0 (off + 64) _ rfl (by simp only []; omega) (by omega)]
      simp only []
      have ell : (if (!outboard) = true then
            u64 (u64 (treeChildren B (splitMid n) * 32) + u64 (splitMid n / B * B))
          else u64 (treeChildren B (splitMid n) * 32)) = leftExtent B outboard (splitMid n) := by
        unfold leftExtent
        cases outboard
        · simp only [Bool.not_false, if_true, Bool.false_eq_true, if_false]
          rw [u64_of_lt (by omega : treeChildren B (splitMid n) * 32 < 2 ^ 64),
            u64_of_lt (by omega : splitMid n / B * B < 2 ^ 64), u64_of_lt (by omega)]
        · simp only [Bool.not_true, Bool.false_eq_true, if_false, if_true]
          rw [u64_of_lt (by omega : treeChildren B (splitMid n) * 32 < 2 ^ 64)]
          omega
      rw [ell]
      rw [u64_of_lt (by omega : off + 64 + leftExtent B outboard (splitMid n) < 2 ^ 64)]
      rw [ih (n - splitMid n) (by omega) 0 (off + 64 + leftExtent B outboard (splitMid n)) _ rfl
        (by simp only [List.length_drop]; omega) (by omega)]
      simp only []
      rw [write_mem_ok _ _ _ rfl (by omega)]
      simp only []
      rw [u64_of_lt (by omega : off + 32 < 2 ^ 64)]
      rw [write_mem_ok _ _ _ rfl (by omega)]
      simp only []
      have ec : u64 (u64 (counter + treeGroups B (splitMid n)) + treeGroups B (n - splitMid n))
          = u64 (counter + (treeGroups B (splitMid n) + treeGroups B (n - splitMid n))) := by
        unfold u64
        omega
      rw [ec, e3, u64_of_lt (by omega :
        2 + treeChildren B (splitMid n) + treeChildren B (n - splitMid n) < 2 ^ 64)]
      simp only [replay_append, List.append_assoc]
      rfl
    · -- leaf group
      rw [CustomBaoEncode.rec]
      rw [if_neg (by simp), if_pos h, read_ok n _ rfl hn]
      simp only []
      rw [treeCV_leaf P _ _ (by omega), treeOps_leaf P _ _ _ _ (by omega), treeGroups_leaf h,
        treeChildren_leaf h, hlen]
      cases outboard
      · simp only [Bool.not_false, if_true, Bool.false_eq_true, if_false]
        rw [write_mem_ok _ _ _ rfl (by omega)]
        simp [replay, applyOp]
      · simp [replay, applyOp]

/-- `CustomBaoEncode` on a file in memory, with `dataLen` bytes available in the reader: the
function returns the bytes of `treeCV` with a nil error, after writing the header and then
issuing the calls `treeOps` at offset 8. -/
theorem encode_memWriter (P : Primitives) (B : Nat) (outboard isRoot : Bool) (hB : 8 ≤ B)
    (hB63 : B < 2 ^ 63) (dst data : List Byte) (dataLen pieceSize pieceIndex : Nat)
    (hn : dataLen ≤ data.length) (hbound : 8 + 65 * dataLen < 2 ^ 63) :
    CustomBaoEncode P memWriter dst data dataLen B outboard isRoot pieceSize pieceIndex =
      (.ok (cvToBytes (treeCV P B (data.take dataLen) (u64 (pieceSize / B * pieceIndex))
              (if isRoot then P.flagRoot else 0)), none),
        { data := data.drop dataLen,
          dst := replay (treeOps P B outboard (data.take dataLen)
                  (u64 (pieceSize / B * pieceIndex)) (if isRoot then P.flagRoot else 0) 8)
                  (memWrite dst (putUint64 dataLen) 0),
          counter := u64 (u64 (pieceSize / B * pieceIndex) + treeGroups B dataLen),
          err := none,
          log := IOOp.write (putUint64 dataLen) 0 none ::
                  treeOps P B outboard (data.take dataLen) (u64 (pieceSize / B * pieceIndex))
                    (if isRoot then P.flagRoot else 0) 8 }) := by
  unfold CustomBaoEncode
  rw [if_neg (by omega)]
  simp only []
  rw [if_neg (by omega), if_neg (by omega), write_mem_ok _ _ _ rfl (by norm_num)]
  simp only []
  rw [u64_of_lt (by omega : dataLen < 2 ^ 64)]
  rw [rec_memWriter P B outboard (by omega) dataLen _ 8 _ rfl hn hbound]
  simp

theorem subtree_leaf (P : Primitives) {bytes : List Byte} (idx flags : Nat)
    (h : bytes.length ≤ 1024) :
    subtreeChainingValue P bytes idx flags
      = P.chainingValue (P.compressChunk bytes P.iv idx flags) := by
  rw [subtreeChainingValue, dif_pos (by unfold chunkSize; exact h)]

theorem subtree_node (P : Primitives) {bytes : List Byte} (idx flags : Nat)
    (h : 1024 < bytes.length) :
    subtreeChainingValue P bytes idx flags
      = P.chainingValue (P.parentNode
          (subtreeChainingValue P (bytes.take (splitMid bytes.length)) idx 0)
          (subtreeChainingValue P (bytes.drop (splitMid bytes.length))
            (u64 (idx + splitMid bytes.length / 1024)) 0) P.iv flags) := by
  rw [subtreeChainingValue, dif_neg (by unfold chunkSize; omega)]
  rfl

/-- A power of two below the length is at most the split point, and divides it. -/
theorem pow_le_splitMid {b n : Nat} (h : 2 ^ b < n) (hn : n ≤ 2 ^ 64) :
    ∃ k, splitMid n = 2 ^ k ∧ b ≤ k ∧ 2 ^ k < n ∧ n ≤ 2 * 2 ^ k := by
  have hb : 0 < 2 ^ b := Nat.pos_pow_of_pos _ (by decide)
  obtain ⟨k, hk, hlt, hle⟩ := splitMid_spec n (by omega) hn
  refine ⟨k, hk, ?_, hlt, hle⟩
  by_contra hc
  have : 2 ^ (k + 1) ≤ 2 ^ b := Nat.pow_le_pow_right (by decide) (by omega)
  rw [pow_succ] at this
  omega

theorem splitMid_pow (k : Nat) (hk : k + 1 ≤ 64) : splitMid (2 ^ (k + 1)) = 2 ^ k := by
  have h2 : 2 ≤ 2 ^ (k + 1) := by
    have : 0 < 2 ^ k := Nat.pos_pow_of_pos _ (by decide)
    rw [pow_succ]; omega
  obtain ⟨k', hk', hlt, hle⟩ := splitMid_spec (2 ^ (k + 1)) h2
    (Nat.pow_le_pow_right (by decide) hk)
  rw [hk']
  have a : k' < k + 1 := (Nat.pow_lt_pow_iff_right (by decide)).1 hlt
  have b : k + 1 ≤ k' + 1 := by
    rw [← pow_succ'] at hle
    exact (Nat.pow_le_pow_iff_right (by decide)).1 hle
  have : k' = k := by omega
  rw [this]

/-- A range of `2 ^ k` bytes, at least one block, holds `2 ^ k / B` leaf groups. -/
theorem treeGroups_pow (b d : Nat) (hk : b + d ≤ 64) :
    treeGroups (2 ^ b) (2 ^ (b + d)) = 2 ^ d := by
  induction d with
  | zero => simp [treeGroups_leaf]
  | succ d ih =>
    have hb : 0 < 2 ^ b := Nat.pos_pow_of_pos _ (by decide)
    have hlt : 2 ^ b < 2 ^ (b + (d + 1)) := Nat.pow_lt_pow_right (by decide) (by omega)
    rw [treeGroups_node (by omega) hlt]
    have e : b + (d + 1) = (b + d) + 1 := by omega
    rw [e, splitMid_pow (b + d) (by omega)]
    have e2 : 2 ^ (b + d + 1) - 2 ^ (b + d) = 2 ^ (b + d) := by
      rw [pow_succ]; omega
    rw [e2, ih (by omega), pow_succ]
    omega

theorem u64_counter_step (c g k : Nat) :
    u64 (u64 (c + g) * k) = u64 (u64 (c * k) + g * k) := by
  unfold u64
  rw [Nat.mod_mul_mod, Nat.mod_add_mod, Nat.add_mul]

/-- For a block size `1024 * 2 ^ j`, what `rec` returns is the plain tree hash of the bytes,
started at chunk index `counter * (B / 1024)`. -/
theorem treeCV_eq_subtree (P : Primitives) (j : Nat) (bytes : List Byte) :
    ∀ (counter flags : Nat), bytes.length ≤ 2 ^ 64 → 1024 * 2 ^ j < 2 ^ 64 →
      treeCV P (1024 * 2 ^ j) bytes counter flags
        = subtreeChainingValue P bytes (u64 (counter * 2 ^ j)) flags := by
  generalize h : bytes.length = n
  induction n using Nat.strong_induction_on generalizing bytes with
  | _ n ih =>
    intro counter flags hlen hBlt
    subst h
    have hj : 0 < 2 ^ j := Nat.pos_pow_of_pos _ (by decide)
    have hBpow : 1024 * 2 ^ j = 2 ^ (10 + j) := by rw [pow_add]; norm_num
    rcases Nat.lt_or_ge (1024 * 2 ^ j) bytes.length with hn | hn
    · obtain ⟨k, hk, hbk, hlt, hle⟩ := pow_le_splitMid (hBpow ▸ hn) hlen
      have hm1 : splitMid bytes.length < bytes.length := by omega
      have hm0 := splitMid_pos bytes.length
      rw [treeCV_node P counter flags (by omega) hn, subtree_node P _ flags (by omega)]
      rw [ih _ (by rw [List.length_take]; omega) _ rfl counter 0
          (by rw [List.length_take]; omega) hBlt,
        ih _ (by rw [List.length_drop]; omega) _ rfl _ 0
          (by rw [List.length_drop]; omega) hBlt]
      have hk64 : k ≤ 64 := by
        by_contra hc
        have : 2 ^ 64 < 2 ^ k := Nat.pow_lt_pow_right (by decide) (by omega)
        omega
      obtain ⟨d, rfl⟩ : ∃ d, k = 10 + j + d := ⟨k - (10 + j), by omega⟩
      have hg : treeGroups (1024 * 2 ^ j) (splitMid bytes.length) = 2 ^ d := by
        rw [hk, hBpow]
        exact treeGroups_pow (10 + j) d hk64
      have hdiv : splitMid bytes.length / 1024 = 2 ^ d * 2 ^ j := by
        rw [hk, pow_add, pow_add]
        norm_num
        rw [Nat.mul_assoc, Nat.mul_div_cancel_left _ (by norm_num)]
        ring
      rw [hg, hdiv, u64_counter_step]
    · rw [treeCV_leaf P counter flags hn]
      unfold groupChainingValue chunkSize
      simp only []
      rw [Nat.mul_div_cancel_left _ (by norm_num)]

theorem fromHexChar_hexDigit (n : Fin 16) : fromHexChar (hexDigit n.val) = some n.val := by
  revert n
  decide

theorem hexDecodeChars_encode (bs : List Byte) : hexDecodeChars (hexEncodeChars bs) = some bs := by
  induction bs with
  | nil => rfl
  | cons b rest ih =>
    have h1 := fromHexChar_hexDigit ⟨b.val / 16, by omega⟩
    have h2 := fromHexChar_hexDigit ⟨b.val % 16, by omega⟩
    simp only at h1 h2
    simp only [hexEncodeChars, hexDecodeChars, h1, h2, ih]
    congr 2
    apply Fin.ext
    simp only []
    omega

/-- Decoding the hexadecimal string of a byte sequence gives the byte sequence back. -/
theorem hexDecodeString_encode (bs : List Byte) :
    hexDecodeString (hexEncodeToString bs) = some bs := by
  unfold hexDecodeString hexEncodeToString
  exact hexDecodeChars_encode bs

theorem hexEncodeToString_injective {a b : List Byte}
    (h : hexEncodeToString a = hexEncodeToString b) : a = b := by
  have := congrArg hexDecodeString h
  rw [hexDecodeString_encode, hexDecodeString_encode] at this
  exact Option.some.inj this

theorem uint32LE_putUint32 (w : Word) :
    uint32LE ⟨w.val % 256, Nat.mod_lt _ (by decide)⟩ ⟨w.val / 256 % 256, Nat.mod_lt _ (by decide)⟩
      ⟨w.val / 65536 % 256, Nat.mod_lt _ (by decide)⟩
      ⟨w.val / 16777216 % 256, Nat.mod_lt _ (by decide)⟩ = w := by
  apply Fin.ext
  have := w.isLt
  simp only [uint32LE]
  omega

theorem cvToBytes_length (cv : CV) : (cvToBytes cv).length = 32 := by
  obtain ⟨ws, hw⟩ := cv
  match ws, hw with
  | [a, b, c, d, e, f, g, h], _ => rfl

/-- Reading back the 32 bytes of a chaining value gives the chaining value. -/
theorem bytesToCV_cvToBytes (beyond : Nat → Byte) (cv : CV) :
    bytesToCV beyond (cvToBytes cv) = some cv := by
  obtain ⟨ws, hw⟩ := cv
  match ws, hw with
  | [a, b, c, d, e, f, g, h], _ =>
    simp [bytesToCV, cvToBytes, putUint32, wordsOfBytes, uint32LE_putUint32]

theorem cvToBytes_injective {a b : CV} (h : cvToBytes a = cvToBytes b) : a = b := by
  have := congrArg (bytesToCV (fun _ => 0)) h
  rw [bytesToCV_cvToBytes, bytesToCV_cvToBytes] at this
  exact Option.some.inj this

/-- The comparison of the two hexadecimal strings in the loop is equality of chaining values. -/
theorem hex_eq_iff (l r : CV) :
    hexEncodeToString (cvToBytes l) = hexEncodeToString (cvToBytes r) ↔ l = r :=
  ⟨fun h => cvToBytes_injective (hexEncodeToString_injective h), fun h => by rw [h]⟩

/-- C1. For every byte string `S` (shorter than `2 ^ 56` bytes, so that every offset fits
`int64`) and every block size `1024 * 2 ^ j` below `2 ^ 63` (a buffer of that size can be
made), in either storage mode,
`CustomBaoEncodeFile` on a reader holding exactly `S` and a file in memory returns
`cvToBytes (subtreeChainingValue S 0 flagRoot)` with a nil error; hence the returned root is the
same for any two such block sizes. -/
theorem encodeFile_returns_tree_hash (P : Primitives) (j : Nat) (S dst : List Byte)
    (outboard : Bool) (hB : 1024 * 2 ^ j < 2 ^ 63) (hS : S.length < 2 ^ 56) :
    (CustomBaoEncodeFile P memWriter dst S S.length (1024 * 2 ^ j) outboard).1
        = .ok (cvToBytes (subtreeChainingValue P S 0 P.flagRoot), none)
    ∧ ∀ (j' : Nat) (outboard' : Bool) (dst' : List Byte), 1024 * 2 ^ j' < 2 ^ 63 →
        (CustomBaoEncodeFile P memWriter dst' S S.length (1024 * 2 ^ j') outboard').1
          = (CustomBaoEncodeFile P memWriter dst S S.length (1024 * 2 ^ j) outboard).1 := by
  have key : ∀ (i : Nat) (ob : Bool) (d : List Byte), 1024 * 2 ^ i < 2 ^ 63 →
      (CustomBaoEncodeFile P memWriter d S S.length (1024 * 2 ^ i) ob).1
        = .ok (cvToBytes (subtreeChainingValue P S 0 P.flagRoot), none) := by
    intro i ob d hi
    have hi0 : 0 < 2 ^ i := Nat.pos_pow_of_pos _ (by decide)
    unfold CustomBaoEncodeFile
    rw [encode_memWriter P _ ob true (by omega) hi d S S.length 0 0 (le_refl _) (by omega)]
    simp only [List.take_length, if_true]
    rw [treeCV_eq_subtree P i S _ _ (by omega) (by omega)]
    simp [u64]
  exact ⟨key j outboard dst hB, fun j' ob' d' h' => by rw [key j' ob' d' h', key j outboard dst hB]⟩

theorem encodeFile_returns_tree_hash_witness :
    (1024 * 2 ^ 1 < 2 ^ 63 ∧ (List.replicate 5000 (0 : Byte)).length < 2 ^ 56) ∧
    (CustomBaoEncodeFile samplePrims memWriter [] (List.replicate 5000 0)
        (List.replicate 5000 (0 : Byte)).length (1024 * 2 ^ 1) false).1
      = .ok (cvToBytes (subtreeChainingValue samplePrims (List.replicate 5000 0) 0
          samplePrims.flagRoot), none) :=
  ⟨⟨by norm_num, by rw [List.length_replicate]; norm_num⟩,
    (encodeFile_returns_tree_hash samplePrims 1 (List.replicate 5000 0) [] false (by norm_num)
      (by rw [List.length_replicate]; norm_num)).1⟩

/-! ## Evaluation on strings of zero bytes -/

theorem subtree_zeros_leaf (P : Primitives) (n idx flags : Nat) (h : n ≤ 1024) :
    subtreeChainingValue P (List.replicate n 0) idx flags
      = P.chainingValue (P.compressChunk (List.replicate n 0) P.iv idx flags) :=
  subtree_leaf P idx flags (by rw [List.length_replicate]; exact h)

theorem subtree_zeros_node (P : Primitives) (n idx flags : Nat) (h : 1024 < n) :
    subtreeChainingValue P (List.replicate n 0) idx flags
      = P.chainingValue (P.parentNode
          (subtreeChainingValue P (List.replicate (splitMid n) 0) idx 0)
          (subtreeChainingValue P (List.replicate (n - splitMid n) 0)
            (u64 (idx + splitMid n / 1024)) 0) P.iv flags) := by
  have hm := splitMid_lt n (by omega)
  rw [subtree_node P idx flags (by rw [List.length_replicate]; exact h)]
  simp only [List.length_replicate, List.take_replicate, List.drop_replicate,
    min_eq_left (Nat.le_of_lt hm)]

theorem treeCV_zeros_leaf (P : Primitives) (B n counter flags : Nat) (h : n ≤ B) :
    treeCV P B (List.replicate n 0) counter flags
      = subtreeChainingValue P (List.replicate n 0) (u64 (counter * (B / 1024))) flags := by
  rw [treeCV_leaf P counter flags (by rw [List.length_replicate]; exact h)]
  rfl

theorem treeCV_zeros_node (P : Primitives) (B n counter flags : Nat) (hB : 1 ≤ B) (h : B < n) :
    treeCV P B (List.replicate n 0) counter flags
      = P.chainingValue (P.parentNode
          (treeCV P B (List.replicate (splitMid n) 0) counter 0)
          (treeCV P B (List.replicate (n - splitMid n) 0)
            (u64 (counter + treeGroups B (splitMid n))) 0) P.iv flags) := by
  have hm := splitMid_lt n (by omega)
  rw [treeCV_node P counter flags hB (by rw [List.length_replicate]; exact h)]
  simp only [List.length_replicate, List.take_replicate, List.drop_replicate,
    min_eq_left (Nat.le_of_lt hm)]

theorem splitMid_3073 : splitMid 3073 = 2048 := by decide

theorem splitMid_2048 : splitMid 2048 = 1024 := by decide

theorem splitMid_1025 : splitMid 1025 = 1024 := by decide

/-- C2, counterexample. With the block size 3072 (a positive multiple of 1024 that is not a
power of two) and 3073 zero bytes, the value returned by `CustomBaoEncodeFile` differs from the
plain tree hash: the second leaf group is hashed with starting chunk index `1 * 3 = 3`, whereas
it starts at chunk 2 of the input. -/
theorem encodeFile_block3072_counterexample :
    (3072 % 1024 = 0 ∧ 0 < 3072) ∧
    (CustomBaoEncodeFile samplePrims memWriter [] (List.replicate 3073 0) 3073 3072 true).1
      ≠ .ok (cvToBytes (subtreeChainingValue samplePrims (List.replicate 3073 0) 0
              samplePrims.flagRoot), none) := by
  refine ⟨by decide, ?_⟩
  unfold CustomBaoEncodeFile
  rw [encode_memWriter samplePrims 3072 true true (by norm_num) (by norm_num) []
    (List.replicate 3073 0) 3073 0 0
    (by rw [List.length_replicate]) (by norm_num)]
  have e : (List.replicate 3073 (0 : Byte)).take 3073 = List.replicate 3073 0 := by
    rw [List.take_replicate, min_self]
  simp only [e, if_true]
  have hu0 : u64 (0 / 3072 * 0) = 0 := by decide
  rw [hu0, treeCV_zeros_node _ _ _ _ _ (by norm_num) (by norm_num), splitMid_3073,
    treeGroups_leaf (by norm_num : 2048 ≤ 3072),
    treeCV_zeros_leaf _ _ _ _ _ (by norm_num), treeCV_zeros_leaf _ _ _ _ _ (by norm_num),
    subtree_zeros_node _ 3073 _ _ (by norm_num), splitMid_3073]
  have hu1 : u64 (0 * (3072 / 1024)) = 0 := by decide
  have hu2 : u64 (u64 (0 + 1) * (3072 / 1024)) = 3 := by decide
  have hu3 : u64 (0 + 2048 / 1024) = 2 := by decide
  rw [hu1, hu2, hu3]
  simp only [show 3073 - 2048 = 1025 from rfl]
  rw [subtree_zeros_node _ 2048 _ _ (by norm_num), splitMid_2048,
    subtree_zeros_node _ 1025 3 _ (by norm_num), subtree_zeros_node _ 1025 2 _ (by norm_num),
    splitMid_1025]
  simp only [show 2048 - 1024 = 1024 from rfl, show 1025 - 1024 = 1 from rfl]
  rw [subtree_zeros_leaf _ 1024 _ _ (by norm_num), subtree_zeros_leaf _ 1024 _ _ (by norm_num),
    subtree_zeros_leaf _ 1024 _ _ (by norm_num), subtree_zeros_leaf _ 1024 _ _ (by norm_num),
    subtree_zeros_leaf _ 1 _ _ (by norm_num), subtree_zeros_leaf _ 1 _ _ (by norm_num)]
  intro h
  injection h with h
  injection h with h
  have := cvToBytes_injective h
  revert this
  simp only [samplePrims, List.length_replicate]
  decide

/-- C2, amended. For every byte string `S` (shorter than `2 ^ 56` bytes) and every block size `B`
that is a positive multiple of 1024 below `2 ^ 63`, provided that `B` is `1024 * 2 ^ j` or
that `S` is no longer than `B`, the value returned by `CustomBaoEncodeFile`, in either storage
mode, is the chaining value of `S` hashed end to end,
`cvToBytes (subtreeChainingValue S 0 flagRoot)`. -/
theorem encodeFile_root_of_valid_block (P : Primitives) (B : Nat) (S dst : List Byte)
    (outboard : Bool) (hmul : B % 1024 = 0) (hpos : 0 < B) (hB63 : B < 2 ^ 63)
    (hS : S.length < 2 ^ 56) (h : (∃ j, B = 1024 * 2 ^ j) ∨ S.length ≤ B) :
    (CustomBaoEncodeFile P memWriter dst S S.length B outboard).1
      = .ok (cvToBytes (subtreeChainingValue P S 0 P.flagRoot), none) := by
  unfold CustomBaoEncodeFile
  rw [encode_memWriter P B outboard true (by omega) hB63 dst S S.length 0 0 (le_refl _)
    (by omega)]
  simp only [List.take_length, if_true]
  have hu : u64 (0 / B * 0) = 0 := by simp [u64]
  rw [hu]
  rcases h with ⟨j, rfl⟩ | h
  · rw [treeCV_eq_subtree P j S _ _ (by omega) (by omega)]
    simp [u64]
  · rw [treeCV_leaf P _ _ h]
    unfold groupChainingValue
    simp [u64]

theorem encodeFile_root_of_valid_block_witness :
    (3072 % 1024 = 0 ∧ 0 < 3072 ∧ 3072 < 2 ^ 63 ∧ ([7, 8, 9] : List Byte).length < 2 ^ 56
      ∧ ((∃ j, 3072 = 1024 * 2 ^ j) ∨ ([7, 8, 9] : List Byte).length ≤ 3072)) ∧
    (CustomBaoEncodeFile samplePrims memWriter [] [7, 8, 9] ([7, 8, 9] : List Byte).length 3072
        false).1
      = .ok (cvToBytes (subtreeChainingValue samplePrims [7, 8, 9] 0 samplePrims.flagRoot),
          none) :=
  ⟨⟨by decide, by decide, by norm_num, by simp, Or.inr (by simp)⟩,
    encodeFile_root_of_valid_block samplePrims 3072 [7, 8, 9] [] false (by decide) (by decide)
      (by norm_num) (by simp) (Or.inr (by simp))⟩

theorem piece_start_index (j pieceSize pieceIndex : Nat)
    (hdiv : pieceSize % (1024 * 2 ^ j) = 0) :
    u64 (u64 (pieceSize / (1024 * 2 ^ j) * pieceIndex) * 2 ^ j)
      = u64 (pieceIndex * pieceSize / 1024) := by
  have hj : 0 < 2 ^ j := Nat.pos_pow_of_pos _ (by decide)
  obtain ⟨q, rfl⟩ := Nat.dvd_of_mod_eq_zero hdiv
  unfold u64
  rw [Nat.mod_mul_mod, Nat.mul_div_cancel_left _ (by omega : 0 < 1024 * 2 ^ j)]
  congr 1
  have e : pieceIndex * (1024 * 2 ^ j * q) = 1024 * (q * pieceIndex * 2 ^ j) := by ring
  rw [e, Nat.mul_div_cancel_left _ (by norm_num)]

/-- C4. For every block size `1024 * 2 ^ j` below `2 ^ 63`, every piece size that is a multiple
of it, every piece index and every piece (shorter than `2 ^ 56` bytes), in either storage mode,
`CustomBaoEncodePiece` on a file in memory returns, with a nil error,
`cvToBytes (subtreeChainingValue piece (pieceIndex * pieceSize / 1024) 0)`: the chaining value,
without the `ROOT` flag, of the piece hashed with chunk counters that start at the position of
the piece in the file (the index is taken as a `uint64`); the group counter starts at
`pieceSize / blockSize * pieceIndex`. -/
theorem encodePiece_returns_subtree (P : Primitives) (j pieceSize pieceIndex : Nat)
    (piece dst : List Byte) (outboard : Bool) (hB : 1024 * 2 ^ j < 2 ^ 63)
    (hdiv : pieceSize % (1024 * 2 ^ j) = 0) (hlen : piece.length < 2 ^ 56) :
    (CustomBaoEncodePiece P memWriter dst piece piece.length (1024 * 2 ^ j) outboard pieceSize
        pieceIndex).1
      = .ok (cvToBytes (subtreeChainingValue P piece (u64 (pieceIndex * pieceSize / 1024)) 0),
          none)
    ∧ (CustomBaoEncodePiece P memWriter dst piece piece.length (1024 * 2 ^ j) outboard pieceSize
        pieceIndex).2.counter
      = u64 (u64 (pieceSize / (1024 * 2 ^ j) * pieceIndex)
          + treeGroups (1024 * 2 ^ j) piece.length) := by
  have hj : 0 < 2 ^ j := Nat.pos_pow_of_pos _ (by decide)
  unfold CustomBaoEncodePiece
  rw [encode_memWriter P _ outboard false (by omega) hB dst piece piece.length pieceSize
    pieceIndex
    (le_refl _) (by omega)]
  simp only [List.take_length, Bool.false_eq_true, if_false, and_true]
  rw [treeCV_eq_subtree P j piece _ _ (by omega) (by omega),
    piece_start_index j pieceSize pieceIndex hdiv]

theorem encodePiece_returns_subtree_witness :
    (1024 * 2 ^ 1 < 2 ^ 63 ∧ 8192 % (1024 * 2 ^ 1) = 0
      ∧ (List.replicate 5000 (0 : Byte)).length < 2 ^ 56) ∧
    (CustomBaoEncodePiece samplePrims memWriter [] (List.replicate 5000 0)
        (List.replicate 5000 (0 : Byte)).length (1024 * 2 ^ 1) true 8192 3).1
      = .ok (cvToBytes (subtreeChainingValue samplePrims (List.replicate 5000 0)
          (u64 (3 * 8192 / 1024)) 0), none) :=
  ⟨⟨by norm_num, by norm_num, by rw [List.length_replicate]; norm_num⟩,
    (encodePiece_returns_subtree samplePrims 1 8192 3 (List.replicate 5000 0) [] true
      (by norm_num) (by norm_num) (by rw [List.length_replicate]; norm_num)).1⟩

theorem reduce_step (P : Primitives) (l r x : CV) (rest : List CV) :
    reduceHashQueue P (l :: r :: x :: rest)
      = reduceHashQueue P (x :: rest ++ [combinePair P l r]) := by
  rw [reduceHashQueue]
  simp only [List.length_cons, dequeue, enqueue, combinePair]
  rw [dif_pos (by omega)]
  split <;> rfl

theorem reduce_done (P : Primitives) (q : List CV) (h : q.length ≤ 2) :
    reduceHashQueue P q = .ok q := by
  rw [reduceHashQueue, dif_neg (by omega)]

theorem dequeuedPairs_step (P : Primitives) (l r x : CV) (rest : List CV) :
    dequeuedPairs P (l :: r :: x :: rest)
      = (l, r) :: dequeuedPairs P (x :: rest ++ [combinePair P l r]) := by
  rw [dequeuedPairs]
  rfl

theorem dequeuedPairs_done (P : Primitives) (q : List CV) (h : q.length ≤ 2) :
    dequeuedPairs P q = [] := by
  match q, h with
  | [], _ => rw [dequeuedPairs]; simp
  | [_], _ => rw [dequeuedPairs]; simp
  | [_, _], _ => rw [dequeuedPairs]; simp
  | _ :: _ :: _ :: _, h => simp at h

theorem decodeHashes_encode (mem : Nat → Nat → Byte) (roots : List CV) :
    decodeHashes mem (roots.map fun cv => hexEncodeToString (cvToBytes cv)) = .ok roots := by
  induction roots generalizing mem with
  | nil => rfl
  | cons a t ih =>
    simp only [List.map_cons, decodeHashes, hexDecodeString_encode, bytesToCV_cvToBytes, ih]

/-- On the hexadecimal strings of the chaining values `roots`, the function pads, runs the loop
and compresses the two remaining values with `flagRoot`. -/
theorem secondLayer_of_roots (P : Primitives) (mem : Nat → Nat → Byte) (roots : List CV)
    (a b : CV) (h : reduceHashQueue P (paddedQueue roots) = .ok [a, b]) :
    CustomBaoEncodeSecondLayerHashTree P mem
        (roots.map fun cv => hexEncodeToString (cvToBytes cv))
      = .ok (cvToBytes (P.chainingValue (P.parentNode a b P.iv P.flagRoot)), none) := by
  unfold CustomBaoEncodeSecondLayerHashTree
  rw [decodeHashes_encode]
  simp only [List.length_map]
  unfold paddedQueue at h
  by_cases hodd : roots.length % 2 = 1
  · rw [if_pos hodd] at h ⊢
    have hlt : roots.length - 1 < roots.length := by omega
    rw [List.getElem?_eq_getElem hlt] at h ⊢
    simp only [] at h ⊢
    rw [h]
    rfl
  · rw [if_neg hodd] at h ⊢
    simp only []
    rw [h]
    rfl

theorem reduce_level_acc (P : Primitives) (n : Nat) :
    ∀ (xs acc : List CV), xs.length = 2 * n → acc ≠ [] →
      reduceHashQueue P (xs ++ acc) = reduceHashQueue P (acc ++ queueLevel P xs)
      ∧ dequeuedPairs P (xs ++ acc) = pairsOf xs ++ dequeuedPairs P (acc ++ queueLevel P xs) := by
  induction n with
  | zero =>
    intro xs acc hx _
    have : xs = [] := List.length_eq_zero.1 (by omega)
    subst this
    simp [queueLevel, pairsOf]
  | succ n ih =>
    intro xs acc hx hacc
    match xs, hx with
    | l :: r :: xs', hx =>
      have hx' : xs'.length = 2 * n := by simp only [List.length_cons] at hx; omega
      have hne : xs' ++ acc ≠ [] := by simp [hacc]
      obtain ⟨x, rest, hq⟩ := List.exists_cons_of_ne_nil hne
      have ih' := ih xs' (acc ++ [combinePair P l r]) hx' (by simp)
      simp only [List.cons_append, hq, reduce_step, dequeuedPairs_step, queueLevel, pairsOf]
      rw [← List.cons_append, ← hq, List.append_assoc, ih'.1, ih'.2]
      simp

/-- A queue of even length, at least four, is reduced like the queue of its pairwise results;
the pairs dequeued are first its adjacent pairs. -/
theorem reduce_level (P : Primitives) (xs : List CV) (heven : xs.length % 2 = 0)
    (h4 : 4 ≤ xs.length) :
    reduceHashQueue P xs = reduceHashQueue P (queueLevel P xs)
    ∧ dequeuedPairs P xs = pairsOf xs ++ dequeuedPairs P (queueLevel P xs) := by
  match xs, heven, h4 with
  | l :: r :: x :: rest, heven, h4 =>
    simp only [List.length_cons] at heven h4
    have := reduce_level_acc P ((rest.length + 1) / 2) (x :: rest) [combinePair P l r]
      (by simp only [List.length_cons]; omega) (by simp)
    rw [reduce_step, dequeuedPairs_step, this.1, this.2]
    simp [queueLevel, pairsOf]

theorem combinePair_of_ne (P : Primitives) {l r : CV} (h : l ≠ r) :
    combinePair P l r = P.chainingValue (P.parentNode l r P.iv 0) := by
  unfold combinePair
  rw [if_neg (fun e => h ((hex_eq_iff l r).1 e))]

theorem combinePair_self (P : Primitives) (l : CV) : combinePair P l l = l := by
  unfold combinePair
  rw [if_pos rfl]

theorem queueLevel_eq_pairUp (P : Primitives) (n : Nat) :
    ∀ xs : List CV, xs.length ≤ n → (∀ p ∈ pairsOf xs, p.1 ≠ p.2) →
      queueLevel P xs = pairUp P xs := by
  induction n using Nat.strong_induction_on with
  | _ n ih =>
    intro xs hx hp
    match xs, hx, hp with
    | [], _, _ => rfl
    | [_], _, _ => rfl
    | l :: r :: rest, hx, hp =>
      simp only [List.length_cons] at hx
      simp only [pairsOf, List.mem_cons, forall_eq_or_imp] at hp
      simp only [queueLevel, pairUp, combinePair_of_ne P hp.1]
      rw [ih rest.length (by omega) rest (le_refl _) hp.2]

theorem pairUp_length (P : Primitives) (n : Nat) :
    ∀ xs : List CV, xs.length ≤ n → (pairUp P xs).length = (xs.length + 1) / 2 := by
  induction n using Nat.strong_induction_on with
  | _ n ih =>
    intro xs hx
    match xs, hx with
    | [], _ => rfl
    | [_], _ => simp [pairUp]
    | l :: r :: rest, hx =>
      simp only [List.length_cons] at hx
      simp only [pairUp, List.length_cons]
      rw [ih rest.length (by omega) rest (le_refl _)]
      omega

theorem pairUp_take (P : Primitives) (m : Nat) :
    ∀ xs : List CV, (pairUp P xs).take m = pairUp P (xs.take (2 * m)) := by
  induction m with
  | zero => intro xs; simp [pairUp]
  | succ m ih =>
    intro xs
    match xs with
    | [] => simp [pairUp]
    | [_] => simp [pairUp]
    | l :: r :: rest =>
      have e : 2 * (m + 1) = (2 * m + 1) + 1 := by omega
      rw [e]
      simp only [pairUp, List.take_succ_cons, ih rest]

theorem pairUp_drop (P : Primitives) (m : Nat) :
    ∀ xs : List CV, (pairUp P xs).drop m = pairUp P (xs.drop (2 * m)) := by
  induction m with
  | zero => intro xs; simp
  | succ m ih =>
    intro xs
    match xs with
    | [] => simp [pairUp]
    | [_] => simp [pairUp]
    | l :: r :: rest =>
      have e : 2 * (m + 1) = (2 * m + 1) + 1 := by omega
      rw [e]
      simp only [pairUp, List.drop_succ_cons, ih rest]

/-- The split point is the only power of two `p` with `p < m ≤ 2 * p`. -/
theorem splitMid_unique (m s : Nat) (h2 : 2 ≤ m) (hm : m ≤ 2 ^ 64) (hlt : 2 ^ s < m)
    (hle : m ≤ 2 * 2 ^ s) : splitMid m = 2 ^ s := by
  obtain ⟨k, hk, hklt, hkle⟩ := splitMid_spec m h2 hm
  rw [hk]
  rcases Nat.lt_trichotomy k s with h | h | h
  · have : 2 ^ (k + 1) ≤ 2 ^ s := Nat.pow_le_pow_right (by decide) h
    rw [pow_succ] at this
    omega
  · rw [h]
  · have : 2 ^ (s + 1) ≤ 2 ^ k := Nat.pow_le_pow_right (by decide) h
    rw [pow_succ] at this
    omega

theorem canonicalTree_single (P : Primitives) (x : CV) (flags : Nat) :
    canonicalTree P [x] flags = x := by
  rw [canonicalTree, dif_pos (by simp)]
  rfl

theorem canonicalTree_node (P : Primitives) (leaves : List CV) (flags : Nat)
    (h : 2 ≤ leaves.length) :
    canonicalTree P leaves flags
      = P.chainingValue (P.parentNode
          (canonicalTree P (leaves.take (splitMid leaves.length)) 0)
          (canonicalTree P (leaves.drop (splitMid leaves.length)) 0) P.iv flags) := by
  rw [canonicalTree, dif_neg (by omega)]

/-- Building one level of parents first does not change the canonical tree (inner flags 0). -/
theorem canonicalTree_pairUp (P : Primitives) (n : Nat) :
    ∀ ys : List CV, ys.length = n → 1 ≤ n → n ≤ 2 ^ 64 →
      canonicalTree P (pairUp P ys) 0 = canonicalTree P ys 0 := by
  induction n using Nat.strong_induction_on with
  | _ n ih =>
    intro ys hlen h1 h64
    match ys, hlen with
    | [], hlen => simp only [List.length_nil] at hlen; omega
    | [y], _ => rfl
    | [a, b], _ =>
      have e : splitMid 2 = 1 := by decide
      rw [canonicalTree_node P [a, b] 0 (by simp)]
      simp only [pairUp, List.length_cons, List.length_nil, e, List.take_succ_cons, List.take_zero,
        List.drop_succ_cons, List.drop_zero, canonicalTree_single]
    | a :: b :: c :: rest, hlen =>
      have h3 : 3 ≤ n := by simp only [List.length_cons] at hlen; omega
      generalize hys : a :: b :: c :: rest = ys at hlen ⊢
      obtain ⟨t, ht, hlt, hle⟩ := splitMid_spec n (by omega) h64
      have ht1 : 1 ≤ t := by
        rcases Nat.eq_zero_or_pos t with h0 | h0
        · rw [h0] at hle; omega
        · exact h0
      obtain ⟨t', rfl⟩ : ∃ t', t = t' + 1 := ⟨t - 1, by omega⟩
      rw [pow_succ] at ht hlt hle
      have hp0 : 0 < 2 ^ t' := Nat.pos_pow_of_pos _ (by decide)
      have hpl := pairUp_length P n ys (by omega)
      have hm : splitMid ((n + 1) / 2) = 2 ^ t' :=
        splitMid_unique _ t' (by omega) (by omega) (by omega) (by omega)
      rw [canonicalTree_node P (pairUp P ys) 0 (by rw [hpl, hlen]; omega),
        canonicalTree_node P ys 0 (by omega), hpl, hlen, hm, ht, pairUp_take, pairUp_drop,
        Nat.mul_comm 2 (2 ^ t')]
      rw [ih (2 ^ t' * 2) hlt (ys.take (2 ^ t' * 2)) (by rw [List.length_take]; omega) (by omega)
          (by omega),
        ih (n - 2 ^ t' * 2) (by omega) (ys.drop (2 ^ t' * 2)) (by rw [List.length_drop]; omega)
          (by omega) (by omega)]

/-- A queue of `2 ^ (k + 1)` values in which no dequeued pair is identical is reduced to the
canonical roots of its two halves. -/
theorem reduce_pow2 (P : Primitives) (k : Nat) :
    ∀ xs : List CV, xs.length = 2 ^ (k + 1) → k + 1 ≤ 64 →
      (∀ p ∈ dequeuedPairs P xs, p.1 ≠ p.2) →
      reduceHashQueue P xs
        = .ok [canonicalTree P (xs.take (2 ^ k)) 0, canonicalTree P (xs.drop (2 ^ k)) 0] := by
  induction k with
  | zero =>
    intro xs hlen _ _
    match xs, hlen with
    | [a, b], _ =>
      rw [reduce_done P _ (by simp)]
      have e1 : List.take (2 ^ 0) [a, b] = [a] := rfl
      have e2 : List.drop (2 ^ 0) [a, b] = [b] := rfl
      rw [e1, e2, canonicalTree_single, canonicalTree_single]
  | succ k ih =>
    intro xs hlen h64 hp
    have hp0 : 0 < 2 ^ k := Nat.pos_pow_of_pos _ (by decide)
    have hlen' : xs.length = 4 * 2 ^ k := by rw [hlen, pow_succ, pow_succ]; omega
    obtain ⟨hr, hd⟩ := reduce_level P xs (by omega) (by omega)
    rw [hd] at hp
    have hq : queueLevel P xs = pairUp P xs :=
      queueLevel_eq_pairUp P _ xs (le_refl _) (fun p hpm => hp p (List.mem_append_left _ hpm))
    rw [hq] at hr hp
    have hpl : (pairUp P xs).length = 2 ^ (k + 1) := by
      rw [pairUp_length P _ xs (le_refl _), hlen', pow_succ]; omega
    have hle64 : 2 ^ (k + 1 + 1) ≤ 2 ^ 64 := Nat.pow_le_pow_right (by decide) h64
    rw [hr, ih (pairUp P xs) hpl (by omega) (fun p hpm => hp p (List.mem_append_right _ hpm)),
      pairUp_take, pairUp_drop]
    have e : 2 * 2 ^ k = 2 ^ (k + 1) := by rw [pow_succ]; omega
    rw [e, canonicalTree_pairUp P _ _ rfl (by rw [List.length_take]; omega)
        (by rw [List.length_take]; omega),
      canonicalTree_pairUp P _ _ rfl (by rw [List.length_drop]; omega)
        (by rw [List.length_drop]; omega)]

theorem queueLevel_append (P : Primitives) (n : Nat) :
    ∀ ys w : List CV, ys.length = 2 * n →
      queueLevel P (ys ++ w) = queueLevel P ys ++ queueLevel P w
      ∧ pairsOf (ys ++ w) = pairsOf ys ++ pairsOf w
      ∧ pairUp P (ys ++ w) = pairUp P ys ++ pairUp P w
      ∧ (pairsOf ys).length = n := by
  induction n with
  | zero =>
    intro ys w h
    have : ys = [] := List.length_eq_zero.1 (by omega)
    subst this
    simp [queueLevel, pairsOf, pairUp]
  | succ n ih =>
    intro ys w h
    match ys, h with
    | l :: r :: ys', h =>
      obtain ⟨h1, h2, h3, h4⟩ := ih ys' w (by simp only [List.length_cons] at h; omega)
      rw [List.cons_append, List.cons_append]
      simp only [queueLevel, pairsOf, pairUp, h1, h2, h3, h4, List.length_cons,
        List.cons_append, and_self]

/-- C5. For every sequence of `n` piece roots with `n = 2 ^ k` (`k ≥ 1`) or `n = 2 ^ k - 1`
(`k ≥ 2`), `k ≤ 63`, such that a pair dequeued by the loop is bit-identical only if it is the
pair made of the last root and its duplicate appended for an odd count (iteration `n / 2`),
`CustomBaoEncodeSecondLayerHashTree` on the hexadecimal strings of the roots returns the root of
the canonical tree over the `n` roots: ranges split at the largest power of two below their
count, inner nodes `parentNode(l, r, iv, 0)`, `flagRoot` on the top node only. -/
theorem secondLayer_canonical (P : Primitives) (mem : Nat → Nat → Byte) (roots : List CV)
    (k : Nat) (hk : k ≤ 63)
    (hn : (roots.length = 2 ^ k ∧ 1 ≤ k) ∨ (roots.length = 2 ^ k - 1 ∧ 2 ≤ k))
    (hpairs : ∀ (i : Nat) (p : CV × CV), (dequeuedPairs P (paddedQueue roots))[i]? = some p →
      p.1 = p.2 → roots.length % 2 = 1 ∧ i = roots.length / 2) :
    CustomBaoEncodeSecondLayerHashTree P mem
        (roots.map fun cv => hexEncodeToString (cvToBytes cv))
      = .ok (cvToBytes (canonicalTree P roots P.flagRoot), none) := by
  have h64 : 2 ^ k ≤ 2 ^ 64 := Nat.pow_le_pow_right (by decide) (by omega)
  rcases hn with ⟨hlen, hk1⟩ | ⟨hlen, hk2⟩
  · -- n = 2 ^ k
    obtain ⟨k', rfl⟩ : ∃ k', k = k' + 1 := ⟨k - 1, by omega⟩
    have hp0 : 0 < 2 ^ k' := Nat.pos_pow_of_pos _ (by decide)
    have heven : roots.length % 2 = 0 := by rw [hlen, pow_succ]; omega
    have hq : paddedQueue roots = roots := by
      unfold paddedQueue
      rw [if_neg (by omega)]
    rw [hq] at hpairs
    have hdist : ∀ p ∈ dequeuedPairs P roots, p.1 ≠ p.2 := by
      intro p hp he
      obtain ⟨i, hi, hget⟩ := List.getElem_of_mem hp
      have := hpairs i p (by rw [List.getElem?_eq_getElem hi, hget]) he
      omega
    have hr := reduce_pow2 P k' roots hlen (by omega) hdist
    rw [secondLayer_of_roots P mem roots _ _ (by rw [hq]; exact hr),
      canonicalTree_node P roots _ (by rw [hlen, pow_succ]; omega), hlen,
      splitMid_pow k' (by omega)]
  · -- n = 2 ^ k - 1
    obtain ⟨k', rfl⟩ : ∃ k', k = k' + 2 := ⟨k - 2, by omega⟩
    have hp0 : 0 < 2 ^ k' := Nat.pos_pow_of_pos _ (by decide)
    have hlen' : roots.length = 4 * 2 ^ k' - 1 := by rw [hlen, pow_succ, pow_succ]; omega
    have hne : roots ≠ [] := by
      intro h
      rw [h] at hlen'
      simp only [List.length_nil] at hlen'
      omega
    obtain ⟨ys, z, rfl⟩ : ∃ ys z, roots = ys ++ [z] :=
      ⟨roots.dropLast, roots.getLast hne, (List.dropLast_append_getLast hne).symm⟩
    simp only [List.length_append, List.length_singleton] at hlen' hpairs
    have hys : ys.length = 2 * (2 * 2 ^ k' - 1) := by omega
    have hq : paddedQueue (ys ++ [z]) = ys ++ [z, z] := by
      unfold paddedQueue
      simp only [List.length_append, List.length_singleton]
      rw [if_pos (by omega)]
      have : (ys ++ [z])[ys.length + 1 - 1]? = some z := by
        simp
      rw [this]
      simp [enqueue]
    rw [hq] at hpairs
    obtain ⟨hr, hd⟩ := reduce_level P (ys ++ [z, z])
      (by simp only [List.length_append, List.length_cons, List.length_nil]; omega)
      (by simp only [List.length_append, List.length_cons, List.length_nil]; omega)
    obtain ⟨a1, a2, -, a4⟩ := queueLevel_append P _ ys [z, z] hys
    obtain ⟨-, -, b3, -⟩ := queueLevel_append P _ ys [z] hys
    rw [a2] at hd
    have hz1 : queueLevel P [z, z] = [z] := by simp [queueLevel, combinePair_self]
    have hz2 : pairsOf [z, z] = [(z, z)] := rfl
    have hz3 : pairUp P [z] = [z] := rfl
    rw [a1, hz1] at hr hd
    rw [hz2] at hd
    rw [hd] at hpairs
    have hfirst : ∀ p ∈ pairsOf ys, p.1 ≠ p.2 := by
      intro p hp he
      obtain ⟨i, hi, hget⟩ := List.getElem_of_mem hp
      have := hpairs i p (by
        rw [List.append_assoc, List.getElem?_append_left hi, List.getElem?_eq_getElem hi, hget]) he
      omega
    have hql : queueLevel P ys = pairUp P ys := queueLevel_eq_pairUp P _ ys (le_refl _) hfirst
    have hlev : queueLevel P ys ++ [z] = pairUp P (ys ++ [z]) := by rw [b3, hz3, hql]
    rw [hlev] at hr hpairs
    have hpl : (pairUp P (ys ++ [z])).length = 2 ^ (k' + 1) := by
      rw [pairUp_length P _ _ (le_refl _), pow_succ]
      simp only [List.length_append, List.length_singleton]
      omega
    have hrest : ∀ p ∈ dequeuedPairs P (pairUp P (ys ++ [z])), p.1 ≠ p.2 := by
      intro p hp he
      obtain ⟨i, hi, hget⟩ := List.getElem_of_mem hp
      have := hpairs ((pairsOf ys ++ [(z, z)]).length + i) p (by
        rw [List.getElem?_append_right (by omega), Nat.add_sub_cancel_left,
          List.getElem?_eq_getElem hi, hget]) he
      simp only [List.length_append, List.length_singleton, a4] at this
      omega
    have hred := reduce_pow2 P k' (pairUp P (ys ++ [z])) hpl (by omega) hrest
    rw [pairUp_take, pairUp_drop] at hred
    have e : 2 * 2 ^ k' = 2 ^ (k' + 1) := by rw [pow_succ]; omega
    have hle64 : 2 ^ (k' + 2) ≤ 2 ^ 64 := h64
    rw [pow_succ, pow_succ] at hle64
    rw [e, canonicalTree_pairUp P _ _ rfl
        (by simp only [List.length_take, List.length_append, List.length_singleton]; omega)
        (by simp only [List.length_take, List.length_append, List.length_singleton]; omega),
      canonicalTree_pairUp P _ _ rfl
        (by simp only [List.length_drop, List.length_append, List.length_singleton,
              pow_succ]; omega)
        (by simp only [List.length_drop, List.length_append, List.length_singleton]; omega)]
      at hred
    have hsm : splitMid (ys ++ [z]).length = 2 ^ (k' + 1) := by
      simp only [List.length_append, List.length_singleton]
      exact splitMid_unique _ _ (by omega) (by omega) (by rw [pow_succ]; omega)
        (by rw [pow_succ]; omega)
    rw [secondLayer_of_roots P mem (ys ++ [z]) _ _ (by rw [hq, hr]; exact hred),
      canonicalTree_node P (ys ++ [z]) _
        (by simp only [List.length_append, List.length_singleton]; omega), hsm]

theorem dequeuedPairs_four (P : Primitives) (a b c d : CV) :
    dequeuedPairs P [a, b, c, d] = [(a, b), (c, d)] := by
  rw [dequeuedPairs_step]
  change (a, b) :: dequeuedPairs P [c, d, combinePair P a b] = _
  rw [dequeuedPairs_step]
  change (a, b) :: (c, d) :: dequeuedPairs P [combinePair P a b, combinePair P c d] = _
  rw [dequeuedPairs_done _ _ (by simp)]

theorem sampleRoots_pairs :
    ∀ (i : Nat) (p : CV × CV),
      (dequeuedPairs samplePrims (paddedQueue sampleRoots))[i]? = some p →
      p.1 = p.2 → sampleRoots.length % 2 = 1 ∧ i = sampleRoots.length / 2 := by
  have hq : paddedQueue sampleRoots
      = [CV.zero, samplePrims.iv, ⟨[1, 2, 3, 4, 5, 6, 7, 8], rfl⟩,
          ⟨[1, 2, 3, 4, 5, 6, 7, 8], rfl⟩] := rfl
  rw [hq, dequeuedPairs_four]
  intro i p hget he
  match i, hget with
  | 0, hget =>
    simp only [List.getElem?_cons_zero, Option.some.injEq] at hget
    subst hget
    exact absurd he (by decide)
  | 1, _ => exact ⟨by decide, by decide⟩
  | i + 2, hget => simp at hget

theorem secondLayer_canonical_witness :
    (2 ≤ 63 ∧ ((sampleRoots.length = 2 ^ 2 ∧ 1 ≤ 2) ∨ (sampleRoots.length = 2 ^ 2 - 1 ∧ 2 ≤ 2))
      ∧ ∀ (i : Nat) (p : CV × CV),
          (dequeuedPairs samplePrims (paddedQueue sampleRoots))[i]? = some p →
          p.1 = p.2 → sampleRoots.length % 2 = 1 ∧ i = sampleRoots.length / 2) ∧
    CustomBaoEncodeSecondLayerHashTree samplePrims zeroMemory
        (sampleRoots.map fun cv => hexEncodeToString (cvToBytes cv))
      = .ok (cvToBytes (canonicalTree samplePrims sampleRoots samplePrims.flagRoot), none) :=
  ⟨⟨by decide, Or.inr ⟨by decide, by decide⟩, sampleRoots_pairs⟩,
    secondLayer_canonical samplePrims zeroMemory sampleRoots 2 (by decide) (Or.inr ⟨by decide, by decide⟩)
      sampleRoots_pairs⟩

/-- On five roots `a b c d e` without coincidences, the loop leaves the queue `[e, abcd]`: the
function compresses the last root on the left of the parent of the first four. -/
theorem secondLayer_five (P : Primitives) (mem : Nat → Nat → Byte) (a b c d e : CV)
    (hab : a ≠ b) (hcd : c ≠ d)
    (h2 : P.chainingValue (P.parentNode a b P.iv 0) ≠ P.chainingValue (P.parentNode c d P.iv 0)) :
    CustomBaoEncodeSecondLayerHashTree P mem
        ([a, b, c, d, e].map fun cv => hexEncodeToString (cvToBytes cv))
      = .ok (cvToBytes (P.chainingValue (P.parentNode e
          (P.chainingValue (P.parentNode (P.chainingValue (P.parentNode a b P.iv 0))
            (P.chainingValue (P.parentNode c d P.iv 0)) P.iv 0)) P.iv P.flagRoot)), none) := by
  apply secondLayer_of_roots
  have hq : paddedQueue [a, b, c, d, e] = [a, b, c, d, e, e] := by
    simp [paddedQueue, enqueue]
  rw [hq, reduce_step, combinePair_of_ne P hab]
  change reduceHashQueue P [c, d, e, e, _] = _
  rw [reduce_step, combinePair_of_ne P hcd]
  change reduceHashQueue P [e, e, _, _] = _
  rw [reduce_step, combinePair_self]
  change reduceHashQueue P [_, _, e] = _
  rw [reduce_step, combinePair_of_ne P h2]
  change reduceHashQueue P [e, _] = _
  rw [reduce_done P _ (by simp)]

theorem splitMid_4097 : splitMid 4097 = 4096 := by decide

theorem splitMid_4096 : splitMid 4096 = 2048 := by decide

theorem samplePiece_root (len i : Nat) (hlen : len ≤ 1024) (hi : i < 2 ^ 64) :
    (CustomBaoEncodePiece samplePrims memWriter [] (List.replicate len 0) len 1024 true 1024 i).1
      = .ok (cvToBytes (samplePieceCV len i), none) := by
  unfold CustomBaoEncodePiece
  rw [encode_memWriter samplePrims 1024 true false (by norm_num) (by norm_num) []
    (List.replicate len 0) len
    1024 i (by rw [List.length_replicate]) (by omega)]
  have e : (List.replicate len (0 : Byte)).take len = List.replicate len 0 := by
    rw [List.take_replicate, min_self]
  simp only [e, Bool.false_eq_true, if_false]
  rw [treeCV_zeros_leaf _ _ _ _ _ hlen, subtree_zeros_leaf _ _ _ _ hlen]
  have hu : u64 (u64 (1024 / 1024 * i) * (1024 / 1024)) = i := by
    simp only [Nat.div_self (by norm_num : 0 < 1024), one_mul, mul_one]
    rw [u64_of_lt hi, u64_of_lt hi]
  rw [hu]
  rfl

theorem sampleFile_root :
    (CustomBaoEncodeFile samplePrims memWriter [] (List.replicate 4097 0) 4097 1024 true).1
      = .ok (cvToBytes (samplePrims.chainingValue (samplePrims.parentNode
          (samplePrims.chainingValue (samplePrims.parentNode
            (samplePrims.chainingValue (samplePrims.parentNode (samplePieceCV 1024 0)
              (samplePieceCV 1024 1) samplePrims.iv 0))
            (samplePrims.chainingValue (samplePrims.parentNode (samplePieceCV 1024 2)
              (samplePieceCV 1024 3) samplePrims.iv 0)) samplePrims.iv 0))
          (samplePieceCV 1 4) samplePrims.iv samplePrims.flagRoot)), none) := by
  unfold CustomBaoEncodeFile
  rw [encode_memWriter samplePrims 1024 true true (by norm_num) (by norm_num) []
    (List.replicate 4097 0) 4097
    0 0 (by rw [List.length_replicate]) (by norm_num)]
  have e : (List.replicate 4097 (0 : Byte)).take 4097 = List.replicate 4097 0 := by
    rw [List.take_replicate, min_self]
  simp only [e, if_true]
  have h := treeCV_eq_subtree samplePrims 0 (List.replicate 4097 0) (u64 (0 / 1024 * 0))
    samplePrims.flagRoot (by rw [List.length_replicate]; norm_num) (by norm_num)
  simp only [pow_zero, mul_one] at h
  rw [h]
  have hu0 : u64 (u64 (0 / 1024 * 0)) = 0 := by decide
  rw [hu0, subtree_zeros_node _ 4097 _ _ (by norm_num), splitMid_4097]
  simp only [show 4097 - 4096 = 1 from rfl]
  rw [subtree_zeros_node _ 4096 _ _ (by norm_num), splitMid_4096]
  simp only [show 4096 - 2048 = 2048 from rfl]
  rw [subtree_zeros_node _ 2048 0 _ (by norm_num), subtree_zeros_node _ 2048 _ _ (by norm_num),
    splitMid_2048]
  simp only [show 2048 - 1024 = 1024 from rfl]
  have hu1 : u64 (0 + 4096 / 1024) = 4 := by decide
  have hu2 : u64 (0 + 2048 / 1024) = 2 := by decide
  have hu3 : u64 (0 + 1024 / 1024) = 1 := by decide
  have hu4 : u64 (2 + 1024 / 1024) = 3 := by decide
  rw [hu1, hu2, hu3, hu4]
  rw [subtree_zeros_leaf _ 1024 _ _ (by norm_num), subtree_zeros_leaf _ 1024 _ _ (by norm_num),
    subtree_zeros_leaf _ 1024 _ _ (by norm_num), subtree_zeros_leaf _ 1024 _ _ (by norm_num),
    subtree_zeros_leaf _ 1 _ _ (by norm_num)]
  simp only [samplePieceCV]

/-- C3, evaluation at a failing input. 4097 zero bytes, block size and piece size 1024: five
pieces. The second-layer tree over the hexadecimal roots returned by `CustomBaoEncodePiece` for
pieces 0..4 ends with the queue `[e, abcd]` and returns `parent(e, abcd)`, whereas
`CustomBaoEncodeFile` returns `parent(abcd, e)`; the two results differ, whatever lies in memory
behind the decoded roots. -/
theorem secondLayer_five_pieces_diverges (mem : Nat → Nat → Byte) :
    CustomBaoEncodeSecondLayerHashTree samplePrims mem
        ((List.range 5).map fun i =>
          hexEncodeToString (returnedRoot (CustomBaoEncodePiece samplePrims memWriter []
            (List.replicate (min 1024 (4097 - 1024 * i)) 0) (min 1024 (4097 - 1024 * i)) 1024 true
            1024 i).1))
      ≠ (CustomBaoEncodeFile samplePrims memWriter [] (List.replicate 4097 0) 4097 1024 true).1 := by
  have hr : (List.range 5).map (fun i =>
        hexEncodeToString (returnedRoot (CustomBaoEncodePiece samplePrims memWriter []
          (List.replicate (min 1024 (4097 - 1024 * i)) 0) (min 1024 (4097 - 1024 * i)) 1024 true
          1024 i).1))
      = [samplePieceCV 1024 0, samplePieceCV 1024 1, samplePieceCV 1024 2, samplePieceCV 1024 3,
          samplePieceCV 1 4].map fun cv => hexEncodeToString (cvToBytes cv) := by
    have e : List.range 5 = [0, 1, 2, 3, 4] := rfl
    rw [e]
    simp only [List.map_cons, List.map_nil]
    have m0 : min 1024 (4097 - 1024 * 0) = 1024 := rfl
    have m1 : min 1024 (4097 - 1024 * 1) = 1024 := rfl
    have m2 : min 1024 (4097 - 1024 * 2) = 1024 := rfl
    have m3 : min 1024 (4097 - 1024 * 3) = 1024 := rfl
    have m4 : min 1024 (4097 - 1024 * 4) = 1 := rfl
    rw [m0, m1, m2, m3, m4, samplePiece_root 1024 0 (by norm_num) (by norm_num),
      samplePiece_root 1024 1 (by norm_num) (by norm_num),
      samplePiece_root 1024 2 (by norm_num) (by norm_num),
      samplePiece_root 1024 3 (by norm_num) (by norm_num),
      samplePiece_root 1 4 (by norm_num) (by norm_num)]
    rfl
  rw [hr, sampleFile_root, secondLayer_five samplePrims mem _ _ _ _ _
    (by simp only [samplePieceCV, samplePrims, List.length_replicate]; decide)
    (by simp only [samplePieceCV, samplePrims, List.length_replicate]; decide)
    (by simp only [samplePieceCV, samplePrims, List.length_replicate]; decide)]
  intro h
  injection h with h
  injection h with h
  have := cvToBytes_injective h
  revert this
  simp only [samplePieceCV, samplePrims, List.length_replicate]
  decide

/-! ## Contents of the file after the writes -/

theorem memWrite_length (f p : List Byte) (off : Nat) :
    (memWrite f p off).length
      = if p.length = 0 then f.length else max f.length (off + p.length) := by
  unfold memWrite
  by_cases hp : p = []
  · simp [hp]
  · have hl : p.length ≠ 0 := fun h => hp (List.length_eq_zero.1 h)
    rw [if_neg hp, if_neg hl]
    simp only [List.length_append, List.length_take, List.length_replicate, List.length_drop]
    omega

theorem memWrite_getD (f p : List Byte) (off i : Nat) :
    (memWrite f p off).getD i 0
      = if off ≤ i ∧ i < off + p.length then p.getD (i - off) 0 else f.getD i 0 := by
  unfold memWrite
  by_cases hp : p = []
  · subst hp
    have hn : ¬ (off ≤ i ∧ i < off + ([] : List Byte).length) := by
      simp only [List.length_nil]; omega
    rw [if_pos rfl, if_neg hn]
  · rw [if_neg hp]
    simp only [List.getD_eq_getElem?_getD, List.getElem?_append, List.length_append,
      List.length_take, List.length_replicate, List.getElem?_take, List.getElem?_drop,
      List.getElem?_replicate]
    have e : off ⊓ f.length + (off - f.length) = off := by omega
    rw [e]
    split_ifs <;> first
      | rfl
      | omega
      | (rw [List.getElem?_eq_none (by omega)]; rfl)
      | (congr 2; omega)

theorem list_ext_getD (a b : List Byte) (hl : a.length = b.length)
    (h : ∀ i, i < a.length → a.getD i 0 = b.getD i 0) : a = b := by
  apply List.ext_getElem hl
  intro i h1 h2
  have := h i h1
  rwa [List.getD_eq_getElem _ _ h1, List.getD_eq_getElem _ _ h2] at this

theorem preOrder_leaf (P : Primitives) {B : Nat} (outboard : Bool) {X : List Byte} (idx : Nat)
    (h : X.length ≤ B) : preOrder P B outboard X idx = if outboard then [] else X := by
  rw [preOrder, dif_pos (Or.inl h)]

theorem preOrder_node (P : Primitives) {B : Nat} (outboard : Bool) {X : List Byte} (idx : Nat)
    (hB : 1 ≤ B) (h : B < X.length) :
    preOrder P B outboard X idx
      = cvToBytes (subtreeChainingValue P (X.take (splitMid X.length)) idx 0)
        ++ cvToBytes (subtreeChainingValue P (X.drop (splitMid X.length))
            (u64 (idx + splitMid X.length / 1024)) 0)
        ++ preOrder P B outboard (X.take (splitMid X.length)) idx
        ++ preOrder P B outboard (X.drop (splitMid X.length))
            (u64 (idx + splitMid X.length / 1024)) := by
  rw [preOrder, dif_neg (by omega)]

/-- Size of the layout: 32 bytes per chaining value written, plus the data in inline mode. -/
theorem preOrder_length (P : Primitives) (B : Nat) (outboard : Bool) (hB : 1 ≤ B) (n : Nat) :
    ∀ (X : List Byte) (idx : Nat), X.length = n →
      (preOrder P B outboard X idx).length
        = treeChildren B n * 32 + (if outboard then 0 else n) := by
  induction n using Nat.strong_induction_on with
  | _ n ih =>
    intro X idx hlen
    subst hlen
    rcases Nat.lt_or_ge B X.length with h | h
    · have hm1 := splitMid_lt X.length (by omega)
      have hm0 := splitMid_pos X.length
      rw [preOrder_node P outboard idx hB h, treeChildren_node hB h]
      simp only [List.length_append, cvToBytes_length]
      rw [ih (splitMid X.length) hm1 _ _ (by rw [List.length_take]; omega),
        ih (X.length - splitMid X.length) (by omega) _ _ (by rw [List.length_drop])]
      cases outboard <;> simp <;> omega
    · rw [preOrder_leaf P outboard idx h, treeChildren_leaf h]
      cases outboard <;> simp

theorem getD_four (a b c d : List Byte) (k : Nat) :
    (a ++ b ++ c ++ d).getD k 0
      = if k < a.length then a.getD k 0
        else if k < a.length + b.length then b.getD (k - a.length) 0
        else if k < a.length + b.length + c.length then c.getD (k - a.length - b.length) 0
        else d.getD (k - a.length - b.length - c.length) 0 := by
  simp only [List.getD_eq_getElem?_getD, List.getElem?_append, List.length_append]
  split_ifs <;> first
    | rfl
    | omega
    | (congr 2; omega)

theorem replay_two_writes (ops : List IOOp) (p q : List Byte) (a b : Nat) (f : List Byte) :
    replay (ops ++ [IOOp.write p (a : Int) none, IOOp.write q (b : Int) none]) f
      = memWrite (memWrite (replay ops f) p a) q b := by
  rw [replay_append]
  simp [replay, applyOp]

/-- For a block size `1024 * 2 ^ j`, the value `llen` of `rec` is the size of the layout of the
left subtree. -/
theorem leftExtent_pow2 (P : Primitives) (j : Nat) (outboard : Bool) (X : List Byte) (idx n : Nat)
    (hn : 1024 * 2 ^ j < n) (h64 : n ≤ 2 ^ 64) (hX : X.length = splitMid n) :
    leftExtent (1024 * 2 ^ j) outboard (splitMid n)
      = (preOrder P (1024 * 2 ^ j) outboard X idx).length := by
  have hj : 0 < 2 ^ j := Nat.pos_pow_of_pos _ (by decide)
  have hBpow : 1024 * 2 ^ j = 2 ^ (10 + j) := by rw [pow_add]; norm_num
  rw [preOrder_length P _ outboard (by omega) _ X idx hX]
  unfold leftExtent
  obtain ⟨k, hk, hbk, -, -⟩ := pow_le_splitMid (hBpow ▸ hn) h64
  have hdvd : 1024 * 2 ^ j ∣ splitMid n := by
    rw [hk, hBpow]
    exact pow_dvd_pow 2 hbk
  rw [Nat.div_mul_cancel hdvd]

/-- For a block size `1024 * 2 ^ j`, the calls issued by `rec` leave in the file, from offset
`off` on, exactly the pre-order layout of the bytes, and nothing else changes. -/
theorem replay_treeOps (P : Primitives) (j : Nat) (outboard : Bool)
    (hB : 1024 * 2 ^ j < 2 ^ 64) (n : Nat) :
    ∀ (bytes : List Byte) (counter flags off : Nat) (f : List Byte), bytes.length = n →
      n ≤ 2 ^ 64 →
      (replay (treeOps P (1024 * 2 ^ j) outboard bytes counter flags off) f).length
        = (if (preOrder P (1024 * 2 ^ j) outboard bytes (u64 (counter * 2 ^ j))).length = 0
            then f.length
            else max f.length
              (off + (preOrder P (1024 * 2 ^ j) outboard bytes (u64 (counter * 2 ^ j))).length))
      ∧ ∀ i, (replay (treeOps P (1024 * 2 ^ j) outboard bytes counter flags off) f).getD i 0
        = if off ≤ i ∧ i < off
              + (preOrder P (1024 * 2 ^ j) outboard bytes (u64 (counter * 2 ^ j))).length
          then (preOrder P (1024 * 2 ^ j) outboard bytes (u64 (counter * 2 ^ j))).getD (i - off) 0
          else f.getD i 0 := by
  have hj : 0 < 2 ^ j := Nat.pos_pow_of_pos _ (by decide)
  have hBpow : 1024 * 2 ^ j = 2 ^ (10 + j) := by rw [pow_add]; norm_num
  induction n using Nat.strong_induction_on with
  | _ n ih =>
    intro bytes counter flags off f hlen h64
    subst hlen
    rcases Nat.lt_or_ge (1024 * 2 ^ j) bytes.length with h | h
    · -- inner node
      have hm1 := splitMid_lt bytes.length (by omega)
      have hm0 := splitMid_pos bytes.length
      obtain ⟨k, hk, hbk, -, -⟩ := pow_le_splitMid (hBpow ▸ h) h64
      have hk64 : k ≤ 64 := by
        by_contra hc
        have : 2 ^ 64 < 2 ^ k := Nat.pow_lt_pow_right (by decide) (by omega)
        omega
      obtain ⟨d, rfl⟩ : ∃ d, k = 10 + j + d := ⟨k - (10 + j), by omega⟩
      have hg : treeGroups (1024 * 2 ^ j) (splitMid bytes.length) = 2 ^ d := by
        rw [hk, hBpow]
        exact treeGroups_pow (10 + j) d hk64
      have hdiv : splitMid bytes.length / 1024 = 2 ^ d * 2 ^ j := by
        rw [hk, pow_add, pow_add]
        norm_num
        rw [Nat.mul_assoc, Nat.mul_div_cancel_left _ (by norm_num)]
        ring
      have hidx : u64 (u64 (counter + treeGroups (1024 * 2 ^ j) (splitMid bytes.length)) * 2 ^ j)
          = u64 (u64 (counter * 2 ^ j) + splitMid bytes.length / 1024) := by
        rw [hg, hdiv, u64_counter_step]
      have hlenL : (bytes.take (splitMid bytes.length)).length = splitMid bytes.length := by
        rw [List.length_take]; omega
      have hext := leftExtent_pow2 P j outboard (bytes.take (splitMid bytes.length))
        (u64 (counter * 2 ^ j)) bytes.length h h64 hlenL
      obtain ⟨l1, g1⟩ := ih (splitMid bytes.length) hm1 (bytes.take (splitMid bytes.length))
        counter 0 (off + 64) f hlenL (by omega)
      obtain ⟨l2, g2⟩ := ih (bytes.length - splitMid bytes.length) (by omega)
        (bytes.drop (splitMid bytes.length))
        (u64 (counter + treeGroups (1024 * 2 ^ j) (splitMid bytes.length))) 0
        (off + 64 + leftExtent (1024 * 2 ^ j) outboard (splitMid bytes.length))
        (replay (treeOps P (1024 * 2 ^ j) outboard (bytes.take (splitMid bytes.length)) counter 0
          (off + 64)) f) (by rw [List.length_drop]) (by omega)
      rw [hidx, hext] at l2 g2
      rw [treeOps_node P outboard counter flags off (by omega) h, hext,
        preOrder_node P outboard _ (by omega) h, replay_two_writes,
        treeCV_eq_subtree P j _ counter 0 (by omega) hB,
        treeCV_eq_subtree P j _ _ 0 (by rw [List.length_drop]; omega) hB, hidx, replay_append]
      generalize preOrder P (1024 * 2 ^ j) outboard (bytes.take (splitMid bytes.length))
        (u64 (counter * 2 ^ j)) = EL at *
      generalize preOrder P (1024 * 2 ^ j) outboard (bytes.drop (splitMid bytes.length))
        (u64 (u64 (counter * 2 ^ j) + splitMid bytes.length / 1024)) = ER at *
      generalize replay (treeOps P (1024 * 2 ^ j) outboard (bytes.take (splitMid bytes.length))
        counter 0 (off + 64)) f = f1 at *
      generalize replay (treeOps P (1024 * 2 ^ j) outboard (bytes.drop (splitMid bytes.length))
        (u64 (counter + treeGroups (1024 * 2 ^ j) (splitMid bytes.length))) 0
        (off + 64 + EL.length)) f1 = f2 at *
      have c1 := cvToBytes_length (subtreeChainingValue P (bytes.take (splitMid bytes.length))
        (u64 (counter * 2 ^ j)) 0)
      have c2 := cvToBytes_length (subtreeChainingValue P (bytes.drop (splitMid bytes.length))
        (u64 (u64 (counter * 2 ^ j) + splitMid bytes.length / 1024)) 0)
      generalize cvToBytes (subtreeChainingValue P (bytes.take (splitMid bytes.length))
        (u64 (counter * 2 ^ j)) 0) = cl at *
      generalize cvToBytes (subtreeChainingValue P (bytes.drop (splitMid bytes.length))
        (u64 (u64 (counter * 2 ^ j) + splitMid bytes.length / 1024)) 0) = cr at *
      constructor
      · simp only [memWrite_length, List.length_append, c1, c2, l1, l2]
        split_ifs <;> first
          | omega
          | contradiction
      · intro i
        simp only [memWrite_getD, getD_four, List.length_append, c1, c2, g1, g2]
        split_ifs <;> first
          | rfl
          | omega
          | contradiction
          | (congr 1; omega)
    · -- leaf group
      rw [treeOps_leaf P outboard counter flags off h, preOrder_leaf P outboard _ h]
      cases outboard
      · simp only [Bool.false_eq_true, if_false, replay, List.foldl_cons, List.foldl_nil, applyOp,
          Int.toNat_ofNat, memWrite_length, memWrite_getD]
        exact ⟨trivial, fun i => trivial⟩
      · simp only [if_true, replay, List.foldl_cons, List.foldl_nil, applyOp, List.length_nil]
        refine ⟨trivial, fun i => ?_⟩
        rw [if_neg (by omega)]

theorem putUint64_length (x : Nat) : (putUint64 x).length = 8 := by
  simp [putUint64]

theorem memWrite_header (h : List Byte) (hl : h.length = 8) : memWrite [] h 0 = h := by
  unfold memWrite
  have hne : h ≠ [] := by
    intro e
    rw [e] at hl
    simp at hl
  rw [if_neg hne]
  simp

/-- Final contents of an initially empty file in memory, for a block size `1024 * 2 ^ j`. -/
theorem encode_dst_pow2 (P : Primitives) (j : Nat) (S : List Byte) (outboard isRoot : Bool)
    (pieceSize pieceIndex : Nat) (hB : 1024 * 2 ^ j < 2 ^ 63) (hS : S.length < 2 ^ 56) :
    (CustomBaoEncode P memWriter [] S S.length (1024 * 2 ^ j) outboard isRoot pieceSize
        pieceIndex).2.dst
      = putUint64 S.length ++ preOrder P (1024 * 2 ^ j) outboard S
          (u64 (u64 (pieceSize / (1024 * 2 ^ j) * pieceIndex) * 2 ^ j)) := by
  have hj : 0 < 2 ^ j := Nat.pos_pow_of_pos _ (by decide)
  rw [encode_memWriter P _ outboard isRoot (by omega) hB [] S S.length pieceSize pieceIndex
    (le_refl _) (by omega)]
  simp only [List.take_length]
  rw [memWrite_header _ (putUint64_length _)]
  obtain ⟨hl, hg⟩ := replay_treeOps P j outboard (by omega) S.length S
    (u64 (pieceSize / (1024 * 2 ^ j) * pieceIndex)) (if isRoot then P.flagRoot else 0) 8
    (putUint64 S.length) rfl (by omega)
  have h8 := putUint64_length S.length
  apply list_ext_getD
  · rw [hl, List.length_append, h8]
    split_ifs <;> omega
  · intro i _
    rw [hg i, List.getD_eq_getElem?_getD (putUint64 S.length ++ _), List.getElem?_append, h8]
    simp only [List.getD_eq_getElem?_getD]
    split_ifs <;> first
      | rfl
      | omega
      | (rw [List.getElem?_eq_none (by omega), List.getElem?_eq_none (by omega)])

/-- C6. For every byte string `S` (shorter than `2 ^ 56` bytes) and block size `1024 * 2 ^ j`
below `2 ^ 63`, the bytes that `CustomBaoEncode` leaves in an initially empty file are exactly
`header ++ pre(S)`: the 8 little-endian bytes of `len(S)`, then the pre-order layout `preOrder`
(`X` itself in inline mode and nothing in outboard mode when `len(X) ≤ B`; otherwise
`cv(left) ++ cv(right) ++ pre(left) ++ pre(right)` with the split at the largest power of two
below `len(X)`). For `CustomBaoEncodeFile` the chunk index of the layout starts at 0. -/
theorem encode_leaves_header_and_preorder (P : Primitives) (j : Nat) (S : List Byte)
    (outboard isRoot : Bool) (pieceSize pieceIndex : Nat) (hB : 1024 * 2 ^ j < 2 ^ 63)
    (hS : S.length < 2 ^ 56) :
    (CustomBaoEncode P memWriter [] S S.length (1024 * 2 ^ j) outboard isRoot pieceSize
        pieceIndex).2.dst
      = putUint64 S.length ++ preOrder P (1024 * 2 ^ j) outboard S
          (u64 (u64 (pieceSize / (1024 * 2 ^ j) * pieceIndex) * 2 ^ j))
    ∧ (CustomBaoEncodeFile P memWriter [] S S.length (1024 * 2 ^ j) outboard).2.dst
      = putUint64 S.length ++ preOrder P (1024 * 2 ^ j) outboard S 0
    ∧ (putUint64 S.length).length = 8 := by
  refine ⟨encode_dst_pow2 P j S outboard isRoot pieceSize pieceIndex hB hS, ?_,
    putUint64_length _⟩
  unfold CustomBaoEncodeFile
  rw [encode_dst_pow2 P j S outboard true 0 0 hB hS]
  have : u64 (u64 (0 / (1024 * 2 ^ j) * 0) * 2 ^ j) = 0 := by simp [u64]
  rw [this]

theorem encode_leaves_header_and_preorder_witness :
    (1024 * 2 ^ 0 < 2 ^ 63 ∧ (List.replicate 2049 (0 : Byte)).length < 2 ^ 56) ∧
    (CustomBaoEncodeFile samplePrims memWriter [] (List.replicate 2049 0)
        (List.replicate 2049 (0 : Byte)).length (1024 * 2 ^ 0) false).2.dst
      = putUint64 (List.replicate 2049 (0 : Byte)).length
          ++ preOrder samplePrims (1024 * 2 ^ 0) false (List.replicate 2049 0) 0 :=
  ⟨⟨by norm_num, by rw [List.length_replicate]; norm_num⟩,
    (encode_leaves_header_and_preorder samplePrims 0 (List.replicate 2049 0) false true 0 0
      (by norm_num) (by rw [List.length_replicate]; norm_num)).2.1⟩

/-- Two chaining values are written per leaf group beyond the first. -/
theorem treeChildren_groups (B : Nat) (hB : 1 ≤ B) (n : Nat) :
    treeChildren B n + 2 = 2 * treeGroups B n := by
  induction n using Nat.strong_induction_on with
  | _ n ih =>
    rcases Nat.lt_or_ge B n with h | h
    · have h1 := splitMid_lt n (by omega)
      have h2 := splitMid_pos n
      rw [treeChildren_node hB h, treeGroups_node hB h]
      have a := ih (splitMid n) h1
      have b := ih (n - splitMid n) (by omega)
      omega
    · rw [treeChildren_leaf h, treeGroups_leaf h]

/-- For a power-of-two block size, a range of `n ≥ 1` bytes has `⌈n / B⌉` leaf groups. -/
theorem treeGroups_ceil (b n : Nat) (h1 : 1 ≤ n) (h64 : n ≤ 2 ^ 64) :
    treeGroups (2 ^ b) n = (n + 2 ^ b - 1) / 2 ^ b := by
  have hb : 0 < 2 ^ b := Nat.pos_pow_of_pos _ (by decide)
  induction n using Nat.strong_induction_on with
  | _ n ih =>
    rcases Nat.lt_or_ge (2 ^ b) n with h | h
    · obtain ⟨k, hk, hbk, hlt, hle⟩ := pow_le_splitMid h h64
      have hk64 : k ≤ 64 := by
        by_contra hc
        have : 2 ^ 64 < 2 ^ k := Nat.pow_lt_pow_right (by decide) (by omega)
        omega
      obtain ⟨d, rfl⟩ : ∃ d, k = b + d := ⟨k - b, by omega⟩
      rw [treeGroups_node (by omega) h, ih (n - splitMid n) (by rw [hk]; omega)
        (by rw [hk]; omega) (by omega), hk, treeGroups_pow b d hk64]
      have e : n + 2 ^ b - 1 = 2 ^ b * 2 ^ d + (n - 2 ^ (b + d) + 2 ^ b - 1) := by
        rw [← pow_add]; omega
      rw [e, Nat.mul_add_div hb]
    · rw [treeGroups_leaf h]
      have : (n + 2 ^ b - 1) / 2 ^ b = 1 := by
        apply Nat.div_eq_of_lt_le <;> omega
      rw [this]

/-- Size of the outboard stream for a block size `1024 * 2 ^ j`. -/
theorem outboard_size_pow2 (P : Primitives) (j : Nat) (S : List Byte)
    (hB : 1024 * 2 ^ j < 2 ^ 63) (hS : S.length < 2 ^ 56) (hL : 1 ≤ S.length) :
    (CustomBaoEncodeFile P memWriter [] S S.length (1024 * 2 ^ j) true).2.dst.length
      = 8 + 64 * ((S.length + 1024 * 2 ^ j - 1) / (1024 * 2 ^ j) - 1) := by
  have hj : 0 < 2 ^ j := Nat.pos_pow_of_pos _ (by decide)
  have hBpow : 1024 * 2 ^ j = 2 ^ (10 + j) := by rw [pow_add]; norm_num
  unfold CustomBaoEncodeFile
  rw [encode_dst_pow2 P j S true true 0 0 hB hS, List.length_append, putUint64_length,
    preOrder_length P _ true (by omega) _ S _ rfl]
  have hc := treeChildren_groups (1024 * 2 ^ j) (by omega) S.length
  have hg := treeGroups_ceil (10 + j) S.length hL (by omega)
  rw [← hBpow] at hg
  rw [hg] at hc
  simp only [if_true]
  omega

/-- C7. For every data length `L ≥ 1` (below `2 ^ 56`) and block size `1024 * 2 ^ j` below
`2 ^ 63`, outboard-mode `CustomBaoEncodeFile` on an initially empty file leaves a stream of
exactly `8 + 64 * (⌈L / B⌉ - 1)` bytes; for `L = 1,000,000,000` this is 3,906,248 bytes at
`B = 16 * 1024` and 488,264 bytes at `B = 128 * 1024`. -/
theorem outboard_stream_size (P : Primitives) (j : Nat) (S : List Byte)
    (hB : 1024 * 2 ^ j < 2 ^ 63) (hS : S.length < 2 ^ 56) (hL : 1 ≤ S.length) :
    (CustomBaoEncodeFile P memWriter [] S S.length (1024 * 2 ^ j) true).2.dst.length
      = 8 + 64 * ((S.length + 1024 * 2 ^ j - 1) / (1024 * 2 ^ j) - 1)
    ∧ (∀ S' : List Byte, S'.length = 1000000000 →
        (CustomBaoEncodeFile P memWriter [] S' 1000000000 (16 * 1024) true).2.dst.length
          = 3906248
        ∧ (CustomBaoEncodeFile P memWriter [] S' 1000000000 (128 * 1024) true).2.dst.length
          = 488264) := by
  refine ⟨outboard_size_pow2 P j S hB hS hL, ?_⟩
  intro S' hS'
  have h4 := outboard_size_pow2 P 4 S' (by norm_num) (by rw [hS']; norm_num) (by rw [hS']; norm_num)
  have h7 := outboard_size_pow2 P 7 S' (by norm_num) (by rw [hS']; norm_num) (by rw [hS']; norm_num)
  rw [hS'] at h4 h7
  exact ⟨h4, h7⟩

theorem outboard_stream_size_witness :
    (1024 * 2 ^ 0 < 2 ^ 63 ∧ (List.replicate 2049 (0 : Byte)).length < 2 ^ 56
      ∧ 1 ≤ (List.replicate 2049 (0 : Byte)).length) ∧
    (CustomBaoEncodeFile samplePrims memWriter [] (List.replicate 2049 0)
        (List.replicate 2049 (0 : Byte)).length (1024 * 2 ^ 0) true).2.dst.length
      = 8 + 64 * (((List.replicate 2049 (0 : Byte)).length + 1024 * 2 ^ 0 - 1)
          / (1024 * 2 ^ 0) - 1)
    ∧ 8 + 64 * (((List.replicate 2049 (0 : Byte)).length + 1024 * 2 ^ 0 - 1)
          / (1024 * 2 ^ 0) - 1) = 136 :=
  ⟨⟨by norm_num, by rw [List.length_replicate]; norm_num,
      by rw [List.length_replicate]; norm_num⟩,
    (outboard_stream_size samplePrims 0 (List.replicate 2049 0) (by norm_num)
      (by rw [List.length_replicate]; norm_num) (by rw [List.length_replicate]; norm_num)).1,
    by rw [List.length_replicate]; norm_num⟩

theorem drop_take_of_getD (g p : List Byte) (off : Nat) (hlen : off + p.length ≤ g.length)
    (h : ∀ i, i < p.length → g.getD (off + i) 0 = p.getD i 0) :
    (g.drop off).take p.length = p := by
  apply list_ext_getD
  · rw [List.length_take, List.length_drop]
    omega
  · intro i hi
    rw [List.length_take, List.length_drop] at hi
    rw [← h i (by omega)]
    simp only [List.getD_eq_getElem?_getD, List.getElem?_take, List.getElem?_drop]
    rw [if_pos (by omega)]

/-- C8. For every byte string `S` longer than the block size `B` (`B ≥ 8`, `S` shorter than
`2 ^ 56` bytes), `CustomBaoEncodeFile` returns the same result in outboard mode as in inline
mode, and the root can be derived again from the outboard stream alone: with `l` and `r` the
chaining values read from the 32 bytes at offsets 8 and 40 of the outboard stream,
`cvToBytes (chainingValue (parentNode l r iv flagRoot))` is the value inline mode returns. -/
theorem outboard_root_rederivable (P : Primitives) (beyond : Nat → Byte) (B : Nat)
    (S : List Byte) (hB : 8 ≤ B) (hlong : B < S.length) (hS : S.length < 2 ^ 56) :
    (CustomBaoEncodeFile P memWriter [] S S.length B true).1
      = (CustomBaoEncodeFile P memWriter [] S S.length B false).1
    ∧ ∃ l r : CV,
        bytesToCV beyond
            (((CustomBaoEncodeFile P memWriter [] S S.length B true).2.dst.drop 8).take 32)
          = some l
        ∧ bytesToCV beyond
            (((CustomBaoEncodeFile P memWriter [] S S.length B true).2.dst.drop 40).take 32)
          = some r
        ∧ (CustomBaoEncodeFile P memWriter [] S S.length B false).1
          = .ok (cvToBytes (P.chainingValue (P.parentNode l r P.iv P.flagRoot)), none) := by
  unfold CustomBaoEncodeFile
  rw [encode_memWriter P B true true hB (by omega) [] S S.length 0 0 (le_refl _) (by omega),
    encode_memWriter P B false true hB (by omega) [] S S.length 0 0 (le_refl _) (by omega)]
  simp only [List.take_length, if_true, true_and]
  refine ⟨treeCV P B (S.take (splitMid S.length)) (u64 (0 / B * 0)) 0,
    treeCV P B (S.drop (splitMid S.length))
      (u64 (u64 (0 / B * 0) + treeGroups B (splitMid S.length))) 0, ?_, ?_, ?_⟩
  · rw [treeOps_node P true _ _ 8 (by omega) hlong, replay_two_writes]
    rw [← bytesToCV_cvToBytes beyond
      (treeCV P B (S.take (splitMid S.length)) (u64 (0 / B * 0)) 0)]
    congr 1
    generalize replay _ _ = f2
    have c1 := cvToBytes_length (treeCV P B (S.take (splitMid S.length)) (u64 (0 / B * 0)) 0)
    have c2 := cvToBytes_length (treeCV P B (S.drop (splitMid S.length))
      (u64 (u64 (0 / B * 0) + treeGroups B (splitMid S.length))) 0)
    generalize cvToBytes (treeCV P B (S.take (splitMid S.length)) (u64 (0 / B * 0)) 0) = cl at *
    generalize cvToBytes (treeCV P B (S.drop (splitMid S.length))
      (u64 (u64 (0 / B * 0) + treeGroups B (splitMid S.length))) 0) = cr at *
    rw [← c1]
    apply drop_take_of_getD
    · simp only [memWrite_length, c1, c2]
      split_ifs <;> first
        | omega
        | contradiction
    · intro i hi
      simp only [memWrite_getD, c1, c2]
      split_ifs <;> first
        | omega
        | contradiction
        | (congr 1; omega)
  · rw [treeOps_node P true _ _ 8 (by omega) hlong, replay_two_writes]
    rw [← bytesToCV_cvToBytes beyond (treeCV P B (S.drop (splitMid S.length))
      (u64 (u64 (0 / B * 0) + treeGroups B (splitMid S.length))) 0)]
    congr 1
    generalize replay _ _ = f2
    have c1 := cvToBytes_length (treeCV P B (S.take (splitMid S.length)) (u64 (0 / B * 0)) 0)
    have c2 := cvToBytes_length (treeCV P B (S.drop (splitMid S.length))
      (u64 (u64 (0 / B * 0) + treeGroups B (splitMid S.length))) 0)
    generalize cvToBytes (treeCV P B (S.take (splitMid S.length)) (u64 (0 / B * 0)) 0) = cl at *
    generalize cvToBytes (treeCV P B (S.drop (splitMid S.length))
      (u64 (u64 (0 / B * 0) + treeGroups B (splitMid S.length))) 0) = cr at *
    rw [← c2]
    apply drop_take_of_getD
    · simp only [memWrite_length, c1, c2]
      split_ifs <;> first
        | omega
        | contradiction
    · intro i hi
      simp only [memWrite_getD, c1, c2]
      split_ifs <;> first
        | omega
        | contradiction
        | (congr 1; omega)
  · rw [treeCV_node P _ _ (by omega) hlong]

theorem outboard_root_rederivable_witness :
    (8 ≤ 8 ∧ 8 < (List.replicate 9 (0 : Byte)).length
      ∧ (List.replicate 9 (0 : Byte)).length < 2 ^ 56) ∧
    (CustomBaoEncodeFile samplePrims memWriter [] (List.replicate 9 0)
        (List.replicate 9 (0 : Byte)).length 8 true).1
      = (CustomBaoEncodeFile samplePrims memWriter [] (List.replicate 9 0)
        (List.replicate 9 (0 : Byte)).length 8 false).1 :=
  ⟨⟨by decide, by decide, by simp⟩,
    (outboard_root_rederivable samplePrims (fun _ => 0) 8 (List.replicate 9 0) (by decide)
      (by decide)
      (by simp)).1⟩

/-! ## Write ranges -/

theorem writeRanges_append (a b : List IOOp) :
    writeRanges (a ++ b) = writeRanges a ++ writeRanges b := by
  induction a with
  | nil => rfl
  | cons x t ih =>
    cases x with
    | read n e =>
      rw [List.cons_append]
      simp only [writeRanges, ih]
    | write p off e =>
      rw [List.cons_append]
      simp only [writeRanges, ih, List.cons_append]

/-- In outboard mode, or for a block size `1024 * 2 ^ j`, the writes of `rec` stay within
`[off, off + treeExtent)` and are pairwise disjoint. -/
theorem treeOps_ranges (P : Primitives) (B : Nat) (outboard : Bool) (hB : 1 ≤ B)
    (hcase : outboard = true ∨ ∃ j, B = 1024 * 2 ^ j) (n : Nat) :
    ∀ (bytes : List Byte) (counter flags off : Nat), bytes.length = n → n ≤ 2 ^ 64 →
      (∀ r ∈ writeRanges (treeOps P B outboard bytes counter flags off),
        (off : Int) ≤ r.1 ∧ r.1 + r.2 ≤ (off : Int) + treeExtent B outboard n)
      ∧ (writeRanges (treeOps P B outboard bytes counter flags off)).Pairwise RangesDisjoint := by
  induction n using Nat.strong_induction_on with
  | _ n ih =>
    intro bytes counter flags off hlen h64
    subst hlen
    rcases Nat.lt_or_ge B bytes.length with h | h
    · have hm1 := splitMid_lt bytes.length (by omega)
      have hm0 := splitMid_pos bytes.length
      have hext : leftExtent B outboard (splitMid bytes.length)
          = treeExtent B outboard (splitMid bytes.length) := by
        unfold leftExtent treeExtent
        rcases hcase with rfl | ⟨j, rfl⟩
        · simp
        · have hBpow : 1024 * 2 ^ j = 2 ^ (10 + j) := by rw [pow_add]; norm_num
          obtain ⟨k, hk, hbk, -, -⟩ := pow_le_splitMid (hBpow ▸ h) h64
          have hdvd : 1024 * 2 ^ j ∣ splitMid bytes.length := by
            rw [hk, hBpow]
            exact pow_dvd_pow 2 hbk
          rw [Nat.div_mul_cancel hdvd]
      have htot : treeExtent B outboard bytes.length
          = 64 + treeExtent B outboard (splitMid bytes.length)
            + treeExtent B outboard (bytes.length - splitMid bytes.length) := by
        unfold treeExtent
        rw [treeChildren_node hB h]
        cases outboard <;> simp <;> omega
      obtain ⟨r1, p1⟩ := ih (splitMid bytes.length) hm1 (bytes.take (splitMid bytes.length))
        counter 0 (off + 64) (by rw [List.length_take]; omega) (by omega)
      obtain ⟨r2, p2⟩ := ih (bytes.length - splitMid bytes.length) (by omega)
        (bytes.drop (splitMid bytes.length)) (u64 (counter + treeGroups B (splitMid bytes.length)))
        0 (off + 64 + leftExtent B outboard (splitMid bytes.length))
        (by rw [List.length_drop]) (by omega)
      rw [hext] at r2 p2
      rw [treeOps_node P outboard counter flags off hB h, hext, writeRanges_append,
        writeRanges_append, htot]
      simp only [writeRanges, cvToBytes_length]
      generalize writeRanges (treeOps P B outboard (bytes.take (splitMid bytes.length)) counter 0
        (off + 64)) = RL at *
      generalize writeRanges (treeOps P B outboard (bytes.drop (splitMid bytes.length))
        (u64 (counter + treeGroups B (splitMid bytes.length))) 0
        (off + 64 + treeExtent B outboard (splitMid bytes.length))) = RR at *
      generalize treeExtent B outboard (splitMid bytes.length) = eL at *
      generalize treeExtent B outboard (bytes.length - splitMid bytes.length) = eR at *
      constructor
      · intro r hr
        simp only [List.mem_append, List.mem_cons, List.mem_singleton, List.not_mem_nil,
          or_false] at hr
        rcases hr with (hr | hr) | hr | hr
        · have := r1 r hr
          push_cast at this ⊢
          omega
        · have := r2 r hr
          push_cast at this ⊢
          omega
        · subst hr
          push_cast
          omega
        · subst hr
          push_cast
          omega
      · rw [List.pairwise_append, List.pairwise_append]
        refine ⟨⟨p1, p2, ?_⟩, ?_, ?_⟩
        · intro a ha b hb
          have h1 := r1 a ha
          have h2 := r2 b hb
          unfold RangesDisjoint
          push_cast at h1 h2
          omega
        · simp only [List.pairwise_cons, List.mem_singleton, forall_eq, List.not_mem_nil,
            false_implies, implies_true, List.Pairwise.nil, and_true]
          unfold RangesDisjoint
          push_cast
          omega
        · intro a ha b hb
          simp only [List.mem_append] at ha
          simp only [List.mem_cons, List.mem_singleton, List.not_mem_nil, or_false] at hb
          unfold RangesDisjoint
          rcases ha with ha | ha
          · have h1 := r1 a ha
            rcases hb with rfl | rfl <;> push_cast at h1 ⊢ <;> omega
          · have h2 := r2 a ha
            rcases hb with rfl | rfl <;> push_cast at h2 ⊢ <;> omega
    · rw [treeOps_leaf P outboard counter flags off h]
      unfold treeExtent
      cases outboard
      · simp only [Bool.false_eq_true, if_false, writeRanges, List.mem_singleton, forall_eq,
          List.pairwise_cons, List.not_mem_nil, false_implies, implies_true, List.Pairwise.nil,
          and_true, treeChildren_leaf h]
        push_cast
        omega
      · simp [writeRanges]

/-- C9, counterexample. Block size 3072 (a positive multiple of 1024), inline mode, 3073 zero
bytes: `rec` computes `llen = (2048 / 3072) * 3072 = 0` for the left leaf group, so the two leaf
groups are both written at offset 72; the write ranges are not pairwise disjoint. -/
theorem inline_block3072_overwrites :
    (3072 % 1024 = 0 ∧ 0 < 3072) ∧
    writeRanges (CustomBaoEncodeFile samplePrims memWriter [] (List.replicate 3073 0) 3073 3072
        false).2.log
      = [(0, 8), (72, 2048), (72, 1025), (8, 32), (40, 32)]
    ∧ ¬ (writeRanges (CustomBaoEncodeFile samplePrims memWriter [] (List.replicate 3073 0) 3073
        3072 false).2.log).Pairwise RangesDisjoint := by
  have hlog : writeRanges (CustomBaoEncodeFile samplePrims memWriter [] (List.replicate 3073 0)
      3073 3072 false).2.log = [(0, 8), (72, 2048), (72, 1025), (8, 32), (40, 32)] := by
    unfold CustomBaoEncodeFile
    rw [encode_memWriter samplePrims 3072 false true (by norm_num) (by norm_num) []
      (List.replicate 3073 0) 3073
      0 0 (by rw [List.length_replicate]) (by norm_num)]
    have e : (List.replicate 3073 (0 : Byte)).take 3073 = List.replicate 3073 0 := by
      rw [List.take_replicate, min_self]
    simp only [e, if_true]
    rw [treeOps_node samplePrims false _ _ 8 (by norm_num)
      (by rw [List.length_replicate]; norm_num)]
    simp only [List.length_replicate, splitMid_3073, List.take_replicate, List.drop_replicate]
    have m1 : min 2048 3073 = 2048 := rfl
    have m2 : 3073 - 2048 = 1025 := rfl
    have hle : leftExtent 3072 false 2048 = 0 := by
      unfold leftExtent
      rw [treeChildren_leaf (by norm_num)]
      rfl
    rw [m1, m2, hle, treeOps_leaf samplePrims false _ _ _ (by rw [List.length_replicate]; norm_num),
      treeOps_leaf samplePrims false _ _ _ (by rw [List.length_replicate]; norm_num)]
    simp only [Bool.false_eq_true, if_false, List.cons_append, List.nil_append, writeRanges,
      putUint64_length, cvToBytes_length, List.length_replicate]
    rfl
  refine ⟨by decide, hlog, ?_⟩
  rw [hlog]
  decide

/-- C9, amended. For every byte string `S` (shorter than `2 ^ 56` bytes) and every block size
`B` that is a positive multiple of 1024 fitting `uint64`: in outboard mode, and in inline mode
when `B = 1024 * 2 ^ j` or `S` is no longer than `B`, no byte offset of `dst` is written more
than once during one `CustomBaoEncode` call: the byte ranges of the header write, of every
parent-node write and of every leaf-group write are pairwise disjoint. -/
theorem writes_pairwise_disjoint (P : Primitives) (B : Nat) (S dst : List Byte)
    (outboard isRoot : Bool) (pieceSize pieceIndex : Nat) (hmul : B % 1024 = 0) (hpos : 0 < B)
    (hS : S.length < 2 ^ 56)
    (hcase : outboard = true ∨ (∃ j, B = 1024 * 2 ^ j) ∨ S.length ≤ B) :
    (writeRanges (CustomBaoEncode P memWriter dst S S.length B outboard isRoot pieceSize
        pieceIndex).2.log).Pairwise RangesDisjoint := by
  by_cases hB63 : 2 ^ 63 ≤ B
  · unfold CustomBaoEncode
    rw [if_neg (by omega)]
    simp only []
    rw [if_pos hB63]
    exact List.Pairwise.nil
  rw [encode_memWriter P B outboard isRoot (by omega) (by omega) dst S S.length pieceSize
    pieceIndex (le_refl _) (by omega)]
  simp only [List.take_length, writeRanges, putUint64_length, List.pairwise_cons]
  have key : (∀ r ∈ writeRanges (treeOps P B outboard S (u64 (pieceSize / B * pieceIndex))
        (if isRoot = true then P.flagRoot else 0) 8), ((8 : Nat) : Int) ≤ r.1)
      ∧ (writeRanges (treeOps P B outboard S (u64 (pieceSize / B * pieceIndex))
        (if isRoot = true then P.flagRoot else 0) 8)).Pairwise RangesDisjoint := by
    have hgood : (outboard = true ∨ ∃ j, B = 1024 * 2 ^ j) ∨ S.length ≤ B := by
      rcases hcase with h | h | h
      · exact Or.inl (Or.inl h)
      · exact Or.inl (Or.inr h)
      · exact Or.inr h
    rcases hgood with h | h
    · obtain ⟨r1, p1⟩ := treeOps_ranges P B outboard (by omega) h S.length S
        (u64 (pieceSize / B * pieceIndex)) (if isRoot = true then P.flagRoot else 0) 8 rfl
        (by omega)
      exact ⟨fun r hr => (r1 r hr).1, p1⟩
    · rw [treeOps_leaf P outboard _ _ _ h]
      cases outboard <;> simp [writeRanges]
  refine ⟨fun r hr => ?_, key.2⟩
  have := key.1 r hr
  unfold RangesDisjoint
  push_cast at this ⊢
  omega

theorem writes_pairwise_disjoint_witness :
    (3072 % 1024 = 0 ∧ 0 < 3072 ∧ (List.replicate 3073 (0 : Byte)).length < 2 ^ 56
      ∧ (true = true ∨ (∃ j, 3072 = 1024 * 2 ^ j)
          ∨ (List.replicate 3073 (0 : Byte)).length ≤ 3072)) ∧
    (writeRanges (CustomBaoEncode samplePrims memWriter [] (List.replicate 3073 0)
        (List.replicate 3073 (0 : Byte)).length 3072 true true 0 0).2.log).Pairwise
      RangesDisjoint :=
  ⟨⟨by decide, by decide, by rw [List.length_replicate]; norm_num, Or.inl rfl⟩,
    writes_pairwise_disjoint samplePrims 3072 (List.replicate 3073 0) [] true true 0 0 (by decide)
      (by decide) (by rw [List.length_replicate]; norm_num) (Or.inl rfl)⟩

theorem allSucceeded_append {a b : List IOOp} (ha : AllSucceeded a) (hb : AllSucceeded b) :
    AllSucceeded (a ++ b) := by
  intro op hop
  rcases List.mem_append.1 hop with h | h
  · exact ha op h
  · exact hb op h

theorem failsLast_append {a b : List IOOp} {e : IOError} (ha : AllSucceeded a)
    (hb : FailsLastWith b e) : FailsLastWith (a ++ b) e := by
  obtain ⟨oks, op, rfl, hoks, hop⟩ := hb
  exact ⟨a ++ oks, op, by rw [List.append_assoc], allSucceeded_append ha hoks, hop⟩

theorem allSucceeded_single {op : IOOp} (h : op.outcome = none) : AllSucceeded [op] := by
  intro o ho
  rw [List.mem_singleton.1 ho]
  exact h

theorem failsLast_single {op : IOOp} {e : IOError} (h : op.outcome = some e) :
    FailsLastWith [op] e :=
  ⟨[], op, rfl, fun _ h => absurd h (List.not_mem_nil _), h⟩

theorem read_post {σ : Type} (n : Nat) (st : EncState σ) (he : st.err = none) :
    StepPost st n (CustomBaoEncode.read n st).1 (CustomBaoEncode.read n st).2
    ∧ (CustomBaoEncode.read n st).2.dst = st.dst
    ∧ (CustomBaoEncode.read n st).2.counter = st.counter := by
  obtain ⟨data, dst, counter, err, log⟩ := st
  simp only at he
  subst he
  unfold CustomBaoEncode.read readFull
  by_cases hn : n ≤ data.length
  · simp only [hn, if_true, and_self, and_true]
    exact ⟨[IOOp.read n none], rfl, allSucceeded_single rfl, rfl, hn, rfl⟩
  · simp only [hn, if_false, and_self, and_true]
    exact ⟨[IOOp.read n _], rfl, _, rfl, failsLast_single rfl⟩

theorem write_post {σ : Type} (W : WriterAt σ) (p : List Byte) (off : Nat) (st : EncState σ)
    (he : st.err = none) :
    StepPost st 0 (CustomBaoEncode.write W p off st).1 (CustomBaoEncode.write W p off st).2
    ∧ (CustomBaoEncode.write W p off st).2.counter = st.counter := by
  obtain ⟨data, dst, counter, err, log⟩ := st
  simp only at he
  subst he
  unfold CustomBaoEncode.write
  cases hw : W.writeAt dst p (toInt64 off) with
  | ok d =>
    simp only [and_true]
    exact ⟨[IOOp.write p (toInt64 off) none], rfl, allSucceeded_single rfl, rfl, Nat.zero_le _,
      rfl⟩
  | error e =>
    simp only [and_true]
    exact ⟨[IOOp.write p (toInt64 off) (some e)], rfl, e, rfl, failsLast_single rfl⟩

/-- Sequencing: a successful step followed by a second step. -/
theorem stepPost_seq {σ α : Type} (st : EncState σ) (n : Nat) {st1 st2 : EncState σ} {m : Nat}
    {res : Except Panic α}
    (h1 : ∃ ops, st1.log = st.log ++ ops ∧ AllSucceeded ops ∧ st1.err = none
      ∧ n ≤ st.data.length ∧ st1.data = st.data.drop n)
    (h2 : StepPost st1 m res st2) : StepPost st (n + m) res st2 := by
  obtain ⟨ops1, hl1, hc1, -, hn1, hd1⟩ := h1
  obtain ⟨ops2, hl2, h2⟩ := h2
  refine ⟨ops1 ++ ops2, by rw [hl2, hl1, List.append_assoc], ?_⟩
  cases res with
  | ok v =>
    obtain ⟨hc2, he2, hn2, hd2⟩ := h2
    refine ⟨allSucceeded_append hc1 hc2, he2, ?_, ?_⟩
    · rw [hd1, List.length_drop] at hn2
      omega
    · rw [hd2, hd1, List.drop_drop]
  | error p =>
    obtain ⟨e, hp, hf⟩ := h2
    exact ⟨e, hp, failsLast_append hc1 hf⟩

theorem stepPost_ok {σ α β : Type} {st st' : EncState σ} {n n' : Nat} {a : α} (b : β)
    (h : StepPost st n (Except.ok a : Except Panic α) st') (hn : n = n') :
    StepPost st n' (Except.ok b : Except Panic β) st' := by
  subst hn
  exact h

theorem stepPost_error {σ α β : Type} {st st' : EncState σ} {n : Nat} (n' : Nat) {p : Panic}
    (h : StepPost st n (Except.error p : Except Panic α) st') :
    StepPost st n' (Except.error p : Except Panic β) st' := h

theorem stepPost_ok_pre {σ α : Type} {st st' : EncState σ} {n : Nat} {a : α}
    (h : StepPost st n (Except.ok a : Except Panic α) st') :
    ∃ ops, st'.log = st.log ++ ops ∧ AllSucceeded ops ∧ st'.err = none
      ∧ n ≤ st.data.length ∧ st'.data = st.data.drop n := h

/-- Whatever the writer does, `rec` either succeeds after calls that all succeeded, having read
`bufLen` bytes, or panics with the error of the last call it issued, every earlier call having
succeeded. -/
theorem rec_post {σ : Type} (P : Primitives) (W : WriterAt σ) (B : Nat) (outboard : Bool)
    (hB : 1 ≤ B) (n : Nat) :
    ∀ (flags off : Nat) (st : EncState σ), st.err = none →
      StepPost st n (CustomBaoEncode.rec P W B outboard n flags off st).1
        (CustomBaoEncode.rec P W B outboard n flags off st).2 := by
  induction n using Nat.strong_induction_on with
  | _ n ih =>
    intro flags off st he
    rw [CustomBaoEncode.rec]
    rw [if_neg (by simp [he])]
    by_cases h : n ≤ B
    · rw [if_pos h]
      obtain ⟨hr, -, -⟩ := read_post n st he
      rcases hrd : CustomBaoEncode.read n st with ⟨res, st1⟩
      rw [hrd] at hr
      cases res with
      | error p => exact stepPost_error n hr
      | ok bytes =>
        simp only []
        cases outboard with
        | true =>
          simp only [Bool.not_true, Bool.false_eq_true, if_false]
          obtain ⟨ops, hl, hc, he1, hn1, hd1⟩ := stepPost_ok_pre hr
          exact ⟨ops, hl, hc, he1, hn1, hd1⟩
        | false =>
          simp only [Bool.not_false, if_true]
          obtain ⟨ops, hl, hc, he1, hn1, hd1⟩ := stepPost_ok_pre hr
          have hw := (write_post W bytes off
            { st1 with counter := u64 (st1.counter + 1) } he1).1
          rcases hwr : CustomBaoEncode.write W bytes off
            { st1 with counter := u64 (st1.counter + 1) } with ⟨res2, st3⟩
          rw [hwr] at hw
          have hseq := stepPost_seq st n ⟨ops, hl, hc, he1, hn1, hd1⟩ hw
          cases res2 with
          | error p => exact stepPost_error n hseq
          | ok u => exact stepPost_ok _ hseq (by omega)
    · have h2 : 2 ≤ n := by omega
      have hm1 := splitMid_lt n h2
      have hm0 := splitMid_pos n
      rw [if_neg h, dif_neg (len64_ne_zero (by omega))]
      simp only []
      have h1 := ih (splitMid n) hm1 0 (u64 (off + 64)) st he
      rcases hr1 : CustomBaoEncode.rec P W B outboard (splitMid n) 0 (u64 (off + 64)) st
        with ⟨res1, st1⟩
      rw [hr1] at h1
      cases res1 with
      | error p => exact stepPost_error n h1
      | ok v1 =>
        obtain ⟨lch, l⟩ := v1
        simp only []
        obtain ⟨ops1, hl1, hc1, he1, hn1, hd1⟩ := stepPost_ok_pre h1
        generalize (if (!outboard) = true then
            u64 (u64 (lch * 32) + u64 (splitMid n / B * B)) else u64 (lch * 32)) = llen
        have h2' := ih (n - splitMid n) (by omega) 0 (u64 (off + 64 + llen)) st1 he1
        rcases hr2 : CustomBaoEncode.rec P W B outboard (n - splitMid n) 0
          (u64 (off + 64 + llen)) st1 with ⟨res2, st2⟩
        rw [hr2] at h2'
        have hs2 := stepPost_seq st (splitMid n) ⟨ops1, hl1, hc1, he1, hn1, hd1⟩ h2'
        cases res2 with
        | error p => exact stepPost_error n hs2
        | ok v2 =>
          obtain ⟨rch, r⟩ := v2
          simp only []
          obtain ⟨ops2, hl2, hc2, he2, hn2, hd2⟩ := stepPost_ok_pre hs2
          have hw3 := (write_post W (cvToBytes l) off st2 he2).1
          rcases hwr3 : CustomBaoEncode.write W (cvToBytes l) off st2 with ⟨res3, st3⟩
          rw [hwr3] at hw3
          have hs3 := stepPost_seq st _ ⟨ops2, hl2, hc2, he2, hn2, hd2⟩ hw3
          cases res3 with
          | error p => exact stepPost_error n hs3
          | ok u3 =>
            simp only []
            obtain ⟨ops3, hl3, hc3, he3, hn3, hd3⟩ := stepPost_ok_pre hs3
            have hw4 := (write_post W (cvToBytes r) (u64 (off + 32)) st3 he3).1
            rcases hwr4 : CustomBaoEncode.write W (cvToBytes r) (u64 (off + 32)) st3
              with ⟨res4, st4⟩
            rw [hwr4] at hw4
            have hs4 := stepPost_seq st _ ⟨ops3, hl3, hc3, he3, hn3, hd3⟩ hw4
            cases res4 with
            | error p => exact stepPost_error n hs4
            | ok u4 => exact stepPost_ok _ hs4 (by omega)

/-- Post-condition of `CustomBaoEncode` for a block size of at least 8 bytes, below `2 ^ 63`,
and any writer. -/
theorem encode_post {σ : Type} (P : Primitives) (W : WriterAt σ) (dst : σ) (data : List Byte)
    (dataLen B : Nat) (outboard isRoot : Bool) (pieceSize pieceIndex : Nat) (hB : 8 ≤ B)
    (hB63 : B < 2 ^ 63) :
    (∃ root, (CustomBaoEncode P W dst data dataLen B outboard isRoot pieceSize pieceIndex).1
        = .ok (root, none)
      ∧ AllSucceeded
          (CustomBaoEncode P W dst data dataLen B outboard isRoot pieceSize pieceIndex).2.log
      ∧ u64 dataLen ≤ data.length)
    ∨ (∃ e, (CustomBaoEncode P W dst data dataLen B outboard isRoot pieceSize pieceIndex).1
        = .error (.io e)
      ∧ FailsLastWith
          (CustomBaoEncode P W dst data dataLen B outboard isRoot pieceSize pieceIndex).2.log e) := by
  unfold CustomBaoEncode
  rw [if_neg (by omega)]
  simp only []
  rw [if_neg (by omega), if_neg (by omega)]
  have hw := (write_post W (putUint64 dataLen) 0
    { data := data, dst := dst, counter := u64 (pieceSize / B * pieceIndex), err := none,
      log := [] } rfl).1
  rcases hwr : CustomBaoEncode.write W (putUint64 dataLen) 0
    { data := data, dst := dst, counter := u64 (pieceSize / B * pieceIndex), err := none,
      log := [] } with ⟨res1, st1⟩
  rw [hwr] at hw
  cases res1 with
  | error p =>
    obtain ⟨ops, hl, e, hp, hf⟩ := hw
    simp only [List.nil_append] at hl
    simp only []
    rw [hl, hp]
    exact Or.inr ⟨e, rfl, hf⟩
  | ok u =>
    obtain ⟨ops1, hl1, hc1, he1, hn1, hd1⟩ := stepPost_ok_pre hw
    have hr := rec_post P W B outboard (by omega) (u64 dataLen)
      (if isRoot = true then P.flagRoot else 0) 8 st1 he1
    have hs := stepPost_seq _ 0 ⟨ops1, hl1, hc1, he1, hn1, hd1⟩ hr
    simp only []
    rcases hrr : CustomBaoEncode.rec P W B outboard (u64 dataLen)
      (if isRoot = true then P.flagRoot else 0) 8 st1 with ⟨res2, st2⟩
    rw [hrr] at hs
    cases res2 with
    | error p =>
      obtain ⟨ops, hl, e, hp, hf⟩ := hs
      simp only [List.nil_append] at hl
      simp only []
      rw [hl, hp]
      exact Or.inr ⟨e, rfl, hf⟩
    | ok v =>
      obtain ⟨ops, hl, hc, he, hn, hd⟩ := stepPost_ok_pre hs
      simp only [List.nil_append] at hl
      simp only [] at hn
      simp only []
      rw [hl, he]
      exact Or.inl ⟨_, rfl, hc, by omega⟩

theorem runOps_read {σ : Type} (W : WriterAt σ) (d : σ) (n : Nat) (e0 : Option IOError)
    (rest : List IOOp) :
    runOps W d (IOOp.read n e0 :: rest)
      = ((runOps W d rest).1, IOOp.read n none :: (runOps W d rest).2.1,
          (runOps W d rest).2.2) := by
  rw [runOps]

theorem runOps_write_ok {σ : Type} (W : WriterAt σ) (d d1 : σ) (p : List Byte) (off : Int)
    (e0 : Option IOError) (rest : List IOOp) (hw : W.writeAt d p off = .ok d1) :
    runOps W d (IOOp.write p off e0 :: rest)
      = ((runOps W d1 rest).1, IOOp.write p off none :: (runOps W d1 rest).2.1,
          (runOps W d1 rest).2.2) := by
  rw [runOps, hw]

theorem runOps_write_fail {σ : Type} (W : WriterAt σ) (d : σ) (p : List Byte) (off : Int)
    (e0 : Option IOError) (rest : List IOOp) (e : IOError) (hw : W.writeAt d p off = .error e) :
    runOps W d (IOOp.write p off e0 :: rest) = (d, [IOOp.write p off (some e)], some e) := by
  rw [runOps, hw]

/-- Calls made after a list of calls that all succeeded. -/
theorem runOps_append_ok {σ : Type} (W : WriterAt σ) (a b : List IOOp) :
    ∀ (d d1 : σ) (la : List IOOp), runOps W d a = (d1, la, none) →
      runOps W d (a ++ b)
        = ((runOps W d1 b).1, la ++ (runOps W d1 b).2.1, (runOps W d1 b).2.2) := by
  induction a with
  | nil =>
    intro d d1 la h
    rw [runOps] at h
    simp only [Prod.mk.injEq, and_true] at h
    obtain ⟨rfl, rfl⟩ := h
    rfl
  | cons op t ih =>
    intro d d1 la h
    rw [List.cons_append]
    cases op with
    | read n e0 =>
      rw [runOps_read] at h ⊢
      simp only [Prod.mk.injEq] at h
      obtain ⟨h1, h2, h3⟩ := h
      have ht : runOps W d t = (d1, (runOps W d t).2.1, none) := by
        rw [← h1, ← h3]
      rw [ih d d1 _ ht, ← h2]
      rfl
    | write p off e0 =>
      cases hw : W.writeAt d p off with
      | error e =>
        rw [runOps_write_fail W d p off e0 t e hw] at h
        simp at h
      | ok d0 =>
        rw [runOps_write_ok W d d0 p off e0 t hw] at h
        rw [runOps_write_ok W d d0 p off e0 (t ++ b) hw]
        simp only [Prod.mk.injEq] at h
        obtain ⟨h1, h2, h3⟩ := h
        have ht : runOps W d0 t = (d1, (runOps W d0 t).2.1, none) := by
          rw [← h1, ← h3]
        rw [ih d0 d1 _ ht, ← h2]
        rfl

/-- Nothing is called after a refused write. -/
theorem runOps_append_fail {σ : Type} (W : WriterAt σ) (a b : List IOOp) :
    ∀ (d d1 : σ) (la : List IOOp) (e : IOError), runOps W d a = (d1, la, some e) →
      runOps W d (a ++ b) = (d1, la, some e) := by
  induction a with
  | nil =>
    intro d d1 la e h
    rw [runOps] at h
    simp at h
  | cons op t ih =>
    intro d d1 la e h
    rw [List.cons_append]
    cases op with
    | read n e0 =>
      rw [runOps_read] at h ⊢
      simp only [Prod.mk.injEq] at h
      obtain ⟨h1, h2, h3⟩ := h
      have ht : runOps W d t = (d1, (runOps W d t).2.1, some e) := by
        rw [← h1, ← h3]
      rw [ih d d1 _ e ht, ← h2]
    | write p off e0 =>
      cases hw : W.writeAt d p off with
      | error e1 =>
        rw [runOps_write_fail W d p off e0 t e1 hw] at h
        rw [runOps_write_fail W d p off e0 (t ++ b) e1 hw]
        exact h
      | ok d0 =>
        rw [runOps_write_ok W d d0 p off e0 t hw] at h
        rw [runOps_write_ok W d d0 p off e0 (t ++ b) hw]
        simp only [Prod.mk.injEq] at h
        obtain ⟨h1, h2, h3⟩ := h
        have ht : runOps W d0 t = (d1, (runOps W d0 t).2.1, some e) := by
          rw [← h1, ← h3]
        rw [ih d0 d1 _ e ht, ← h2]

theorem write_ok {σ : Type} (W : WriterAt σ) (p : List Byte) (off : Nat) (st : EncState σ)
    (d : σ) (he : st.err = none) (ho : off < 2 ^ 63)
    (hw : W.writeAt st.dst p (off : Int) = .ok d) :
    CustomBaoEncode.write W p off st =
      (.ok (), { st with dst := d, log := st.log ++ [IOOp.write p (off : Int) none] }) := by
  unfold CustomBaoEncode.write
  rw [he, toInt64_of_lt ho, hw]

theorem write_fail {σ : Type} (W : WriterAt σ) (p : List Byte) (off : Nat) (st : EncState σ)
    (e : IOError) (he : st.err = none) (ho : off < 2 ^ 63)
    (hw : W.writeAt st.dst p (off : Int) = .error e) :
    CustomBaoEncode.write W p off st =
      (.error (.io e),
        { st with err := some e, log := st.log ++ [IOOp.write p (off : Int) (some e)] }) := by
  unfold CustomBaoEncode.write
  rw [he, toInt64_of_lt ho, hw]

/-- `rec` on any writer, with `n` bytes available in the reader: the calls `rec` makes are the
calls `treeOps` made in order up to the first write the writer refuses. If none is refused `rec`
returns the chaining value of the range; otherwise it panics with the error of the refused
write. -/
theorem rec_writer {σ : Type} (P : Primitives) (W : WriterAt σ) (B : Nat) (outboard : Bool)
    (hB : 1 ≤ B) (n : Nat) :
    ∀ (flags off : Nat) (st : EncState σ), st.err = none → n ≤ st.data.length →
      off + 65 * n < 2 ^ 63 →
      ((runOps W st.dst (treeOps P B outboard (st.data.take n) st.counter flags off)).2.2 = none →
        CustomBaoEncode.rec P W B outboard n flags off st =
          (.ok (treeChildren B n, treeCV P B (st.data.take n) st.counter flags),
            { data := st.data.drop n,
              dst := (runOps W st.dst
                (treeOps P B outboard (st.data.take n) st.counter flags off)).1,
              counter := u64 (st.counter + treeGroups B n),
              err := none,
              log := st.log ++ (runOps W st.dst
                (treeOps P B outboard (st.data.take n) st.counter flags off)).2.1 })) ∧
      (∀ e, (runOps W st.dst
            (treeOps P B outboard (st.data.take n) st.counter flags off)).2.2 = some e →
        (CustomBaoEncode.rec P W B outboard n flags off st).1 = .error (.io e) ∧
        (CustomBaoEncode.rec P W B outboard n flags off st).2.dst
          = (runOps W st.dst (treeOps P B outboard (st.data.take n) st.counter flags off)).1 ∧
        (CustomBaoEncode.rec P W B outboard n flags off st).2.log
          = st.log ++ (runOps W st.dst
              (treeOps P B outboard (st.data.take n) st.counter flags off)).2.1 ∧
        (CustomBaoEncode.rec P W B outboard n flags off st).2.err = some e) := by
  induction n using Nat.strong_induction_on with
  | _ n ih =>
    intro flags off st he hn hoff
    obtain ⟨data, dst, counter, err, log⟩ := st
    simp only at he hn ⊢
    subst he
    have hlen : (data.take n).length = n := by
      rw [List.length_take]; omega
    generalize hr : CustomBaoEncode.rec P W B outboard n flags off
      { data := data, dst := dst, counter := counter, err := none, log := log } = r
    rcases Nat.lt_or_ge B n with h | h
    · -- inner node
      have h2 : 2 ≤ n := by omega
      have hm1 := splitMid_lt n h2
      have hm0 := splitMid_pos n
      have hle := leftExtent_le B hB outboard (splitMid n) hm0
      have hch := treeChildren_le B hB (splitMid n) hm0
      have hch2 := treeChildren_le B hB (n - splitMid n) (by omega)
      have hdm : splitMid n / B * B ≤ splitMid n := Nat.div_mul_le_self _ _
      have e1 : (data.take n).take (splitMid n) = data.take (splitMid n) := by
        rw [List.take_take, min_eq_left (by omega)]
      have e2 : (data.take n).drop (splitMid n)
          = (data.drop (splitMid n)).take (n - splitMid n) := by
        rw [List.drop_take]
      have e3 : (data.drop (splitMid n)).drop (n - splitMid n) = data.drop n := by
        rw [List.drop_drop]; congr 1; omega
      rw [@treeCV_node P B (data.take n) counter flags hB (by omega),
        @treeOps_node P B outboard (data.take n) counter flags off hB (by omega),
        treeChildren_node hB h, treeGroups_node hB h, hlen, e1, e2]
      rw [CustomBaoEncode.rec] at hr
      rw [if_neg (by simp), if_neg (by omega), dif_neg (len64_ne_zero (by omega))] at hr
      simp only [] at hr
      rw [u64_of_lt (by omega : off + 64 < 2 ^ 64)] at hr
      have ihL := ih (splitMid n) hm1 0 (off + 64)
        { data := data, dst := dst, counter := counter, err := none, log := log } rfl
        (by simp only []; omega) (by omega)
      simp only [] at ihL
      rcases htL : runOps W dst (treeOps P B outboard (data.take (splitMid n)) counter 0
        (off + 64)) with ⟨dL, lL, eL⟩
      rw [htL] at ihL
      simp only [] at ihL
      cases eL with
      | some e =>
        have ht := runOps_append_fail W _
          [IOOp.write (cvToBytes (treeCV P B (data.take (splitMid n)) counter 0)) (off : Int) none,
            IOOp.write (cvToBytes (treeCV P B ((data.drop (splitMid n)).take (n - splitMid n))
              (u64 (counter + treeGroups B (splitMid n))) 0)) ((off + 32 : Nat) : Int) none]
          dst dL lL e
          (runOps_append_fail W _
            (treeOps P B outboard ((data.drop (splitMid n)).take (n - splitMid n))
              (u64 (counter + treeGroups B (splitMid n))) 0
              (off + 64 + leftExtent B outboard (splitMid n))) dst dL lL e htL)
        rw [ht]
        simp only []
        obtain ⟨i1, i2, i3, i4⟩ := ihL.2 e rfl
        rcases hL : CustomBaoEncode.rec P W B outboard (splitMid n) 0 (off + 64)
          { data := data, dst := dst, counter := counter, err := none, log := log }
          with ⟨resL, stL⟩
        rw [hL] at i1 i2 i3 i4 hr
        simp only [] at i1 i2 i3 i4
        subst i1
        simp only [] at hr
        subst hr
        refine ⟨fun hc => absurd hc (by simp), ?_⟩
        intro e' he'
        simp only [Option.some.injEq] at he'
        subst he'
        exact ⟨rfl, i2, i3, i4⟩
      | none =>
        have hL := ihL.1 rfl
        rw [hL] at hr
        simp only [] at hr
        have ell : (if (!outboard) = true then
              u64 (u64 (treeChildren B (splitMid n) * 32) + u64 (splitMid n / B * B))
            else u64 (treeChildren B (splitMid n) * 32))
              = leftExtent B outboard (splitMid n) := by
          unfold leftExtent
          cases outboard
          · simp only [Bool.not_false, if_true, Bool.false_eq_true, if_false]
            rw [u64_of_lt (by omega : treeChildren B (splitMid n) * 32 < 2 ^ 64),
              u64_of_lt (by omega : splitMid n / B * B < 2 ^ 64), u64_of_lt (by omega)]
          · simp only [Bool.not_true, Bool.false_eq_true, if_false, if_true]
            rw [u64_of_lt (by omega : treeChildren B (splitMid n) * 32 < 2 ^ 64)]
            omega
        rw [ell] at hr
        rw [u64_of_lt (by omega : off + 64 + leftExtent B outboard (splitMid n) < 2 ^ 64)] at hr
        have ihR := ih (n - splitMid n) (by omega) 0
          (off + 64 + leftExtent B outboard (splitMid n))
          { data := data.drop (splitMid n), dst := dL,
            counter := u64 (counter + treeGroups B (splitMid n)), err := none,
            log := log ++ lL } rfl
          (by simp only [List.length_drop]; omega) (by omega)
        simp only [] at ihR
        rcases htR : runOps W dL (treeOps P B outboard
          ((data.drop (splitMid n)).take (n - splitMid n))
          (u64 (counter + treeGroups B (splitMid n))) 0
          (off + 64 + leftExtent B outboard (splitMid n))) with ⟨dR, lR, eR⟩
        rw [htR] at ihR
        simp only [] at ihR
        have htLR := runOps_append_ok W _
          (treeOps P B outboard ((data.drop (splitMid n)).take (n - splitMid n))
            (u64 (counter + treeGroups B (splitMid n))) 0
            (off + 64 + leftExtent B outboard (splitMid n))) dst dL lL htL
        rw [htR] at htLR
        simp only [] at htLR
        cases eR with
        | some e =>
          have ht := runOps_append_fail W _
            [IOOp.write (cvToBytes (treeCV P B (data.take (splitMid n)) counter 0)) (off : Int)
                none,
              IOOp.write (cvToBytes (treeCV P B ((data.drop (splitMid n)).take (n - splitMid n))
                (u64 (counter + treeGroups B (splitMid n))) 0)) ((off + 32 : Nat) : Int) none]
            dst dR (lL ++ lR) e htLR
          rw [ht]
          simp only []
          obtain ⟨i1, i2, i3, i4⟩ := ihR.2 e rfl
          rcases hR : CustomBaoEncode.rec P W B outboard (n - splitMid n) 0
            (off + 64 + leftExtent B outboard (splitMid n))
            { data := data.drop (splitMid n), dst := dL,
              counter := u64 (counter + treeGroups B (splitMid n)), err := none,
              log := log ++ lL } with ⟨resR, stR⟩
          rw [hR] at i1 i2 i3 i4 hr
          simp only [] at i1 i2 i3 i4
          subst i1
          simp only [] at hr
          subst hr
          refine ⟨fun hc => absurd hc (by simp), ?_⟩
          intro e' he'
          simp only [Option.some.injEq] at he'
          subst he'
          exact ⟨rfl, i2, by rw [i3, List.append_assoc], i4⟩
        | none =>
          have hR := ihR.1 rfl
          rw [hR] at hr
          simp only [] at hr
          have htAll := runOps_append_ok W _
            [IOOp.write (cvToBytes (treeCV P B (data.take (splitMid n)) counter 0)) (off : Int)
                none,
              IOOp.write (cvToBytes (treeCV P B ((data.drop (splitMid n)).take (n - splitMid n))
                (u64 (counter + treeGroups B (splitMid n))) 0)) ((off + 32 : Nat) : Int) none]
            dst dR (lL ++ lR) htLR
          rw [htAll]
          cases hw1 : W.writeAt dR (cvToBytes (treeCV P B (data.take (splitMid n)) counter 0))
              (off : Int) with
          | error e =>
            rw [runOps_write_fail W dR _ _ _ _ e hw1]
            rw [write_fail W _ off _ e rfl (by omega) hw1] at hr
            simp only [] at hr
            subst hr
            refine ⟨fun hc => absurd hc (by simp), ?_⟩
            intro e' he'
            simp only [Option.some.injEq] at he'
            subst he'
            exact ⟨rfl, rfl, by simp only [List.append_assoc], rfl⟩
          | ok d3 =>
            rw [runOps_write_ok W dR d3 _ _ _ _ hw1]
            rw [write_ok W _ off _ d3 rfl (by omega) hw1] at hr
            simp only [] at hr
            rw [u64_of_lt (by omega : off + 32 < 2 ^ 64)] at hr
            cases hw2 : W.writeAt d3
                (cvToBytes (treeCV P B ((data.drop (splitMid n)).take (n - splitMid n))
                  (u64 (counter + treeGroups B (splitMid n))) 0)) ((off + 32 : Nat) : Int) with
            | error e =>
              rw [runOps_write_fail W d3 _ _ _ _ e hw2]
              rw [write_fail W _ (off + 32) _ e rfl (by omega) hw2] at hr
              simp only [] at hr
              subst hr
              refine ⟨fun hc => absurd hc (by simp), ?_⟩
              intro e' he'
              simp only [Option.some.injEq] at he'
              subst he'
              exact ⟨rfl, rfl, by simp only [List.append_assoc, List.cons_append,
                List.nil_append], rfl⟩
            | ok d4 =>
              rw [runOps_write_ok W d3 d4 _ _ _ _ hw2]
              rw [write_ok W _ (off + 32) _ d4 rfl (by omega) hw2] at hr
              simp only [] at hr
              have ec : u64 (u64 (counter + treeGroups B (splitMid n))
                    + treeGroups B (n - splitMid n))
                  = u64 (counter + (treeGroups B (splitMid n)
                      + treeGroups B (n - splitMid n))) := by
                unfold u64
                omega
              rw [ec, e3, u64_of_lt (by omega :
                2 + treeChildren B (splitMid n) + treeChildren B (n - splitMid n) < 2 ^ 64)] at hr
              subst hr
              refine ⟨fun _ => ?_, ?_⟩
              · simp only [runOps, List.append_assoc, List.cons_append, List.nil_append,
                  List.append_nil]
              · intro e' he'
                simp [runOps] at he'
    · -- leaf group
      rw [CustomBaoEncode.rec] at hr
      rw [if_neg (by simp), if_pos h, read_ok n _ rfl hn] at hr
      simp only [] at hr
      rw [treeCV_leaf P _ _ (by omega), treeOps_leaf P _ _ _ _ (by omega), treeGroups_leaf h,
        treeChildren_leaf h, hlen]
      cases outboard
      · simp only [Bool.not_false, if_true, Bool.false_eq_true, if_false] at hr ⊢
        rw [runOps_read]
        cases hw : W.writeAt dst (data.take n) (off : Int) with
        | error e =>
          rw [runOps_write_fail W dst _ _ _ _ e hw]
          rw [write_fail W _ off _ e rfl (by omega) hw] at hr
          simp only [] at hr
          subst hr
          refine ⟨fun hc => absurd hc (by simp), ?_⟩
          intro e' he'
          simp only [Option.some.injEq] at he'
          subst he'
          exact ⟨rfl, rfl, by simp, rfl⟩
        | ok d1 =>
          rw [runOps_write_ok W dst d1 _ _ _ _ hw]
          rw [write_ok W _ off _ d1 rfl (by omega) hw] at hr
          simp only [] at hr
          subst hr
          refine ⟨fun _ => ?_, ?_⟩
          · simp [runOps]
          · intro e' he'
            simp [runOps] at he'
      · simp only [Bool.not_true, Bool.false_eq_true, if_false, if_true] at hr ⊢
        subst hr
        refine ⟨fun _ => ?_, ?_⟩
        · simp [runOps]
        · intro e' he'
          simp [runOps] at he'

/-- `CustomBaoEncode` on any writer, with `dataLen` bytes available in the reader: the calls made
are the header write followed by the calls `treeOps`, in order, up to the first write the writer
refuses. -/
theorem encode_writer {σ : Type} (P : Primitives) (W : WriterAt σ) (B : Nat)
    (outboard isRoot : Bool) (hB : 8 ≤ B) (hB63 : B < 2 ^ 63) (dst : σ) (data : List Byte)
    (dataLen pieceSize pieceIndex : Nat) (hn : dataLen ≤ data.length)
    (hbound : 8 + 65 * dataLen < 2 ^ 63) :
    ((runOps W dst (IOOp.write (putUint64 dataLen) 0 none ::
        treeOps P B outboard (data.take dataLen) (u64 (pieceSize / B * pieceIndex))
          (if isRoot then P.flagRoot else 0) 8)).2.2 = none →
      CustomBaoEncode P W dst data dataLen B outboard isRoot pieceSize pieceIndex =
        (.ok (cvToBytes (treeCV P B (data.take dataLen) (u64 (pieceSize / B * pieceIndex))
                (if isRoot then P.flagRoot else 0)), none),
          { data := data.drop dataLen,
            dst := (runOps W dst (IOOp.write (putUint64 dataLen) 0 none ::
              treeOps P B outboard (data.take dataLen) (u64 (pieceSize / B * pieceIndex))
                (if isRoot then P.flagRoot else 0) 8)).1,
            counter := u64 (u64 (pieceSize / B * pieceIndex) + treeGroups B dataLen),
            err := none,
            log := (runOps W dst (IOOp.write (putUint64 dataLen) 0 none ::
              treeOps P B outboard (data.take dataLen) (u64 (pieceSize / B * pieceIndex))
                (if isRoot then P.flagRoot else 0) 8)).2.1 })) ∧
    (∀ e, (runOps W dst (IOOp.write (putUint64 dataLen) 0 none ::
        treeOps P B outboard (data.take dataLen) (u64 (pieceSize / B * pieceIndex))
          (if isRoot then P.flagRoot else 0) 8)).2.2 = some e →
      (CustomBaoEncode P W dst data dataLen B outboard isRoot pieceSize pieceIndex).1
        = .error (.io e) ∧
      (CustomBaoEncode P W dst data dataLen B outboard isRoot pieceSize pieceIndex).2.dst
        = (runOps W dst (IOOp.write (putUint64 dataLen) 0 none ::
            treeOps P B outboard (data.take dataLen) (u64 (pieceSize / B * pieceIndex))
              (if isRoot then P.flagRoot else 0) 8)).1 ∧
      (CustomBaoEncode P W dst data dataLen B outboard isRoot pieceSize pieceIndex).2.log
        = (runOps W dst (IOOp.write (putUint64 dataLen) 0 none ::
            treeOps P B outboard (data.take dataLen) (u64 (pieceSize / B * pieceIndex))
              (if isRoot then P.flagRoot else 0) 8)).2.1) := by
  generalize hr : CustomBaoEncode P W dst data dataLen B outboard isRoot pieceSize pieceIndex = r
  unfold CustomBaoEncode at hr
  rw [if_neg (by omega)] at hr
  simp only [] at hr
  rw [if_neg (by omega), if_neg (by omega)] at hr
  cases hw : W.writeAt dst (putUint64 dataLen) ((0 : Nat) : Int) with
  | error e =>
    rw [runOps_write_fail W dst _ 0 _ _ e hw]
    rw [write_fail W _ 0 _ e rfl (by norm_num) hw] at hr
    simp only [] at hr
    subst hr
    refine ⟨fun hc => absurd hc (by simp), ?_⟩
    intro e' he'
    simp only [Option.some.injEq] at he'
    subst he'
    exact ⟨rfl, rfl, rfl⟩
  | ok d1 =>
    rw [runOps_write_ok W dst d1 _ 0 _ _ hw]
    rw [write_ok W _ 0 _ d1 rfl (by norm_num) hw] at hr
    simp only [] at hr
    rw [u64_of_lt (by omega : dataLen < 2 ^ 64)] at hr
    have hrec := rec_writer P W B outboard (by omega) dataLen
      (if isRoot then P.flagRoot else 0) 8
      { data := data, dst := d1, counter := u64 (pieceSize / B * pieceIndex), err := none,
        log := [] ++ [IOOp.write (putUint64 dataLen) ((0 : Nat) : Int) none] } rfl hn hbound
    simp only [] at hrec
    rcases ht : runOps W d1 (treeOps P B outboard (data.take dataLen)
      (u64 (pieceSize / B * pieceIndex)) (if isRoot then P.flagRoot else 0) 8)
      with ⟨d2, l2, e2⟩
    rw [ht] at hrec
    simp only [] at hrec ⊢
    cases e2 with
    | none =>
      rw [hrec.1 rfl] at hr
      simp only [] at hr
      subst hr
      refine ⟨fun _ => rfl, ?_⟩
      intro e' he'
      simp at he'
    | some e =>
      obtain ⟨i1, i2, i3, i4⟩ := hrec.2 e rfl
      rcases hR : CustomBaoEncode.rec P W B outboard dataLen (if isRoot then P.flagRoot else 0) 8
        { data := data, dst := d1, counter := u64 (pieceSize / B * pieceIndex), err := none,
          log := [] ++ [IOOp.write (putUint64 dataLen) ((0 : Nat) : Int) none] }
        with ⟨resR, stR⟩
      rw [hR] at i1 i2 i3 i4 hr
      simp only [] at i1 i2 i3 i4
      subst i1
      simp only [] at hr
      subst hr
      refine ⟨fun hc => absurd hc (by simp), ?_⟩
      intro e' he'
      simp only [Option.some.injEq] at he'
      subst he'
      exact ⟨rfl, i2, i3⟩

/-- C10. For a block size of at least 8 bytes below `2 ^ 63`, whatever the writer:
(1) every call to the reader or the writer that precedes the last call made succeeded, so
nothing is read or written after a failed call; (2) if a call failed with an error `e`,
`CustomBaoEncode` does not return a root hash: it fails with `e`, handed to the caller by
`panic(err)`; (3) if the reader holds fewer than `dataLen` bytes, a call fails and the function
fails with its I/O error; (4) if the writer refuses the header write with `e`, the function
fails with `e` and has made no other call; (5) with `dataLen` bytes in the reader, if the writer
refuses one of the writes of the encoding (the header, a leaf group, a parent node) when they are
made in order, the function fails with the error of the first refused write, and the calls made
are exactly those up to and including it; (6) and if the writer refuses none, the function
returns the root with a nil error after making all of them. -/
theorem io_failure_reported {σ : Type} (P : Primitives) (W : WriterAt σ) (dst : σ)
    (data : List Byte) (dataLen B : Nat) (outboard isRoot : Bool) (pieceSize pieceIndex : Nat)
    (hB : 8 ≤ B) (hB63 : B < 2 ^ 63) (hlen : dataLen < 2 ^ 64) :
    (∀ op ∈ (CustomBaoEncode P W dst data dataLen B outboard isRoot pieceSize
        pieceIndex).2.log.dropLast, op.outcome = none)
    ∧ (∀ e, (∃ op ∈ (CustomBaoEncode P W dst data dataLen B outboard isRoot pieceSize
          pieceIndex).2.log, op.outcome = some e) →
        (CustomBaoEncode P W dst data dataLen B outboard isRoot pieceSize pieceIndex).1
          = .error (.io e))
    ∧ (data.length < dataLen →
        ∃ e, (CustomBaoEncode P W dst data dataLen B outboard isRoot pieceSize pieceIndex).1
            = .error (.io e)
          ∧ ∃ op ∈ (CustomBaoEncode P W dst data dataLen B outboard isRoot pieceSize
              pieceIndex).2.log, op.outcome = some e)
    ∧ (∀ e, W.writeAt dst (putUint64 dataLen) 0 = .error e →
        (CustomBaoEncode P W dst data dataLen B outboard isRoot pieceSize pieceIndex).1
          = .error (.io e)
        ∧ (CustomBaoEncode P W dst data dataLen B outboard isRoot pieceSize pieceIndex).2.log
          = [IOOp.write (putUint64 dataLen) 0 (some e)])
    ∧ (dataLen ≤ data.length → 8 + 65 * dataLen < 2 ^ 63 →
        ∀ e, (runOps W dst (IOOp.write (putUint64 dataLen) 0 none ::
            treeOps P B outboard (data.take dataLen) (u64 (pieceSize / B * pieceIndex))
              (if isRoot then P.flagRoot else 0) 8)).2.2 = some e →
          (CustomBaoEncode P W dst data dataLen B outboard isRoot pieceSize pieceIndex).1
            = .error (.io e)
          ∧ (CustomBaoEncode P W dst data dataLen B outboard isRoot pieceSize pieceIndex).2.dst
            = (runOps W dst (IOOp.write (putUint64 dataLen) 0 none ::
                treeOps P B outboard (data.take dataLen) (u64 (pieceSize / B * pieceIndex))
                  (if isRoot then P.flagRoot else 0) 8)).1
          ∧ (CustomBaoEncode P W dst data dataLen B outboard isRoot pieceSize pieceIndex).2.log
            = (runOps W dst (IOOp.write (putUint64 dataLen) 0 none ::
                treeOps P B outboard (data.take dataLen) (u64 (pieceSize / B * pieceIndex))
                  (if isRoot then P.flagRoot else 0) 8)).2.1)
    ∧ (dataLen ≤ data.length → 8 + 65 * dataLen < 2 ^ 63 →
        (runOps W dst (IOOp.write (putUint64 dataLen) 0 none ::
            treeOps P B outboard (data.take dataLen) (u64 (pieceSize / B * pieceIndex))
              (if isRoot then P.flagRoot else 0) 8)).2.2 = none →
          (CustomBaoEncode P W dst data dataLen B outboard isRoot pieceSize pieceIndex).1
            = .ok (cvToBytes (treeCV P B (data.take dataLen) (u64 (pieceSize / B * pieceIndex))
                (if isRoot then P.flagRoot else 0)), none)
          ∧ (CustomBaoEncode P W dst data dataLen B outboard isRoot pieceSize pieceIndex).2.log
            = (runOps W dst (IOOp.write (putUint64 dataLen) 0 none ::
                treeOps P B outboard (data.take dataLen) (u64 (pieceSize / B * pieceIndex))
                  (if isRoot then P.flagRoot else 0) 8)).2.1) := by
  have hhead : ∀ e, W.writeAt dst (putUint64 dataLen) 0 = .error e →
      (CustomBaoEncode P W dst data dataLen B outboard isRoot pieceSize pieceIndex).1
        = .error (.io e)
      ∧ (CustomBaoEncode P W dst data dataLen B outboard isRoot pieceSize pieceIndex).2.log
        = [IOOp.write (putUint64 dataLen) 0 (some e)] := by
    intro e hw
    unfold CustomBaoEncode
    rw [if_neg (by omega)]
    simp only []
    rw [if_neg (by omega), if_neg (by omega), write_fail W _ 0 _ e rfl (by norm_num) hw]
    exact ⟨rfl, rfl⟩
  have hfail : dataLen ≤ data.length → 8 + 65 * dataLen < 2 ^ 63 →
      ∀ e, (runOps W dst (IOOp.write (putUint64 dataLen) 0 none ::
          treeOps P B outboard (data.take dataLen) (u64 (pieceSize / B * pieceIndex))
            (if isRoot then P.flagRoot else 0) 8)).2.2 = some e →
        (CustomBaoEncode P W dst data dataLen B outboard isRoot pieceSize pieceIndex).1
          = .error (.io e)
        ∧ (CustomBaoEncode P W dst data dataLen B outboard isRoot pieceSize pieceIndex).2.dst
          = (runOps W dst (IOOp.write (putUint64 dataLen) 0 none ::
              treeOps P B outboard (data.take dataLen) (u64 (pieceSize / B * pieceIndex))
                (if isRoot then P.flagRoot else 0) 8)).1
        ∧ (CustomBaoEncode P W dst data dataLen B outboard isRoot pieceSize pieceIndex).2.log
          = (runOps W dst (IOOp.write (putUint64 dataLen) 0 none ::
              treeOps P B outboard (data.take dataLen) (u64 (pieceSize / B * pieceIndex))
                (if isRoot then P.flagRoot else 0) 8)).2.1 :=
    fun hn hbound e he =>
      (encode_writer P W B outboard isRoot hB hB63 dst data dataLen pieceSize pieceIndex hn
        hbound).2 e he
  have hok : dataLen ≤ data.length → 8 + 65 * dataLen < 2 ^ 63 →
      (runOps W dst (IOOp.write (putUint64 dataLen) 0 none ::
          treeOps P B outboard (data.take dataLen) (u64 (pieceSize / B * pieceIndex))
            (if isRoot then P.flagRoot else 0) 8)).2.2 = none →
        (CustomBaoEncode P W dst data dataLen B outboard isRoot pieceSize pieceIndex).1
          = .ok (cvToBytes (treeCV P B (data.take dataLen) (u64 (pieceSize / B * pieceIndex))
              (if isRoot then P.flagRoot else 0)), none)
        ∧ (CustomBaoEncode P W dst data dataLen B outboard isRoot pieceSize pieceIndex).2.log
          = (runOps W dst (IOOp.write (putUint64 dataLen) 0 none ::
              treeOps P B outboard (data.take dataLen) (u64 (pieceSize / B * pieceIndex))
                (if isRoot then P.flagRoot else 0) 8)).2.1 := by
    intro hn hbound he
    rw [(encode_writer P W B outboard isRoot hB hB63 dst data dataLen pieceSize pieceIndex hn
      hbound).1 he]
    exact ⟨rfl, rfl⟩
  rcases encode_post P W dst data dataLen B outboard isRoot pieceSize pieceIndex hB hB63 with
    ⟨root, hres, hall, hn⟩ | ⟨e, hres, oks, op, hlog, hoks, hop⟩
  · refine ⟨fun op hop => hall op (List.mem_of_mem_dropLast hop), ?_, ?_, hhead, hfail, hok⟩
    · rintro e ⟨op, hop, he⟩
      rw [hall op hop] at he
      exact absurd he (by simp)
    · intro hshort
      rw [u64_of_lt hlen] at hn
      omega
  · refine ⟨?_, ?_, ?_, hhead, hfail, hok⟩
    · rw [hlog, List.dropLast_concat]
      exact hoks
    · rintro e' ⟨op', hop', he'⟩
      rw [hlog] at hop'
      rcases List.mem_append.1 hop' with h | h
      · rw [hoks op' h] at he'
        exact absurd he' (by simp)
      · rw [List.mem_singleton.1 h, hop] at he'
        rw [hres, Option.some.inj he']
    · intro _
      exact ⟨e, hres, op, by rw [hlog]; simp, hop⟩

theorem io_failure_reported_witness :
    (8 ≤ 1024 ∧ 1024 < 2 ^ 63 ∧ 5 < 2 ^ 64 ∧ 3 < 2 ^ 64) ∧
    (([1, 2, 3] : List Byte).length < 5 →
      ∃ e, (CustomBaoEncode samplePrims memWriter [] [1, 2, 3] 5 1024 true true 0 0).1
          = .error (.io e)
        ∧ ∃ op ∈ (CustomBaoEncode samplePrims memWriter [] [1, 2, 3] 5 1024 true true 0 0).2.log,
            op.outcome = some e) ∧
    ((CustomBaoEncode samplePrims (boundedWriter 8) [] [1, 2, 3] 3 1024 false true 0 0).1
        = .error (.io (.other 28))
      ∧ (CustomBaoEncode samplePrims (boundedWriter 8) [] [1, 2, 3] 3 1024 false true 0 0).2.dst
        = putUint64 3
      ∧ (CustomBaoEncode samplePrims (boundedWriter 8) [] [1, 2, 3] 3 1024 false true 0 0).2.log
        = [IOOp.write (putUint64 3) 0 none, IOOp.read 3 none,
            IOOp.write [1, 2, 3] 8 (some (.other 28))]) := by
  have hrun : runOps (boundedWriter 8) [] (IOOp.write (putUint64 3) 0 none ::
      treeOps samplePrims 1024 false (([1, 2, 3] : List Byte).take 3) (u64 (0 / 1024 * 0))
        (if true = true then samplePrims.flagRoot else 0) 8)
      = (putUint64 3, [IOOp.write (putUint64 3) 0 none, IOOp.read 3 none,
          IOOp.write [1, 2, 3] 8 (some (.other 28))], some (.other 28)) := by
    rw [treeOps_leaf samplePrims false _ _ _ (by simp)]
    decide
  have h := (io_failure_reported samplePrims (boundedWriter 8) [] [1, 2, 3] 3 1024 false true 0 0
    (by decide) (by norm_num) (by norm_num)).2.2.2.2.1 (by simp) (by norm_num) (.other 28)
    (by rw [hrun])
  rw [hrun] at h
  exact ⟨⟨by decide, by norm_num, by norm_num, by norm_num⟩,
    (io_failure_reported samplePrims memWriter [] [1, 2, 3] 5 1024 true true 0 0 (by decide)
      (by norm_num) (by norm_num)).2.2.1, h⟩

/-- A block size of `2 ^ 63` or more: `make([]byte, blockSize)` panics before any call to the
reader or the writer. -/
theorem large_block_fails_before_io {σ : Type} (P : Primitives) (W : WriterAt σ) (dst : σ)
    (data : List Byte) (dataLen B : Nat) (outboard isRoot : Bool) (pieceSize pieceIndex : Nat)
    (hB : 2 ^ 63 ≤ B) :
    (CustomBaoEncode P W dst data dataLen B outboard isRoot pieceSize pieceIndex).1
        = .error Panic.makeSliceLen
    ∧ (CustomBaoEncode P W dst data dataLen B outboard isRoot pieceSize pieceIndex).2.log = []
    ∧ (CustomBaoEncode P W dst data dataLen B outboard isRoot pieceSize pieceIndex).2.dst
        = dst := by
  unfold CustomBaoEncode
  rw [if_neg (by omega)]
  simp only []
  rw [if_pos hB]
  exact ⟨rfl, rfl, rfl⟩

/-- C11, counterexample. Block size 1000 is not a multiple of 1024, yet `CustomBaoEncode` does
not reject the call: it writes the 8-byte header to `dst`, reads the data, compresses it and
returns a root with a nil error. -/
theorem block1000_not_rejected :
    (1000 % 1024 ≠ 0) ∧
    (CustomBaoEncode samplePrims memWriter [] [1, 2, 3] 3 1000 true true 0 0).1
      = .ok (cvToBytes (samplePrims.chainingValue
          (samplePrims.compressChunk [1, 2, 3] samplePrims.iv 0 samplePrims.flagRoot)), none)
    ∧ (CustomBaoEncode samplePrims memWriter [] [1, 2, 3] 3 1000 true true 0 0).2.log
      = [IOOp.write (putUint64 3) 0 none, IOOp.read 3 none]
    ∧ (CustomBaoEncode samplePrims memWriter [] [1, 2, 3] 3 1000 true true 0 0).2.dst
      = putUint64 3 := by
  refine ⟨by decide, ?_⟩
  rw [encode_memWriter samplePrims 1000 true true (by norm_num) (by norm_num) [] [1, 2, 3] 3 0 0
    (by simp)
    (by norm_num)]
  have e : ([1, 2, 3] : List Byte).take 3 = [1, 2, 3] := rfl
  have hu : u64 (0 / 1000 * 0) = 0 := by decide
  simp only [e, hu, if_true]
  rw [treeCV_leaf samplePrims 0 _ (by simp), treeOps_leaf samplePrims true 0 _ 8 (by simp)]
  unfold groupChainingValue
  have hu2 : u64 (0 * (1000 / chunkSize)) = 0 := by decide
  simp only [hu2]
  rw [subtree_leaf samplePrims 0 _ (by simp)]
  refine ⟨rfl, rfl, ?_⟩
  simp only [if_true, replay, List.foldl_cons, List.foldl_nil, applyOp]
  exact memWrite_header _ (putUint64_length 3)

/-- C11, amended. For the block size zero (division by zero in `pieceSize / blockSize`) and for
the block sizes 1 to 7 (the slice `chunkBuf[:8]` is out of range), `CustomBaoEncode` fails with
a run-time panic before any read, any compression and any write: the outcome is the same for
every choice of the compression primitives, `dst` is untouched and no call was issued. -/
theorem small_block_fails_before_io {σ : Type} (P : Primitives) (W : WriterAt σ) (dst : σ)
    (data : List Byte) (dataLen B : Nat) (outboard isRoot : Bool) (pieceSize pieceIndex : Nat)
    (hB : B < 8) :
    (CustomBaoEncode P W dst data dataLen B outboard isRoot pieceSize pieceIndex).1
        = .error (if B = 0 then Panic.divideByZero else Panic.sliceBounds)
    ∧ (CustomBaoEncode P W dst data dataLen B outboard isRoot pieceSize pieceIndex).2.log = []
    ∧ (CustomBaoEncode P W dst data dataLen B outboard isRoot pieceSize pieceIndex).2.dst = dst
    ∧ (CustomBaoEncode P W dst data dataLen B outboard isRoot pieceSize pieceIndex).2.data
        = data := by
  unfold CustomBaoEncode
  by_cases h0 : B = 0
  · simp [h0]
  · rw [if_neg h0]
    simp only []
    rw [if_neg (by omega), if_pos hB, if_neg h0]
    exact ⟨rfl, rfl, rfl, rfl⟩

theorem small_block_fails_before_io_witness :
    (0 < 8) ∧
    (CustomBaoEncode samplePrims memWriter [] [1, 2, 3] 3 0 true true 0 0).1
      = .error (if 0 = 0 then Panic.divideByZero else Panic.sliceBounds) :=
  ⟨by decide,
    (small_block_fails_before_io samplePrims memWriter [] [1, 2, 3] 3 0 true true 0 0
      (by decide)).1⟩

/-- C12. `CustomBaoEncodeSecondLayerHashTree` called with an empty list of piece roots fails: the
empty queue skips the padding and the loop, and reading `hashQueue[0]` panics with an index out
of range; no root hash is returned and, whatever the compression primitives, none is applied. -/
theorem secondLayer_empty_fails (P : Primitives) (mem : Nat → Nat → Byte) :
    CustomBaoEncodeSecondLayerHashTree P mem [] = .error .indexOutOfRange
    ∧ dequeuedPairs P (paddedQueue []) = [] := by
  constructor
  · unfold CustomBaoEncodeSecondLayerHashTree
    simp only [decodeHashes, List.length_nil]
    rw [if_neg (by decide)]
    simp only []
    rw [reduce_done P [] (by simp)]
    rfl
  · exact dequeuedPairs_done P _ (by simp [paddedQueue])

/-- On a slice of 32 bytes `bytesToCV` reads nothing behind the slice. -/
theorem bytesToCV_of_32 (beyond : Nat → Byte) (b : List Byte) (h : b.length = 32) :
    bytesToCV beyond b = some ⟨wordsOfBytes 8 b, wordsOfBytes_length 8 b⟩ := by
  unfold bytesToCV
  rw [if_neg (by omega)]
  have e : b ++ (List.range (32 - b.length)).map beyond = b := by
    rw [h]
    simp
  simp only [e]

theorem decodeHashes_length :
    ∀ (hashes : List String) (mem : Nat → Nat → Byte) (cvs : List CV),
      decodeHashes mem hashes = .ok cvs → cvs.length = hashes.length := by
  intro hashes
  induction hashes with
  | nil =>
    intro mem cvs h
    simp only [decodeHashes, Except.ok.injEq] at h
    subst h
    rfl
  | cons a t ih =>
    intro mem cvs h
    simp only [decodeHashes] at h
    split at h
    · exact absurd h (by simp)
    · split at h
      · exact absurd h (by simp)
      · split at h
        · exact absurd h (by simp)
        · rename_i xs hx
          simp only [Except.ok.injEq] at h
          rw [← h, List.length_cons, ih _ xs hx, List.length_cons]

/-- Strings that decode to 32 bytes are decoded to their chaining values, whatever the memory
behind the decoded slices. -/
theorem decodeHashes_valid :
    ∀ (hashes : List String) (mem : Nat → Nat → Byte),
      (∀ h ∈ hashes, ∃ b, hexDecodeString h = some b ∧ b.length = 32) →
      decodeHashes mem hashes = .ok (hashes.map rootOfHex) := by
  intro hashes
  induction hashes with
  | nil => intro _ _; rfl
  | cons a t ih =>
    intro mem hv
    obtain ⟨b, hb, hbl⟩ := hv a (List.mem_cons_self _ _)
    have ht := ih (fun i => mem (i + 1)) (fun h hh => hv h (List.mem_cons_of_mem _ hh))
    have hr : rootOfHex a = ⟨wordsOfBytes 8 b, wordsOfBytes_length 8 b⟩ := by
      unfold rootOfHex
      rw [hb]
    simp only [decodeHashes, hb, bytesToCV_of_32 _ b hbl, ht, List.map_cons, hr]

/-- Once the strings are decoded, the function pads, runs the loop and compresses the two
remaining values with `flagRoot`, or panics when fewer than two values remain. -/
theorem secondLayer_of_decoded (P : Primitives) (mem : Nat → Nat → Byte) (hashes : List String)
    (cvs : List CV) (hd : decodeHashes mem hashes = .ok cvs) :
    CustomBaoEncodeSecondLayerHashTree P mem hashes
      = match reduceHashQueue P (paddedQueue cvs) with
        | .error p => .error p
        | .ok q =>
          match q[0]?, q[1]? with
          | some q0, some q1 =>
            .ok (cvToBytes (P.chainingValue (P.parentNode q0 q1 P.iv P.flagRoot)), none)
          | _, _ => .error .indexOutOfRange := by
  have hl := decodeHashes_length hashes mem cvs hd
  unfold CustomBaoEncodeSecondLayerHashTree paddedQueue
  rw [hd, hl]
  simp only []
  by_cases hodd : hashes.length % 2 = 1
  · rw [if_pos hodd, if_pos hodd]
    have hlt : hashes.length - 1 < cvs.length := by omega
    rw [List.getElem?_eq_getElem hlt]
  · rw [if_neg hodd, if_neg hodd]

theorem queueStates_step (P : Primitives) (l r x : CV) (rest : List CV) :
    queueStates P (l :: r :: x :: rest)
      = (l :: r :: x :: rest) :: queueStates P (x :: rest ++ [combinePair P l r]) := by
  rw [queueStates]
  rfl

theorem queueStates_done (P : Primitives) (q : List CV) (h : q.length ≤ 2) :
    queueStates P q = [q] := by
  match q, h with
  | [], _ => rw [queueStates]; simp
  | [_], _ => rw [queueStates]; simp
  | [_, _], _ => rw [queueStates]; simp
  | _ :: _ :: _ :: _, h => simp at h

/-- A loop started on a queue of `k + 2` values runs `k` times, holds queues of lengths
`k + 2, k + 1, ..., 2` at its successive tests, and ends on a queue of two values. -/
theorem reduce_run (P : Primitives) :
    ∀ (k : Nat) (q : List CV), q.length = k + 2 →
      (dequeuedPairs P q).length = k ∧
      (queueStates P q).map List.length = (List.range (k + 1)).map (fun i => k + 2 - i) ∧
      ∃ q0 q1 : CV, reduceHashQueue P q = .ok [q0, q1] ∧
        (queueStates P q).getLast? = some [q0, q1] := by
  intro k
  induction k with
  | zero =>
    intro q hq
    match q, hq with
    | [a, b], _ =>
      refine ⟨?_, ?_, a, b, ?_, ?_⟩
      · rw [dequeuedPairs_done P _ (by simp)]
        rfl
      · rw [queueStates_done P _ (by simp)]
        rfl
      · exact reduce_done P _ (by simp)
      · rw [queueStates_done P _ (by simp)]
        rfl
  | succ k ih =>
    intro q hq
    match q, hq with
    | l :: r :: x :: rest, hq =>
      have hlen : (x :: rest ++ [combinePair P l r]).length = k + 2 := by
        simp only [List.length_cons, List.length_append, List.length_nil] at hq ⊢
        omega
      obtain ⟨h1, h2, q0, q1, h3, h4⟩ := ih _ hlen
      refine ⟨?_, ?_, q0, q1, ?_, ?_⟩
      · rw [dequeuedPairs_step, List.length_cons, h1]
      · have hr : (List.range (k + 1 + 1)).map (fun i => k + 1 + 2 - i)
            = (k + 1 + 2) :: (List.range (k + 1)).map (fun i => k + 2 - i) := by
          rw [List.range_succ_eq_map, List.map_cons, List.map_map]
          congr 1
          apply List.map_congr_left
          intro i _
          simp only [Function.comp, Nat.succ_eq_add_one]
          omega
        rw [queueStates_step, List.map_cons, h2, hr, hq]
      · rw [reduce_step, h3]
      · rw [queueStates_step]
        cases hqs : queueStates P (x :: rest ++ [combinePair P l r]) with
        | nil =>
          rw [hqs] at h4
          simp at h4
        | cons a t =>
          rw [hqs] at h4
          rw [List.getLast?_cons_cons]
          exact h4

theorem paddedQueue_length (cvs : List CV) :
    (paddedQueue cvs).length = cvs.length + cvs.length % 2 := by
  unfold paddedQueue
  by_cases hodd : cvs.length % 2 = 1
  · rw [if_pos hodd]
    have hlt : cvs.length - 1 < cvs.length := by omega
    rw [List.getElem?_eq_getElem hlt]
    simp only [enqueue, List.length_append, List.length_singleton]
    omega
  · rw [if_neg hodd]
    omega

theorem valid_of_encode (roots : List CV) :
    ∀ h ∈ roots.map (fun cv => hexEncodeToString (cvToBytes cv)),
      ∃ b, hexDecodeString h = some b ∧ b.length = 32 := by
  intro h hh
  obtain ⟨cv, -, rfl⟩ := List.mem_map.mp hh
  exact ⟨cvToBytes cv, hexDecodeString_encode _, cvToBytes_length cv⟩

theorem paddedQueue_append_last (xs : List CV) (x : CV) (k : Nat) (hk : xs.length = 2 * k) :
    paddedQueue (xs ++ [x]) = xs ++ [x, x] ∧ paddedQueue (xs ++ [x, x]) = xs ++ [x, x] := by
  constructor
  · unfold paddedQueue
    simp only [List.length_append, List.length_singleton]
    rw [if_pos (by omega)]
    have : (xs ++ [x])[xs.length + 1 - 1]? = some x := by simp
    rw [this]
    simp [enqueue]
  · unfold paddedQueue
    simp only [List.length_append, List.length_cons, List.length_nil]
    rw [if_neg (by omega)]

/-- C15. For every `k` and every list `h_0 .. h_2k` of `2k + 1` piece roots (strings that decode
to 32 bytes), `CustomBaoEncodeSecondLayerHashTree` returns a root with a nil error, and returns
the same on the `2k + 2` roots obtained by repeating the last one, whatever the memory behind the
decoded slices in either call. -/
theorem secondLayer_odd_eq_duplicated (P : Primitives) (mem mem1 : Nat → Nat → Byte) (k : Nat)
    (init : List String) (last : String) (hk : init.length = 2 * k)
    (hvalid : ∀ h ∈ init ++ [last], ∃ b, hexDecodeString h = some b ∧ b.length = 32) :
    CustomBaoEncodeSecondLayerHashTree P mem (init ++ [last])
      = CustomBaoEncodeSecondLayerHashTree P mem1 (init ++ [last, last])
    ∧ ∃ root, CustomBaoEncodeSecondLayerHashTree P mem (init ++ [last]) = .ok (root, none) := by
  have hvalid2 : ∀ h ∈ init ++ [last, last],
      ∃ b, hexDecodeString h = some b ∧ b.length = 32 := by
    intro h hh
    apply hvalid h
    simp only [List.mem_append, List.mem_cons, List.mem_singleton, List.not_mem_nil,
      or_false, or_self] at hh ⊢
    exact hh
  have d1 := decodeHashes_valid (init ++ [last]) mem hvalid
  have d2 := decodeHashes_valid (init ++ [last, last]) mem1 hvalid2
  rw [List.map_append] at d1 d2
  have hl : (init.map rootOfHex).length = 2 * k := by rw [List.length_map, hk]
  have hp := paddedQueue_append_last (init.map rootOfHex) (rootOfHex last) k hl
  simp only [List.map_cons, List.map_nil] at d1 d2
  rw [secondLayer_of_decoded P mem _ _ d1, secondLayer_of_decoded P mem1 _ _ d2, hp.1, hp.2]
  refine ⟨rfl, ?_⟩
  obtain ⟨-, -, q0, q1, hq, -⟩ := reduce_run P (2 * k) (init.map rootOfHex
    ++ [rootOfHex last, rootOfHex last]) (by
      rw [List.length_append, hl]
      rfl)
  rw [hq]
  exact ⟨_, rfl⟩

theorem secondLayer_odd_eq_duplicated_witness :
    (([CV.zero, samplePrims.iv].map fun cv => hexEncodeToString (cvToBytes cv)).length = 2 * 1) ∧
    CustomBaoEncodeSecondLayerHashTree samplePrims zeroMemory
        (([CV.zero, samplePrims.iv].map fun cv => hexEncodeToString (cvToBytes cv))
          ++ [hexEncodeToString (cvToBytes ⟨[1, 2, 3, 4, 5, 6, 7, 8], rfl⟩)])
      = CustomBaoEncodeSecondLayerHashTree samplePrims (fun _ _ => 255)
        (([CV.zero, samplePrims.iv].map fun cv => hexEncodeToString (cvToBytes cv))
          ++ [hexEncodeToString (cvToBytes ⟨[1, 2, 3, 4, 5, 6, 7, 8], rfl⟩),
              hexEncodeToString (cvToBytes ⟨[1, 2, 3, 4, 5, 6, 7, 8], rfl⟩)]) :=
  ⟨rfl,
   (secondLayer_odd_eq_duplicated samplePrims zeroMemory (fun _ _ => 255) 1
      ([CV.zero, samplePrims.iv].map fun cv => hexEncodeToString (cvToBytes cv))
      (hexEncodeToString (cvToBytes ⟨[1, 2, 3, 4, 5, 6, 7, 8], rfl⟩)) rfl
      (valid_of_encode sampleRoots)).1⟩

/-- C20. For every non-empty list of `n` strings each of which decodes to 32 bytes, with
`m = n + n % 2` (`n` rounded up to an even number): the strings decode to `n` chaining values,
the loop of `CustomBaoEncodeSecondLayerHashTree` starts on a queue of `m` values, runs exactly
`m - 2` times (one dequeued pair per iteration), the queues at its successive tests have lengths
`m, m - 1, ..., 2`, it ends on a queue `[q0, q1]` of exactly two values, and the function returns
the bytes of the `flagRoot` compression of `q0` and `q1` with no error. -/
theorem secondLayer_runs_m_minus_two (P : Primitives) (mem : Nat → Nat → Byte)
    (hashes : List String) (hne : hashes ≠ [])
    (hvalid : ∀ h ∈ hashes, ∃ b, hexDecodeString h = some b ∧ b.length = 32) :
    ∃ (cvs : List CV) (q0 q1 : CV),
      decodeHashes mem hashes = .ok cvs ∧
      cvs.length = hashes.length ∧
      (paddedQueue cvs).length = hashes.length + hashes.length % 2 ∧
      (dequeuedPairs P (paddedQueue cvs)).length = hashes.length + hashes.length % 2 - 2 ∧
      (queueStates P (paddedQueue cvs)).map List.length
        = (List.range (hashes.length + hashes.length % 2 - 1)).map
            (fun i => hashes.length + hashes.length % 2 - i) ∧
      (queueStates P (paddedQueue cvs)).getLast? = some [q0, q1] ∧
      reduceHashQueue P (paddedQueue cvs) = .ok [q0, q1] ∧
      CustomBaoEncodeSecondLayerHashTree P mem hashes
        = .ok (cvToBytes (P.chainingValue (P.parentNode q0 q1 P.iv P.flagRoot)), none) := by
  have hd := decodeHashes_valid hashes mem hvalid
  have hl := decodeHashes_length hashes mem _ hd
  have hpos : 0 < hashes.length := List.length_pos.mpr hne
  have hp := paddedQueue_length (hashes.map rootOfHex)
  rw [hl] at hp
  have hk : (paddedQueue (hashes.map rootOfHex)).length
      = (hashes.length + hashes.length % 2 - 2) + 2 := by
    omega
  obtain ⟨h1, h2, q0, q1, h3, h4⟩ := reduce_run P _ _ hk
  refine ⟨hashes.map rootOfHex, q0, q1, hd, hl, hp, h1, ?_, h4, h3, ?_⟩
  · rw [h2]
    have e1 : hashes.length + hashes.length % 2 - 2 + 1
        = hashes.length + hashes.length % 2 - 1 := by omega
    have e2 : hashes.length + hashes.length % 2 - 2 + 2
        = hashes.length + hashes.length % 2 := by omega
    rw [e1, e2]
  · rw [secondLayer_of_decoded P mem hashes _ hd, h3]
    rfl

theorem secondLayer_runs_m_minus_two_witness :
    ∃ (cvs : List CV) (q0 q1 : CV),
      decodeHashes zeroMemory (sampleRoots.map fun cv => hexEncodeToString (cvToBytes cv))
        = .ok cvs ∧
      cvs.length = 3 ∧
      (paddedQueue cvs).length = 4 ∧
      (dequeuedPairs samplePrims (paddedQueue cvs)).length = 2 ∧
      (queueStates samplePrims (paddedQueue cvs)).map List.length = [4, 3, 2] ∧
      (queueStates samplePrims (paddedQueue cvs)).getLast? = some [q0, q1] ∧
      reduceHashQueue samplePrims (paddedQueue cvs) = .ok [q0, q1] ∧
      CustomBaoEncodeSecondLayerHashTree samplePrims zeroMemory
          (sampleRoots.map fun cv => hexEncodeToString (cvToBytes cv))
        = .ok (cvToBytes (samplePrims.chainingValue
            (samplePrims.parentNode q0 q1 samplePrims.iv samplePrims.flagRoot)), none) :=
  secondLayer_runs_m_minus_two samplePrims zeroMemory
    (sampleRoots.map fun cv => hexEncodeToString (cvToBytes cv))
    (by simp [sampleRoots]) (valid_of_encode sampleRoots)

theorem noasm_loop_step (E : Engine) (chunk block : List Byte) (n : Node) (log : List Node)
    (h : 64 < chunk.length) :
    noasm.CompressChunk.loop E chunk block n log
      = noasm.CompressChunk.loop E (chunk.drop 64) (copyBytes block chunk)
          { n with
            block := bytesToWords (copyBytes block chunk)
            cv := E.ChainingValue { n with block := bytesToWords (copyBytes block chunk) }
            flags := bitClear n.flags E.flagChunkStart }
          (log ++ [{ n with block := bytesToWords (copyBytes block chunk) }]) := by
  rw [noasm.CompressChunk.loop, dif_pos (by simpa [blockSize] using h)]
  rfl

theorem noasm_loop_done (E : Engine) (chunk block : List Byte) (n : Node) (log : List Node)
    (h : chunk.length ≤ 64) :
    noasm.CompressChunk.loop E chunk block n log = (chunk, block, n, log) := by
  rw [noasm.CompressChunk.loop, dif_neg (by simp only [blockSize]; omega)]

theorem amd64_loop_step (E : Engine) (chunk : List Byte) (n : Node) (log : List Node)
    (h : 64 < chunk.length) :
    amd64.CompressChunk.loop E chunk n log
      = amd64.CompressChunk.loop E (chunk.drop 64)
          { n with
            block := bytesToWords (copyBytes (wordsToBytes n.block) chunk)
            cv := E.ChainingValue
              { n with block := bytesToWords (copyBytes (wordsToBytes n.block) chunk) }
            flags := bitClear n.flags E.flagChunkStart }
          (log ++ [{ n with block := bytesToWords (copyBytes (wordsToBytes n.block) chunk) }]) := by
  rw [amd64.CompressChunk.loop, dif_pos (by simpa [blockSize] using h)]
  rfl

theorem amd64_loop_done (E : Engine) (chunk : List Byte) (n : Node) (log : List Node)
    (h : chunk.length ≤ 64) :
    amd64.CompressChunk.loop E chunk n log = (chunk, n, log) := by
  rw [amd64.CompressChunk.loop, dif_neg (by simp only [blockSize]; omega)]

/-! ## Bit operations on flags -/

theorem lor_land_self (x s : Nat) : (x ||| s) &&& s = s := by
  apply Nat.eq_of_testBit_eq
  intro i
  simp only [Nat.testBit_and, Nat.testBit_or]
  cases x.testBit i <;> cases s.testBit i <;> rfl

theorem lor_lor_land_left (x s e : Nat) : (x ||| s ||| e) &&& s = s := by
  apply Nat.eq_of_testBit_eq
  intro i
  simp only [Nat.testBit_and, Nat.testBit_or]
  cases x.testBit i <;> cases s.testBit i <;> cases e.testBit i <;> rfl

theorem bitClear_land (x s : Nat) : bitClear x s &&& s = 0 := by
  apply Nat.eq_of_testBit_eq
  intro i
  simp only [bitClear, Nat.testBit_and, Nat.testBit_xor, Nat.zero_testBit]
  cases x.testBit i <;> cases s.testBit i <;> rfl

theorem bitClear_idem (x s : Nat) : bitClear (bitClear x s) s = bitClear x s := by
  apply Nat.eq_of_testBit_eq
  intro i
  simp only [bitClear, Nat.testBit_and, Nat.testBit_xor]
  cases x.testBit i <;> cases s.testBit i <;> rfl

theorem bitClear_lor_land (x s e : Nat) (hse : s &&& e = 0) :
    (bitClear x s ||| e) &&& s = 0 := by
  apply Nat.eq_of_testBit_eq
  intro i
  have h := congrArg (fun v => Nat.testBit v i) hse
  simp only [Nat.testBit_and, Nat.zero_testBit] at h
  simp only [bitClear, Nat.testBit_and, Nat.testBit_or, Nat.testBit_xor, Nat.zero_testBit]
  revert h
  cases x.testBit i <;> cases s.testBit i <;> cases e.testBit i <;> simp

/-! ## The two versions of `CompressChunk` -/

theorem copyBytes_full (dst src : List Byte) (hd : dst.length = 64) (hs : 64 ≤ src.length) :
    copyBytes dst src = src.take 64 := by
  unfold copyBytes
  rw [hd, List.drop_eq_nil_of_le (by omega), List.append_nil]

theorem wordsToBytes_length (ws : List Word) : (wordsToBytes ws).length = 4 * ws.length := by
  induction ws with
  | nil => rfl
  | cons w t ih =>
    unfold wordsToBytes at ih ⊢
    rw [List.flatMap_cons, List.length_append, ih, List.length_cons]
    simp only [putUint32, List.length_cons, List.length_nil]
    omega

theorem bytesToWords_length (b : List Byte) : (bytesToWords b).length = 16 :=
  wordsOfBytes_length 16 b

theorem wordsToBytes_zeroBlock : wordsToBytes zeroBlock = List.replicate 64 0 := by decide

/-- The two loops go through the same states: the amd64 loop, which writes the block through the
byte view, ends with the rest of the chunk, the node and the log of the portable loop. -/
theorem loops_agree (E : Engine) (m : Nat) :
    ∀ (chunk block : List Byte) (n : Node) (log : List Node), chunk.length = m →
      block.length = 64 → n.block.length = 16 →
      amd64.CompressChunk.loop E chunk n log
        = ((noasm.CompressChunk.loop E chunk block n log).1,
           (noasm.CompressChunk.loop E chunk block n log).2.2.1,
           (noasm.CompressChunk.loop E chunk block n log).2.2.2) := by
  induction m using Nat.strong_induction_on with
  | _ m ih =>
    intro chunk block n log hm hb hn
    by_cases h : 64 < chunk.length
    · rw [amd64_loop_step E chunk n log h, noasm_loop_step E chunk block n log h]
      have e1 : copyBytes (wordsToBytes n.block) chunk = chunk.take 64 :=
        copyBytes_full _ _ (by rw [wordsToBytes_length, hn]) (by omega)
      have e2 : copyBytes block chunk = chunk.take 64 := copyBytes_full _ _ hb (by omega)
      rw [e1, e2]
      apply ih (chunk.drop 64).length (by rw [List.length_drop]; omega) _ _ _ _ rfl
      · rw [List.length_take]
        omega
      · exact bytesToWords_length _
    · rw [amd64_loop_done E chunk n log (by omega), noasm_loop_done E chunk block n log (by omega)]

/-- The amd64 `CompressChunk` returns the node of the portable one and passes the same nodes to
`ChainingValue`. -/
theorem amd64_run_eq (E : Engine) (chunk : List Byte) (key : CV) (counter flags : Nat) :
    amd64.CompressChunkRun E chunk key counter flags
      = noasm.CompressChunkRun E chunk key counter flags := by
  unfold amd64.CompressChunkRun noasm.CompressChunkRun
  simp only []
  rw [loops_agree E chunk.length chunk (List.replicate blockSize 0) _ [] rfl
    (by simp [blockSize]) (by simp [zeroBlock])]
  rw [wordsToBytes_zeroBlock]
  rfl

/-- What the portable loop does on a chunk of `m` bytes, with `k = ⌈m/64⌉ - 1`: it appends `k`
nodes to the log, one per leading block of 64 bytes; the first carries the flags and the chaining
value at entry, every later one the flags with `flagChunkStart` cleared and the chaining value of
the node before it; `64 * k` bytes are consumed. -/
theorem noasm_loop_spec (E : Engine) (m : Nat) :
    ∀ (chunk block : List Byte) (n : Node) (log : List Node), chunk.length = m →
      block.length = 64 →
      ∃ (blk : List Byte) (n1 : Node) (ext : List Node),
        noasm.CompressChunk.loop E chunk block n log
          = (chunk.drop (64 * ((m + 63) / 64 - 1)), blk, n1, log ++ ext) ∧
        ext.map (fun nd => nd.block)
          = (List.range ((m + 63) / 64 - 1)).map
              (fun i => bytesToWords ((chunk.drop (64 * i)).take 64)) ∧
        ext.map (fun nd => nd.flags)
          = (List.range ((m + 63) / 64 - 1)).map
              (fun i => if i = 0 then n.flags else bitClear n.flags E.flagChunkStart) ∧
        (∀ nd ∈ ext, nd.counter = n.counter ∧ nd.blockLen = n.blockLen) ∧
        n.cv :: ext.map E.ChainingValue = ext.map (fun nd => nd.cv) ++ [n1.cv] ∧
        n1.counter = n.counter ∧ n1.blockLen = n.blockLen ∧
        n1.flags = (if (m + 63) / 64 - 1 = 0 then n.flags
          else bitClear n.flags E.flagChunkStart) := by
  induction m using Nat.strong_induction_on with
  | _ m ih =>
    intro chunk block n log hm hb
    by_cases h : 64 < chunk.length
    · rw [noasm_loop_step E chunk block n log h]
      have e2 : copyBytes block chunk = chunk.take 64 := copyBytes_full _ _ hb (by omega)
      rw [e2]
      obtain ⟨k, hk⟩ : ∃ k, (m + 63) / 64 - 1 = k + 1 := ⟨(m + 63) / 64 - 2, by omega⟩
      have hk1 : (m - 64 + 63) / 64 - 1 = k := by omega
      obtain ⟨blk, n1, ext, h1, h2, h3, h4, h5, h6, h7, h8⟩ :=
        ih (m - 64) (by omega) (chunk.drop 64) (chunk.take 64)
          { n with
            block := bytesToWords (chunk.take 64)
            cv := E.ChainingValue { n with block := bytesToWords (chunk.take 64) }
            flags := bitClear n.flags E.flagChunkStart }
          (log ++ [{ n with block := bytesToWords (chunk.take 64) }])
          (by rw [List.length_drop]; omega) (by rw [List.length_take]; omega)
      rw [hk1] at h1 h2 h3 h8
      rw [hk]
      refine ⟨blk, n1, { n with block := bytesToWords (chunk.take 64) } :: ext,
        ?_, ?_, ?_, ?_, ?_, h6, h7, ?_⟩
      · rw [h1, List.drop_drop, List.append_assoc]
        have e : 64 + 64 * k = 64 * (k + 1) := by omega
        rw [e]
        rfl
      · rw [List.map_cons, h2, List.range_succ_eq_map, List.map_cons, List.map_map]
        congr 1
        apply List.map_congr_left
        intro i _
        simp only [Function.comp, Nat.succ_eq_add_one, List.drop_drop]
        have e : 64 + 64 * i = 64 * (i + 1) := by omega
        rw [e]
      · rw [List.map_cons, h3, List.range_succ_eq_map, List.map_cons, List.map_map]
        congr 1
        apply List.map_congr_left
        intro i _
        simp only [Function.comp, Nat.succ_eq_add_one, bitClear_idem]
        split_ifs <;> first | rfl | contradiction
      · intro nd hnd
        rcases List.mem_cons.mp hnd with rfl | hnd
        · exact ⟨rfl, rfl⟩
        · exact h4 nd hnd
      · rw [List.map_cons, List.map_cons, List.cons_append, ← h5]
      · rw [h8]
        simp only [bitClear_idem]
        split_ifs <;> first | rfl | contradiction
    · rw [noasm_loop_done E chunk block n log (by omega)]
      have hk : (m + 63) / 64 - 1 = 0 := by omega
      rw [hk]
      exact ⟨block, n, [], by simp, rfl, rfl, by simp, rfl, rfl, rfl, rfl⟩

/-- The node returned by `CompressChunk` and the nodes it compressed, for any chunk. -/
theorem noasm_run_spec (E : Engine) (chunk : List Byte) (key : CV) (counter flags : Nat) :
    ∃ (node : Node) (log : List Node),
      noasm.CompressChunkRun E chunk key counter flags = (node, log) ∧
      log.map (fun nd => nd.block)
        = (List.range ((chunk.length + 63) / 64 - 1)).map
            (fun i => bytesToWords ((chunk.drop (64 * i)).take 64)) ∧
      log.map (fun nd => nd.flags)
        = (List.range ((chunk.length + 63) / 64 - 1)).map
            (fun i => if i = 0 then flags ||| E.flagChunkStart
              else bitClear (flags ||| E.flagChunkStart) E.flagChunkStart) ∧
      (∀ nd ∈ log, nd.counter = counter ∧ nd.blockLen = 64) ∧
      key :: log.map E.ChainingValue = log.map (fun nd => nd.cv) ++ [node.cv] ∧
      node.counter = counter ∧
      node.block = bytesToWords (copyBytes (List.replicate 64 0)
        (chunk.drop (64 * ((chunk.length + 63) / 64 - 1)))) ∧
      node.blockLen = (chunk.length - 64 * ((chunk.length + 63) / 64 - 1)) % 4294967296 ∧
      node.flags = (if (chunk.length + 63) / 64 - 1 = 0 then flags ||| E.flagChunkStart
          else bitClear (flags ||| E.flagChunkStart) E.flagChunkStart) ||| E.flagChunkEnd := by
  obtain ⟨blk, n1, ext, h1, h2, h3, h4, h5, h6, h7, h8⟩ :=
    noasm_loop_spec E chunk.length chunk (List.replicate blockSize 0)
      { cv := key, block := zeroBlock, counter := counter, blockLen := blockSize,
        flags := flags ||| E.flagChunkStart } [] rfl (by simp [blockSize])
  refine ⟨{ cv := n1.cv,
            block := bytesToWords (copyBytes (List.replicate blockSize 0)
              (chunk.drop (64 * ((chunk.length + 63) / 64 - 1)))),
            counter := n1.counter,
            blockLen := (chunk.drop (64 * ((chunk.length + 63) / 64 - 1))).length % 4294967296,
            flags := n1.flags ||| E.flagChunkEnd }, ext, ?_, h2, h3, h4, h5, h6, rfl, ?_, ?_⟩
  · unfold noasm.CompressChunkRun
    simp only []
    rw [h1]
    rfl
  · simp only [List.length_drop]
  · simp only []
    rw [h8]

theorem noasm_run_short (E : Engine) (chunk : List Byte) (key : CV) (counter flags : Nat)
    (h : chunk.length ≤ 64) :
    noasm.CompressChunkRun E chunk key counter flags
      = ({ cv := key, block := bytesToWords (copyBytes (List.replicate 64 0) chunk),
           counter := counter, blockLen := chunk.length % 4294967296,
           flags := flags ||| E.flagChunkStart ||| E.flagChunkEnd }, []) := by
  unfold noasm.CompressChunkRun
  simp only []
  rw [noasm_loop_done E chunk _ _ _ h]
  rfl

theorem copyBytes_pad (c : List Byte) (h : c.length ≤ 64) :
    copyBytes (List.replicate 64 0) c = c ++ List.replicate (64 - c.length) 0 := by
  unfold copyBytes
  rw [List.length_replicate, List.take_of_length_le h, List.drop_replicate]

/-- C19. For every chunk, key, counter and flags, the amd64 `CompressChunk`, which fills
`n.block` through a byte view read as little-endian, returns the same node as the portable
`CompressChunk`, which copies into a byte array and converts it with `bytesToWords`; the two also
pass the same nodes to `ChainingValue`, in the same order. -/
theorem compressChunk_amd64_eq_noasm (E : Engine) (chunk : List Byte) (key : CV)
    (counter flags : Nat) :
    amd64.CompressChunk E chunk key counter flags = noasm.CompressChunk E chunk key counter flags
    ∧ amd64.CompressChunkRun E chunk key counter flags
        = noasm.CompressChunkRun E chunk key counter flags := by
  refine ⟨?_, amd64_run_eq E chunk key counter flags⟩
  unfold amd64.CompressChunk noasm.CompressChunk
  rw [amd64_run_eq]

/-- Nodes compressed and node returned by `CompressChunk`, the blocks being given through
`bytesToWords`. -/
theorem compressChunk_blocks_aux (E : Engine) (chunk : List Byte) (key : CV) (counter flags : Nat)
    (h1 : 1 ≤ chunk.length) (h2 : chunk.length ≤ 1024)
    (hs : E.flagChunkStart ≠ 0) (hse : E.flagChunkStart &&& E.flagChunkEnd = 0) :
    amd64.CompressChunkRun E chunk key counter flags
      = noasm.CompressChunkRun E chunk key counter flags ∧
    (noasm.CompressChunkRun E chunk key counter flags).2.length
      = (chunk.length + 63) / 64 - 1 ∧
    (noasm.CompressChunkRun E chunk key counter flags).2.map (fun nd => nd.block)
      = (List.range ((chunk.length + 63) / 64 - 1)).map
          (fun i => bytesToWords ((chunk.drop (64 * i)).take 64)) ∧
    (∀ nd ∈ (noasm.CompressChunkRun E chunk key counter flags).2,
      nd.counter = counter ∧ nd.blockLen = 64) ∧
    (noasm.CompressChunkRun E chunk key counter flags).2.map (fun nd => nd.flags)
      = (List.range ((chunk.length + 63) / 64 - 1)).map
          (fun i => if i = 0 then flags ||| E.flagChunkStart
            else bitClear (flags ||| E.flagChunkStart) E.flagChunkStart) ∧
    (∀ nd ∈ (noasm.CompressChunkRun E chunk key counter flags).2.take 1,
      nd.flags &&& E.flagChunkStart = E.flagChunkStart) ∧
    (∀ nd ∈ (noasm.CompressChunkRun E chunk key counter flags).2.drop 1,
      nd.flags &&& E.flagChunkStart = 0) ∧
    key :: (noasm.CompressChunkRun E chunk key counter flags).2.map E.ChainingValue
      = (noasm.CompressChunkRun E chunk key counter flags).2.map (fun nd => nd.cv)
          ++ [(noasm.CompressChunkRun E chunk key counter flags).1.cv] ∧
    (noasm.CompressChunkRun E chunk key counter flags).1.counter = counter ∧
    (noasm.CompressChunkRun E chunk key counter flags).1.block
      = bytesToWords (chunk.drop (64 * ((chunk.length + 63) / 64 - 1))
          ++ List.replicate (64 - (chunk.length - 64 * ((chunk.length + 63) / 64 - 1))) 0) ∧
    (noasm.CompressChunkRun E chunk key counter flags).1.blockLen
      = chunk.length - 64 * ((chunk.length + 63) / 64 - 1) ∧
    (noasm.CompressChunkRun E chunk key counter flags).1.flags &&& E.flagChunkEnd
      = E.flagChunkEnd ∧
    ((noasm.CompressChunkRun E chunk key counter flags).1.flags &&& E.flagChunkStart
      = E.flagChunkStart ↔ chunk.length ≤ 64) := by
  obtain ⟨node, log, hr, hb, hf, hc, hcv, hcnt, hblk, hlen, hfl⟩ :=
    noasm_run_spec E chunk key counter flags
  rw [hr]
  simp only []
  have hlog : log.length = (chunk.length + 63) / 64 - 1 := by
    have := congrArg List.length hb
    rw [List.length_map, List.length_map, List.length_range] at this
    exact this
  have hflags : (∀ nd ∈ log.take 1, nd.flags &&& E.flagChunkStart = E.flagChunkStart) ∧
      (∀ nd ∈ log.drop 1, nd.flags &&& E.flagChunkStart = 0) := by
    cases hk : (chunk.length + 63) / 64 - 1 with
    | zero =>
      rw [hk] at hlog
      have : log = [] := List.length_eq_zero.mp hlog
      subst this
      simp
    | succ k =>
      rw [hk, List.range_succ_eq_map, List.map_cons, List.map_map] at hf
      obtain ⟨a, l, rfl, ha, hl⟩ := List.map_eq_cons_iff.mp hf
      constructor
      · intro nd hnd
        simp only [List.take_succ_cons, List.take_zero, List.mem_singleton] at hnd
        subst hnd
        rw [ha]
        exact lor_land_self _ _
      · intro nd hnd
        simp only [List.drop_succ_cons, List.drop_zero] at hnd
        have hm : nd.flags ∈ l.map (fun nd => nd.flags) := List.mem_map_of_mem _ hnd
        rw [hl] at hm
        obtain ⟨i, -, hi⟩ := List.mem_map.mp hm
        simp only [Function.comp, Nat.succ_eq_add_one] at hi
        rw [if_neg (by omega)] at hi
        rw [← hi]
        exact bitClear_land _ _
  have hrest : (chunk.drop (64 * ((chunk.length + 63) / 64 - 1))).length ≤ 64 := by
    rw [List.length_drop]
    omega
  refine ⟨(amd64_run_eq E chunk key counter flags).trans hr, hlog, hb, hc, hf, hflags.1, hflags.2, hcv,
    hcnt, ?_, ?_, ?_, ?_⟩
  · rw [hblk, copyBytes_pad _ hrest, List.length_drop]
  · rw [hlen]
    apply Nat.mod_eq_of_lt
    omega
  · rw [hfl]
    exact lor_land_self _ _
  · rw [hfl]
    by_cases hk : (chunk.length + 63) / 64 - 1 = 0
    · rw [if_pos hk]
      constructor
      · intro _
        omega
      · intro _
        exact lor_lor_land_left _ _ _
    · rw [if_neg hk, bitClear_lor_land _ _ _ hse]
      constructor
      · intro h0
        exact absurd h0.symm hs
      · intro h64
        omega

/-- Word `j` of the words read from a byte array is the little-endian number made of the bytes
`4j .. 4j+3`. -/
theorem wordsOfBytes_getD (n : Nat) :
    ∀ (bytes : List Byte) (j : Nat), j < n → 4 * n ≤ bytes.length →
      ((wordsOfBytes n bytes).getD j 0).val
        = (bytes.getD (4 * j) 0).val + 256 * (bytes.getD (4 * j + 1) 0).val
          + 65536 * (bytes.getD (4 * j + 2) 0).val
          + 16777216 * (bytes.getD (4 * j + 3) 0).val := by
  induction n with
  | zero => intro _ j hj; omega
  | succ n ih =>
    intro bytes j hj hlen
    match bytes, hlen with
    | b0 :: b1 :: b2 :: b3 :: rest, hlen =>
      cases j with
      | zero => rfl
      | succ j =>
        have e0 : 4 * (j + 1) = (4 * j) + 1 + 1 + 1 + 1 := by omega
        have e1 : 4 * (j + 1) + 1 = (4 * j + 1) + 1 + 1 + 1 + 1 := by omega
        have e2 : 4 * (j + 1) + 2 = (4 * j + 2) + 1 + 1 + 1 + 1 := by omega
        have e3 : 4 * (j + 1) + 3 = (4 * j + 3) + 1 + 1 + 1 + 1 := by omega
        rw [e3, e2, e1, e0]
        simp only [wordsOfBytes, List.getD_cons_succ]
        apply ih rest j (by omega)
        simp only [List.length_cons] at hlen
        omega
    | [], hlen => simp at hlen
    | [_], hlen =>
      simp at hlen
      omega
    | [_, _], hlen =>
      simp at hlen
      omega
    | [_, _, _], hlen =>
      simp at hlen
      omega

theorem getD_block (chunk : List Byte) (a p : Nat) (hp : p < 64) :
    ((chunk.drop a).take 64).getD p 0 = chunk.getD (a + p) 0 := by
  simp only [List.getD_eq_getElem?_getD, List.getElem?_take, List.getElem?_drop]
  rw [if_pos hp]

theorem getD_padded (chunk : List Byte) (a m p : Nat) :
    (chunk.drop a ++ List.replicate m 0).getD p 0 = chunk.getD (a + p) 0 := by
  simp only [List.getD_eq_getElem?_getD, List.getElem?_append, List.length_drop,
    List.getElem?_drop]
  split_ifs with h
  · rfl
  · have hnone : chunk[a + p]? = none := List.getElem?_eq_none (by omega)
    rw [hnone]
    by_cases h2 : p - (chunk.length - a) < m
    · rw [List.getElem?_replicate_of_lt h2]
      rfl
    · rw [List.getElem?_eq_none (by rw [List.length_replicate]; omega)]

/-- The blocks of the nodes that `CompressChunk` compresses and returns, in terms of the bytes of
the chunk: word `j` of block `i` is the little-endian number made of the chunk bytes
`64 i + 4 j .. 64 i + 4 j + 3`, a byte past the end of the chunk counting as zero. -/
theorem run_block_bytes (E : Engine) (chunk : List Byte) (key : CV) (counter flags : Nat) :
    (∀ (i : Nat) (nd : Node), (noasm.CompressChunkRun E chunk key counter flags).2[i]? = some nd →
      nd.block.length = 16 ∧ ∀ j, j < 16 →
        (nd.block.getD j 0).val
          = (chunk.getD (64 * i + 4 * j) 0).val
            + 256 * (chunk.getD (64 * i + 4 * j + 1) 0).val
            + 65536 * (chunk.getD (64 * i + 4 * j + 2) 0).val
            + 16777216 * (chunk.getD (64 * i + 4 * j + 3) 0).val) ∧
    (noasm.CompressChunkRun E chunk key counter flags).1.block.length = 16 ∧
    (∀ j, j < 16 →
      ((noasm.CompressChunkRun E chunk key counter flags).1.block.getD j 0).val
        = (chunk.getD (64 * ((chunk.length + 63) / 64 - 1) + 4 * j) 0).val
          + 256 * (chunk.getD (64 * ((chunk.length + 63) / 64 - 1) + 4 * j + 1) 0).val
          + 65536 * (chunk.getD (64 * ((chunk.length + 63) / 64 - 1) + 4 * j + 2) 0).val
          + 16777216 * (chunk.getD (64 * ((chunk.length + 63) / 64 - 1) + 4 * j + 3) 0).val) := by
  obtain ⟨node, log, hr, hb, -, -, -, -, hblk, -, -⟩ :=
    noasm_run_spec E chunk key counter flags
  rw [hr]
  simp only []
  refine ⟨?_, ?_, ?_⟩
  · intro i nd hnd
    have hlt : i < (chunk.length + 63) / 64 - 1 := by
      have h1 := congrArg List.length hb
      rw [List.length_map, List.length_map, List.length_range] at h1
      have h2 : i < log.length := by
        by_contra hc
        rw [List.getElem?_eq_none (by omega)] at hnd
        exact absurd hnd (by simp)
      omega
    have hbi : nd.block = bytesToWords ((chunk.drop (64 * i)).take 64) := by
      have h1 := congrArg (fun l => l[i]?) hb
      simp only [List.getElem?_map, hnd, List.getElem?_range hlt, Option.map_some'] at h1
      exact Option.some.inj h1
    have hlen : ((chunk.drop (64 * i)).take 64).length = 64 := by
      rw [List.length_take, List.length_drop]
      omega
    rw [hbi]
    refine ⟨bytesToWords_length _, fun j hj => ?_⟩
    unfold bytesToWords
    rw [wordsOfBytes_getD 16 _ j hj (by omega), getD_block chunk _ _ (by omega),
      getD_block chunk _ _ (by omega), getD_block chunk _ _ (by omega),
      getD_block chunk _ _ (by omega)]
    simp only [Nat.add_assoc]
  · rw [hblk]
    exact bytesToWords_length _
  · intro j hj
    have hrest : (chunk.drop (64 * ((chunk.length + 63) / 64 - 1))).length ≤ 64 := by
      rw [List.length_drop]
      omega
    rw [hblk, copyBytes_pad _ hrest]
    unfold bytesToWords
    rw [wordsOfBytes_getD 16 _ j hj (by
        rw [List.length_append, List.length_replicate]
        omega),
      getD_padded, getD_padded, getD_padded, getD_padded]
    simp only [Nat.add_assoc]

/-- C13. For a chunk of `1 ≤ n ≤ 1024` bytes and `k = ⌈n/64⌉ - 1`, both versions of
`CompressChunk` pass exactly `k` nodes to `ChainingValue`. Node `i` holds block `i` of the chunk
(word `j` is the little-endian number made of the chunk bytes `64 i + 4 j .. 64 i + 4 j + 3`),
the given counter and block length 64; the first has flags `flags | flagChunkStart`, the later
ones have `flagChunkStart` cleared; the first takes the key as chaining value and every later
one, like the returned node, the chaining value of the node before it. The returned node has the
given counter, the last block padded with zeros to 64 bytes (the same formula for block `k`, a
byte past the end of the chunk counting as zero), block length `n - 64 * k`, and its flags
contain `flagChunkEnd`, and contain `flagChunkStart` exactly when `n ≤ 64` (for a non-zero
`flagChunkStart` that shares no bit with `flagChunkEnd`). -/
theorem compressChunk_blocks (E : Engine) (chunk : List Byte) (key : CV) (counter flags : Nat)
    (h1 : 1 ≤ chunk.length) (h2 : chunk.length ≤ 1024)
    (hs : E.flagChunkStart ≠ 0) (hse : E.flagChunkStart &&& E.flagChunkEnd = 0) :
    amd64.CompressChunkRun E chunk key counter flags
      = noasm.CompressChunkRun E chunk key counter flags ∧
    (noasm.CompressChunkRun E chunk key counter flags).2.length
      = (chunk.length + 63) / 64 - 1 ∧
    (∀ (i : Nat) (nd : Node), (noasm.CompressChunkRun E chunk key counter flags).2[i]? = some nd →
      nd.block.length = 16 ∧ ∀ j, j < 16 →
        (nd.block.getD j 0).val
          = (chunk.getD (64 * i + 4 * j) 0).val
            + 256 * (chunk.getD (64 * i + 4 * j + 1) 0).val
            + 65536 * (chunk.getD (64 * i + 4 * j + 2) 0).val
            + 16777216 * (chunk.getD (64 * i + 4 * j + 3) 0).val) ∧
    (∀ nd ∈ (noasm.CompressChunkRun E chunk key counter flags).2,
      nd.counter = counter ∧ nd.blockLen = 64) ∧
    (noasm.CompressChunkRun E chunk key counter flags).2.map (fun nd => nd.flags)
      = (List.range ((chunk.length + 63) / 64 - 1)).map
          (fun i => if i = 0 then flags ||| E.flagChunkStart
            else bitClear (flags ||| E.flagChunkStart) E.flagChunkStart) ∧
    (∀ nd ∈ (noasm.CompressChunkRun E chunk key counter flags).2.take 1,
      nd.flags &&& E.flagChunkStart = E.flagChunkStart) ∧
    (∀ nd ∈ (noasm.CompressChunkRun E chunk key counter flags).2.drop 1,
      nd.flags &&& E.flagChunkStart = 0) ∧
    key :: (noasm.CompressChunkRun E chunk key counter flags).2.map E.ChainingValue
      = (noasm.CompressChunkRun E chunk key counter flags).2.map (fun nd => nd.cv)
          ++ [(noasm.CompressChunkRun E chunk key counter flags).1.cv] ∧
    (noasm.CompressChunkRun E chunk key counter flags).1.counter = counter ∧
    (noasm.CompressChunkRun E chunk key counter flags).1.block.length = 16 ∧
    (∀ j, j < 16 →
      ((noasm.CompressChunkRun E chunk key counter flags).1.block.getD j 0).val
        = (chunk.getD (64 * ((chunk.length + 63) / 64 - 1) + 4 * j) 0).val
          + 256 * (chunk.getD (64 * ((chunk.length + 63) / 64 - 1) + 4 * j + 1) 0).val
          + 65536 * (chunk.getD (64 * ((chunk.length + 63) / 64 - 1) + 4 * j + 2) 0).val
          + 16777216 * (chunk.getD (64 * ((chunk.length + 63) / 64 - 1) + 4 * j + 3) 0).val) ∧
    (noasm.CompressChunkRun E chunk key counter flags).1.blockLen
      = chunk.length - 64 * ((chunk.length + 63) / 64 - 1) ∧
    (noasm.CompressChunkRun E chunk key counter flags).1.flags &&& E.flagChunkEnd
      = E.flagChunkEnd ∧
    ((noasm.CompressChunkRun E chunk key counter flags).1.flags &&& E.flagChunkStart
      = E.flagChunkStart ↔ chunk.length ≤ 64) := by
  obtain ⟨a1, a2, -, a4, a5, a6, a7, a8, a9, -, a11, a12, a13⟩ :=
    compressChunk_blocks_aux E chunk key counter flags h1 h2 hs hse
  obtain ⟨b1, b2, b3⟩ := run_block_bytes E chunk key counter flags
  exact ⟨a1, a2, b1, a4, a5, a6, a7, a8, a9, b2, b3, a11, a12, a13⟩

theorem compressChunk_blocks_witness :
    (noasm.CompressChunkRun sampleEngine (List.replicate 100 7) CV.zero 5 8).2.length
      = ((List.replicate 100 (7 : Byte)).length + 63) / 64 - 1 ∧
    (∀ (i : Nat) (nd : Node),
      (noasm.CompressChunkRun sampleEngine (List.replicate 100 7) CV.zero 5 8).2[i]? = some nd →
      nd.block.length = 16 ∧ ∀ j, j < 16 →
        (nd.block.getD j 0).val
          = ((List.replicate 100 (7 : Byte)).getD (64 * i + 4 * j) 0).val
            + 256 * ((List.replicate 100 (7 : Byte)).getD (64 * i + 4 * j + 1) 0).val
            + 65536 * ((List.replicate 100 (7 : Byte)).getD (64 * i + 4 * j + 2) 0).val
            + 16777216 * ((List.replicate 100 (7 : Byte)).getD (64 * i + 4 * j + 3) 0).val) ∧
    (noasm.CompressChunkRun sampleEngine (List.replicate 100 7) CV.zero 5 8).1.blockLen
      = (List.replicate 100 (7 : Byte)).length
          - 64 * (((List.replicate 100 (7 : Byte)).length + 63) / 64 - 1) :=
  ⟨(compressChunk_blocks sampleEngine (List.replicate 100 7) CV.zero 5 8 (by simp) (by simp)
      (by decide) (by decide)).2.1,
   (compressChunk_blocks sampleEngine (List.replicate 100 7) CV.zero 5 8 (by simp) (by simp)
      (by decide) (by decide)).2.2.1,
   (compressChunk_blocks sampleEngine (List.replicate 100 7) CV.zero 5 8 (by simp) (by simp)
      (by decide) (by decide)).2.2.2.2.2.2.2.2.2.2.2.1⟩

/-- C18. For a message of at most 64 bytes, both versions of `hashBlock` leave in `out` the
little-endian bytes of the sixteen words `compressNode(CompressChunk(buf, &Iv, 0, FlagRoot))`,
and that node is the sole block of the message, padded with zeros, with chaining value `Iv`,
counter 0, block length `len(buf)` and flags `flagChunkStart | flagChunkEnd | FlagRoot`. -/
theorem hashBlock_eq_compressChunk (E : Engine) (buf : List Byte) (h : buf.length ≤ 64) :
    noasm.hashBlock E buf
      = wordsToBytes (compressNode E (noasm.CompressChunk E buf E.Iv 0 E.FlagRoot)) ∧
    amd64.hashBlock E buf
      = wordsToBytes (compressNode E (amd64.CompressChunk E buf E.Iv 0 E.FlagRoot)) ∧
    noasm.CompressChunk E buf E.Iv 0 E.FlagRoot
      = { cv := E.Iv, block := bytesToWords (buf ++ List.replicate (64 - buf.length) 0),
          counter := 0, blockLen := buf.length,
          flags := E.flagChunkStart ||| E.flagChunkEnd ||| E.FlagRoot } ∧
    amd64.CompressChunk E buf E.Iv 0 E.FlagRoot = noasm.CompressChunk E buf E.Iv 0 E.FlagRoot := by
  have hfl : E.FlagRoot ||| E.flagChunkStart ||| E.flagChunkEnd
      = E.flagChunkStart ||| E.flagChunkEnd ||| E.FlagRoot := by
    rw [Nat.lor_assoc, Nat.lor_comm]
  have hmod : buf.length % 4294967296 = buf.length := Nat.mod_eq_of_lt (by omega)
  have hn : noasm.CompressChunk E buf E.Iv 0 E.FlagRoot
      = { cv := E.Iv, block := bytesToWords (copyBytes (List.replicate 64 0) buf),
          counter := 0, blockLen := buf.length % 4294967296,
          flags := E.flagChunkStart ||| E.flagChunkEnd ||| E.FlagRoot } := by
    unfold noasm.CompressChunk
    rw [noasm_run_short E buf E.Iv 0 E.FlagRoot h, hfl]
  have ha : amd64.CompressChunk E buf E.Iv 0 E.FlagRoot
      = noasm.CompressChunk E buf E.Iv 0 E.FlagRoot := by
    unfold amd64.CompressChunk noasm.CompressChunk
    rw [amd64_run_eq]
  refine ⟨?_, ?_, ?_, ha⟩
  · rw [hn]
    rfl
  · rw [ha, hn]
    unfold amd64.hashBlock
    simp only []
    rw [wordsToBytes_zeroBlock]
    rfl
  · rw [hn, copyBytes_pad _ h, hmod]

theorem hashBlock_eq_compressChunk_witness :
    ([1, 2, 3] : List Byte).length ≤ 64 ∧
    noasm.hashBlock sampleEngine [1, 2, 3]
      = wordsToBytes (compressNode sampleEngine
          (noasm.CompressChunk sampleEngine [1, 2, 3] sampleEngine.Iv 0 sampleEngine.FlagRoot)) :=
  ⟨by decide, (hashBlock_eq_compressChunk sampleEngine [1, 2, 3] (by decide)).1⟩

theorem subtree_withEmptyChunk (P : Primitives) (f : CV → Nat → Nat → Node) (n : Nat) :
    ∀ (bytes : List Byte) (idx flags : Nat), bytes.length = n → 1 ≤ n →
      subtreeChainingValue (withEmptyChunk P f) bytes idx flags
        = subtreeChainingValue P bytes idx flags := by
  induction n using Nat.strong_induction_on with
  | _ n ih =>
    intro bytes idx flags hn h1
    have hne : bytes ≠ [] := by
      intro h0
      rw [h0] at hn
      simp at hn
      omega
    rcases Nat.lt_or_ge 1024 bytes.length with h | h
    · have hlt := splitMid_lt bytes.length (by omega)
      have hpos := splitMid_pos bytes.length
      rw [subtree_node _ idx flags h, subtree_node P idx flags h]
      rw [ih (splitMid bytes.length) (by omega) (bytes.take (splitMid bytes.length)) idx 0
          (by rw [List.length_take]; omega) hpos,
        ih (bytes.length - splitMid bytes.length) (by omega)
          (bytes.drop (splitMid bytes.length)) _ 0 (by rw [List.length_drop]) (by omega)]
      rfl
    · rw [subtree_leaf _ idx flags h, subtree_leaf P idx flags h]
      simp only [withEmptyChunk, if_neg hne]

theorem treeCV_withEmptyChunk (P : Primitives) (f : CV → Nat → Nat → Node) (B : Nat)
    (hB : 1 ≤ B) (n : Nat) :
    ∀ (bytes : List Byte) (counter flags : Nat), bytes.length = n → 1 ≤ n →
      treeCV (withEmptyChunk P f) B bytes counter flags = treeCV P B bytes counter flags := by
  induction n using Nat.strong_induction_on with
  | _ n ih =>
    intro bytes counter flags hn h1
    rcases Nat.lt_or_ge B bytes.length with h | h
    · have hlt := splitMid_lt bytes.length (by omega)
      have hpos := splitMid_pos bytes.length
      rw [treeCV_node _ counter flags hB h, treeCV_node P counter flags hB h]
      rw [ih (splitMid bytes.length) (by omega) (bytes.take (splitMid bytes.length)) counter 0
          (by rw [List.length_take]; omega) hpos,
        ih (bytes.length - splitMid bytes.length) (by omega)
          (bytes.drop (splitMid bytes.length)) _ 0 (by rw [List.length_drop]) (by omega)]
      rfl
    · rw [treeCV_leaf _ counter flags h, treeCV_leaf P counter flags h]
      unfold groupChainingValue
      exact subtree_withEmptyChunk P f n bytes _ flags hn h1

theorem treeOps_withEmptyChunk (P : Primitives) (f : CV → Nat → Nat → Node) (B : Nat)
    (outboard : Bool) (hB : 1 ≤ B) (n : Nat) :
    ∀ (bytes : List Byte) (counter flags off : Nat), bytes.length = n → 1 ≤ n →
      treeOps (withEmptyChunk P f) B outboard bytes counter flags off
        = treeOps P B outboard bytes counter flags off := by
  induction n using Nat.strong_induction_on with
  | _ n ih =>
    intro bytes counter flags off hn h1
    rcases Nat.lt_or_ge B bytes.length with h | h
    · have hlt := splitMid_lt bytes.length (by omega)
      have hpos := splitMid_pos bytes.length
      rw [treeOps_node _ outboard counter flags off hB h,
        treeOps_node P outboard counter flags off hB h]
      rw [ih (splitMid bytes.length) (by omega) (bytes.take (splitMid bytes.length)) counter 0 _
          (by rw [List.length_take]; omega) hpos,
        ih (bytes.length - splitMid bytes.length) (by omega)
          (bytes.drop (splitMid bytes.length)) _ 0 _ (by rw [List.length_drop]) (by omega),
        treeCV_withEmptyChunk P f B hB (splitMid bytes.length)
          (bytes.take (splitMid bytes.length)) counter 0 (by rw [List.length_take]; omega) hpos,
        treeCV_withEmptyChunk P f B hB (bytes.length - splitMid bytes.length)
          (bytes.drop (splitMid bytes.length)) _ 0 (by rw [List.length_drop]) (by omega)]
    · rw [treeOps_leaf _ outboard counter flags off h, treeOps_leaf P outboard counter flags off h]

/-- The node both versions of `CompressChunk` return for the empty chunk. -/
theorem compressChunk_empty (E : Engine) (key : CV) (counter flags : Nat) :
    noasm.CompressChunkRun E [] key counter flags
      = ({ cv := key, block := zeroBlock, counter := counter, blockLen := 0,
           flags := flags ||| E.flagChunkStart ||| E.flagChunkEnd }, []) ∧
    amd64.CompressChunkRun E [] key counter flags
      = ({ cv := key, block := zeroBlock, counter := counter, blockLen := 0,
           flags := flags ||| E.flagChunkStart ||| E.flagChunkEnd }, []) := by
  have h : noasm.CompressChunkRun E [] key counter flags
      = ({ cv := key, block := zeroBlock, counter := counter, blockLen := 0,
           flags := flags ||| E.flagChunkStart ||| E.flagChunkEnd }, []) := by
    rw [noasm_run_short E [] key counter flags (by simp)]
    rfl
  exact ⟨h, (amd64_run_eq E [] key counter flags).trans h⟩

/-- The encoder on empty data: the root is the chaining value of the node that `compressChunk`
returns for the empty chunk. -/
theorem encode_empty (P : Primitives) (B : Nat) (outboard isRoot : Bool) (hB : 8 ≤ B)
    (hB63 : B < 2 ^ 63) (dst data : List Byte) (pieceSize pieceIndex : Nat) :
    (CustomBaoEncode P memWriter dst data 0 B outboard isRoot pieceSize pieceIndex).1
      = .ok (cvToBytes (P.chainingValue (P.compressChunk [] P.iv
          (u64 (u64 (pieceSize / B * pieceIndex) * (B / chunkSize)))
          (if isRoot then P.flagRoot else 0))), none) := by
  rw [encode_memWriter P B outboard isRoot hB hB63 dst data 0 pieceSize pieceIndex (by omega)
    (by norm_num)]
  simp only [List.take_zero]
  rw [treeCV_leaf P _ _ (by simp)]
  unfold groupChainingValue
  simp only []
  rw [subtree_leaf P _ _ (by simp)]

/-- C14, as stated, fails. On the empty chunk both versions of `CompressChunk` return a node
(chaining value the key, zero block, block length 0, flags `flags | flagChunkStart |
flagChunkEnd`), and `CustomBaoEncode` on empty data passes the empty chunk to it: the root it
returns is the chaining value of that node, and it changes when the node computed for the empty
chunk is changed. -/
theorem compressChunk_accepts_empty_chunk :
    noasm.CompressChunk sampleEngine [] sampleEngine.Iv 0 8
      = { cv := sampleEngine.Iv, block := zeroBlock, counter := 0, blockLen := 0, flags := 11 } ∧
    amd64.CompressChunk sampleEngine [] sampleEngine.Iv 0 8
      = { cv := sampleEngine.Iv, block := zeroBlock, counter := 0, blockLen := 0, flags := 11 } ∧
    (CustomBaoEncode (enginePrims sampleEngine) memWriter [] [] 0 1024 true true 0 0).1
      = .ok (cvToBytes (sampleEngine.ChainingValue
          { cv := sampleEngine.Iv, block := zeroBlock, counter := 0, blockLen := 0,
            flags := 11 }), none) ∧
    (CustomBaoEncode (withEmptyChunk (enginePrims sampleEngine)
        (fun key _ _ => { cv := key, block := [], counter := 0, blockLen := 0, flags := 0 }))
        memWriter [] [] 0 1024 true true 0 0).1
      ≠ (CustomBaoEncode (enginePrims sampleEngine) memWriter [] [] 0 1024 true true 0 0).1 := by
  have hn : noasm.CompressChunk sampleEngine [] sampleEngine.Iv 0 8
      = { cv := sampleEngine.Iv, block := zeroBlock, counter := 0, blockLen := 0,
          flags := 11 } := by
    unfold noasm.CompressChunk
    rw [(compressChunk_empty sampleEngine sampleEngine.Iv 0 8).1]
    rfl
  have ha : amd64.CompressChunk sampleEngine [] sampleEngine.Iv 0 8
      = { cv := sampleEngine.Iv, block := zeroBlock, counter := 0, blockLen := 0,
          flags := 11 } := by
    unfold amd64.CompressChunk
    rw [(compressChunk_empty sampleEngine sampleEngine.Iv 0 8).2]
    rfl
  have he : (CustomBaoEncode (enginePrims sampleEngine) memWriter [] [] 0 1024 true true 0 0).1
      = .ok (cvToBytes (sampleEngine.ChainingValue
          { cv := sampleEngine.Iv, block := zeroBlock, counter := 0, blockLen := 0,
            flags := 11 }), none) := by
    rw [encode_empty _ 1024 true true (by norm_num) (by norm_num)]
    have e : (enginePrims sampleEngine).compressChunk [] (enginePrims sampleEngine).iv
        (u64 (u64 (0 / 1024 * 0) * (1024 / chunkSize)))
        (if true = true then (enginePrims sampleEngine).flagRoot else 0)
        = noasm.CompressChunk sampleEngine [] sampleEngine.Iv 0 8 := by
      have e0 : u64 (u64 (0 / 1024 * 0) * (1024 / chunkSize)) = 0 := by decide
      rw [e0]
      rfl
    rw [e, hn]
    rfl
  refine ⟨hn, ha, he, ?_⟩
  rw [he, encode_empty _ 1024 true true (by norm_num) (by norm_num)]
  intro h
  simp only [Except.ok.injEq, Prod.mk.injEq, and_true] at h
  exact absurd (cvToBytes_injective h) (by decide)

/-- C14, amended. `CompressChunk` accepts the empty chunk: both versions pass nothing to
`ChainingValue` and return the node with the key as chaining value, a zero block, block length 0
and flags `flags | flagChunkStart | flagChunkEnd`. `CustomBaoEncode` passes the empty chunk to
`compressChunk` when the data is empty, and returns the chaining value of its node; for data of
at least one byte no call receives the empty chunk: the result and the final state of the encoder
are the same whatever `compressChunk` returns for the empty chunk. -/
theorem empty_chunk_only_for_empty_data (E : Engine) (P : Primitives)
    (f : CV → Nat → Nat → Node) (key : CV) (counter flags : Nat) (B : Nat)
    (outboard isRoot : Bool) (dst data : List Byte) (dataLen pieceSize pieceIndex : Nat)
    (hB : 8 ≤ B) (hB63 : B < 2 ^ 63) (h1 : 1 ≤ dataLen) (hn : dataLen ≤ data.length)
    (hbound : 8 + 65 * dataLen < 2 ^ 63) :
    (noasm.CompressChunkRun E [] key counter flags
      = ({ cv := key, block := zeroBlock, counter := counter, blockLen := 0,
           flags := flags ||| E.flagChunkStart ||| E.flagChunkEnd }, []) ∧
    amd64.CompressChunkRun E [] key counter flags
      = ({ cv := key, block := zeroBlock, counter := counter, blockLen := 0,
           flags := flags ||| E.flagChunkStart ||| E.flagChunkEnd }, [])) ∧
    (CustomBaoEncode P memWriter dst data 0 B outboard isRoot pieceSize pieceIndex).1
      = .ok (cvToBytes (P.chainingValue (P.compressChunk [] P.iv
          (u64 (u64 (pieceSize / B * pieceIndex) * (B / chunkSize)))
          (if isRoot then P.flagRoot else 0))), none) ∧
    CustomBaoEncode (withEmptyChunk P f) memWriter dst data dataLen B outboard isRoot pieceSize
        pieceIndex
      = CustomBaoEncode P memWriter dst data dataLen B outboard isRoot pieceSize pieceIndex := by
  refine ⟨compressChunk_empty E key counter flags,
    encode_empty P B outboard isRoot hB hB63 dst data pieceSize pieceIndex, ?_⟩
  have hl : (data.take dataLen).length = dataLen := by
    rw [List.length_take]
    omega
  rw [encode_memWriter _ B outboard isRoot hB hB63 dst data dataLen pieceSize pieceIndex hn
      hbound,
    encode_memWriter P B outboard isRoot hB hB63 dst data dataLen pieceSize pieceIndex hn hbound,
    treeCV_withEmptyChunk P f B (by omega) dataLen _ _ _ hl h1,
    treeOps_withEmptyChunk P f B outboard (by omega) dataLen _ _ _ _ hl h1]
  rfl

theorem empty_chunk_only_for_empty_data_witness :
    ((8 ≤ 1024) ∧ (1024 < 2 ^ 63) ∧ (1 ≤ 3) ∧ (3 ≤ ([1, 2, 3] : List Byte).length)
      ∧ (8 + 65 * 3 < 2 ^ 63)) ∧
    (CustomBaoEncode samplePrims memWriter [] [1, 2, 3] 0 1024 true true 0 0).1
      = .ok (cvToBytes (samplePrims.chainingValue (samplePrims.compressChunk [] samplePrims.iv
          (u64 (u64 (0 / 1024 * 0) * (1024 / chunkSize)))
          (if true = true then samplePrims.flagRoot else 0))), none) ∧
    CustomBaoEncode (withEmptyChunk samplePrims
        (fun key _ _ => { cv := key, block := [], counter := 0, blockLen := 0, flags := 0 }))
        memWriter [] [1, 2, 3] 3 1024 true true 0 0
      = CustomBaoEncode samplePrims memWriter [] [1, 2, 3] 3 1024 true true 0 0 :=
  ⟨⟨by norm_num, by norm_num, by norm_num, by simp, by norm_num⟩,
   (empty_chunk_only_for_empty_data sampleEngine samplePrims
      (fun key _ _ => { cv := key, block := [], counter := 0, blockLen := 0, flags := 0 })
      CV.zero 0 0 1024 true true [] [1, 2, 3] 3 0 0 (by norm_num) (by norm_num) (by norm_num)
      (by simp) (by norm_num)).2.1,
   (empty_chunk_only_for_empty_data sampleEngine samplePrims
      (fun key _ _ => { cv := key, block := [], counter := 0, blockLen := 0, flags := 0 })
      CV.zero 0 0 1024 true true [] [1, 2, 3] 3 0 0 (by norm_num) (by norm_num) (by norm_num)
      (by simp) (by norm_num)).2.2⟩

theorem mergeTree_single (E : Engine) (key : CV) (flags : Nat) (x : CV) :
    mergeTree E key flags [x] = x := by
  rw [mergeTree, dif_pos (by simp)]
  rfl

theorem mergeTree_node (E : Engine) (key : CV) (flags : Nat) (leaves : List CV)
    (h : 2 ≤ leaves.length) :
    mergeTree E key flags leaves
      = E.ChainingValue (E.ParentNode
          (mergeTree E key flags (leaves.take (splitMid leaves.length)))
          (mergeTree E key flags (leaves.drop (splitMid leaves.length))) key flags) := by
  rw [mergeTree, dif_neg (by omega)]

theorem mergeTree_eq_canonical (E : Engine) (key : CV) (flags : Nat) (n : Nat) :
    ∀ leaves : List CV, leaves.length = n →
      mergeTree E key flags leaves = canonicalTree (mergePrims E key flags) leaves 0 := by
  induction n using Nat.strong_induction_on with
  | _ n ih =>
    intro leaves hn
    rcases Nat.lt_or_ge leaves.length 2 with h | h
    · rw [mergeTree, dif_pos h, canonicalTree, dif_pos h]
    · have hlt := splitMid_lt leaves.length h
      have hpos := splitMid_pos leaves.length
      rw [mergeTree_node E key flags leaves h, canonicalTree_node _ leaves 0 h,
        ih (splitMid leaves.length) (by omega) (leaves.take (splitMid leaves.length))
          (by rw [List.length_take]; omega),
        ih (leaves.length - splitMid leaves.length) (by omega)
          (leaves.drop (splitMid leaves.length)) (by rw [List.length_drop])]
      rfl

theorem compressParentsAVX2_length (E : Engine) (cvs : List CV) (key : CV) (flags : Nat)
    (h : cvs.length = 16) : (compressParentsAVX2 E cvs key flags).length = 16 := by
  unfold compressParentsAVX2
  rw [List.length_append, List.length_map, List.length_range, List.length_drop, h]

theorem merge_loop_even (E : Engine) (key : CV) (flags : Nat) (cvs : List CV) (n : Nat)
    (h : 2 < n) (he : n % 2 = 0) :
    mergeSubtrees.loop E key flags cvs n
      = mergeSubtrees.loop E key flags (compressParentsAVX2 E cvs key flags) (n / 2) := by
  rw [mergeSubtrees.loop, dif_pos h, if_pos he]

theorem merge_loop_odd (E : Engine) (key : CV) (flags : Nat) (cvs : List CV) (n : Nat)
    (h : 2 < n) (ho : n % 2 = 1) (hlen : cvs.length = 16) (h16 : n ≤ 16) :
    mergeSubtrees.loop E key flags cvs n
      = mergeSubtrees.loop E key flags
          ((compressParentsAVX2 E cvs key flags).set (n / 2) (cvs.getD (n - 1) CV.zero))
          ((n + 1) / 2) := by
  rw [mergeSubtrees.loop, dif_pos h, if_neg (by omega)]
  have hlt : n - 1 < cvs.length := by omega
  rw [List.getD_eq_getElem?_getD, List.getElem?_eq_getElem hlt]
  simp only [Option.getD_some]
  rw [if_pos (by rw [compressParentsAVX2_length E cvs key flags hlen]; omega)]

theorem merge_loop_done (E : Engine) (key : CV) (flags : Nat) (cvs : List CV) (n : Nat)
    (h : n ≤ 2) : mergeSubtrees.loop E key flags cvs n = .ok (cvs, n) := by
  rw [mergeSubtrees.loop, dif_neg (by omega)]

/-- One iteration of the loop replaces the first `n` values by one level of parents, the odd
value out carried behind them. -/
theorem merge_step_take (E : Engine) (key : CV) (flags : Nat) (cvs : List CV) (n : Nat)
    (hlen : cvs.length = 16) (h3 : 3 ≤ n) (h16 : n ≤ 16) :
    ((if n % 2 = 0 then compressParentsAVX2 E cvs key flags
      else (compressParentsAVX2 E cvs key flags).set (n / 2) (cvs.getD (n - 1) CV.zero)).take
        ((n + 1) / 2))
      = pairUp (mergePrims E key flags) (cvs.take n) := by
  match cvs, hlen with
  | [c0, c1, c2, c3, c4, c5, c6, c7, c8, c9, c10, c11, c12, c13, c14, c15], _ =>
    interval_cases n <;> rfl

theorem splitMid_half (n : Nat) (h3 : 3 ≤ n) (h16 : n ≤ 16) :
    splitMid n = 2 * splitMid ((n + 1) / 2) := by
  interval_cases n <;> decide

/-- The loop of `mergeSubtrees` on `2 ≤ n ≤ 16` values ends with the count 2 and with the roots
of the two halves of the canonical tree over the first `n` values in the slots 0 and 1. -/
theorem merge_loop_spec (E : Engine) (key : CV) (flags : Nat) (n : Nat) :
    ∀ cvs : List CV, cvs.length = 16 → 2 ≤ n → n ≤ 16 →
      ∃ final : List CV,
        mergeSubtrees.loop E key flags cvs n = .ok (final, 2) ∧
        final.take 2
          = [mergeTree E key flags ((cvs.take n).take (splitMid n)),
             mergeTree E key flags ((cvs.take n).drop (splitMid n))] := by
  induction n using Nat.strong_induction_on with
  | _ n ih =>
    intro cvs hlen h2 h16
    rcases Nat.lt_or_ge 2 n with h | h
    · -- one iteration, then the induction hypothesis on the halved count
      have hstep := merge_step_take E key flags cvs n hlen (by omega) h16
      have hmid := splitMid_half n (by omega) h16
      have hloop : ∃ cvs1 : List CV, cvs1.length = 16 ∧
          mergeSubtrees.loop E key flags cvs n
            = mergeSubtrees.loop E key flags cvs1 ((n + 1) / 2) ∧
          cvs1.take ((n + 1) / 2) = pairUp (mergePrims E key flags) (cvs.take n) := by
        by_cases he : n % 2 = 0
        · rw [if_pos he] at hstep
          refine ⟨_, compressParentsAVX2_length E cvs key flags hlen, ?_, hstep⟩
          rw [merge_loop_even E key flags cvs n h he]
          have e : n / 2 = (n + 1) / 2 := by omega
          rw [e]
        · rw [if_neg he] at hstep
          refine ⟨_, ?_, merge_loop_odd E key flags cvs n h (by omega) hlen h16, hstep⟩
          rw [List.length_set, compressParentsAVX2_length E cvs key flags hlen]
      obtain ⟨cvs1, hlen1, hl, ht⟩ := hloop
      obtain ⟨final, hf1, hf2⟩ := ih ((n + 1) / 2) (by omega) cvs1 hlen1 (by omega) (by omega)
      refine ⟨final, hl.trans hf1, ?_⟩
      rw [hf2, ht]
      have hL : (cvs.take n).length = n := by
        rw [List.length_take]
        omega
      have hs1 := splitMid_lt ((n + 1) / 2) (by omega)
      have hs0 := splitMid_pos ((n + 1) / 2)
      have hleft : mergeTree E key flags
            ((pairUp (mergePrims E key flags) (cvs.take n)).take (splitMid ((n + 1) / 2)))
          = mergeTree E key flags ((cvs.take n).take (splitMid n)) := by
        rw [pairUp_take, mergeTree_eq_canonical E key flags _ _ rfl,
          canonicalTree_pairUp (mergePrims E key flags) _ _ rfl
            (by rw [List.length_take, hL]; omega)
            (by rw [List.length_take, hL]
                exact le_trans (Nat.min_le_right _ _) (by omega)),
          ← mergeTree_eq_canonical E key flags _ _ rfl, hmid]
      have hright : mergeTree E key flags
            ((pairUp (mergePrims E key flags) (cvs.take n)).drop (splitMid ((n + 1) / 2)))
          = mergeTree E key flags ((cvs.take n).drop (splitMid n)) := by
        rw [pairUp_drop, mergeTree_eq_canonical E key flags _ _ rfl,
          canonicalTree_pairUp (mergePrims E key flags) _ _ rfl
            (by rw [List.length_drop, hL]; omega)
            (by rw [List.length_drop, hL]; omega),
          ← mergeTree_eq_canonical E key flags _ _ rfl, hmid]
      rw [hleft, hright]
    · have hn : n = 2 := by omega
      subst hn
      refine ⟨cvs, merge_loop_done E key flags cvs 2 (by omega), ?_⟩
      match cvs, hlen with
      | c0 :: c1 :: rest, _ =>
        have e : splitMid 2 = 1 := by decide
        rw [e]
        simp only [List.take_succ_cons, List.take_zero, List.drop_succ_cons, List.drop_zero,
          mergeTree_single]

/-- What `mergeSubtrees` returns on the AVX2 branch. -/
theorem mergeSubtrees_spec (E : Engine) (key : CV) (flags : Nat) (n : Nat) (cvs : List CV)
    (hlen : cvs.length = 16) (h2 : 2 ≤ n) (h16 : n ≤ 16) :
    mergeSubtrees E true cvs n key flags
      = .ok (E.ParentNode (mergeTree E key flags ((cvs.take n).take (splitMid n)))
          (mergeTree E key flags ((cvs.take n).drop (splitMid n))) key flags) := by
  obtain ⟨final, hf1, hf2⟩ := merge_loop_spec E key flags n cvs hlen h2 h16
  unfold mergeSubtrees
  simp only [Bool.not_true, Bool.false_eq_true, if_false]
  rw [hf1]
  match final, hf2 with
  | a :: b :: rest, hf2 =>
    simp only [List.take_succ_cons, List.take_zero, List.cons.injEq, and_true] at hf2
    obtain ⟨ha, hb⟩ := hf2
    subst ha
    subst hb
    simp
  | [a], hf2 => simp at hf2
  | [], hf2 => simp at hf2

/-- The result depends only on the first `n` entries of the array. -/
theorem mergeSubtrees_congr (E : Engine) (key : CV) (flags : Nat) (n : Nat) (cvs cvs1 : List CV)
    (hlen : cvs.length = 16) (hlen1 : cvs1.length = 16) (h2 : 2 ≤ n) (h16 : n ≤ 16)
    (ht : cvs1.take n = cvs.take n) :
    mergeSubtrees E true cvs1 n key flags = mergeSubtrees E true cvs n key flags := by
  rw [mergeSubtrees_spec E key flags n cvs hlen h2 h16,
    mergeSubtrees_spec E key flags n cvs1 hlen1 h2 h16, ht]

/-- C16. For an array of 16 chaining values and a count `2 ≤ numCVs ≤ 16`, the loop of
`mergeSubtrees` (AVX2 branch, `compressParentsAVX2` writing the eight parents of the adjacent
pairs) ends with the count 2, and `mergeSubtrees` returns
`ParentNode(T(first p leaves), T(remaining leaves), key, flags)`, where the leaves are the first
`numCVs` entries, `p = splitMid numCVs` is the largest power of two below `numCVs`
(`p = 2 ^ k < numCVs ≤ 2 * p`) and `T` is `mergeTree`, the canonical tree defined by the same
split; an array with the same first `numCVs` entries gives the same result. -/
theorem mergeSubtrees_canonical (E : Engine) (cvs : List CV) (numCVs : Nat) (key : CV)
    (flags : Nat) (hlen : cvs.length = 16) (h2 : 2 ≤ numCVs) (h16 : numCVs ≤ 16) :
    (∃ final : List CV, mergeSubtrees.loop E key flags cvs numCVs = .ok (final, 2)) ∧
    mergeSubtrees E true cvs numCVs key flags
      = .ok (E.ParentNode
          (mergeTree E key flags ((cvs.take numCVs).take (splitMid numCVs)))
          (mergeTree E key flags ((cvs.take numCVs).drop (splitMid numCVs))) key flags) ∧
    (∃ k, splitMid numCVs = 2 ^ k ∧ 2 ^ k < numCVs ∧ numCVs ≤ 2 * 2 ^ k) ∧
    (∀ cvs1 : List CV, cvs1.length = 16 → cvs1.take numCVs = cvs.take numCVs →
      mergeSubtrees E true cvs1 numCVs key flags = mergeSubtrees E true cvs numCVs key flags) := by
  refine ⟨?_, mergeSubtrees_spec E key flags numCVs cvs hlen h2 h16,
    splitMid_spec numCVs h2 (by omega), ?_⟩
  · obtain ⟨final, hf1, -⟩ := merge_loop_spec E key flags numCVs cvs hlen h2 h16
    exact ⟨final, hf1⟩
  · intro cvs1 hlen1 ht
    exact mergeSubtrees_congr E key flags numCVs cvs cvs1 hlen hlen1 h2 h16 ht

theorem mergeSubtrees_canonical_witness :
    ((List.replicate 16 CV.zero).length = 16 ∧ 2 ≤ 5 ∧ 5 ≤ 16) ∧
    mergeSubtrees sampleEngine true (List.replicate 16 CV.zero) 5 CV.zero 0
      = .ok (sampleEngine.ParentNode
          (mergeTree sampleEngine CV.zero 0
            (((List.replicate 16 CV.zero).take 5).take (splitMid 5)))
          (mergeTree sampleEngine CV.zero 0
            (((List.replicate 16 CV.zero).take 5).drop (splitMid 5))) CV.zero 0) :=
  ⟨⟨by simp, by norm_num, by norm_num⟩,
   (mergeSubtrees_canonical sampleEngine (List.replicate 16 CV.zero) 5 CV.zero 0 (by simp)
      (by norm_num) (by norm_num)).2.1⟩

theorem take_eq_map_range {α : Type} (l : List α) (n : Nat) (g : Nat → α)
    (h : ∀ i, i < n → l[i]? = some (g i)) : l.take n = (List.range n).map g := by
  apply List.ext_getElem?
  intro i
  by_cases hi : i < n
  · rw [List.getElem?_take_of_lt hi, h i hi, List.getElem?_map, List.getElem?_range hi]
    rfl
  · rw [List.getElem?_eq_none (by rw [List.length_take]; omega),
      List.getElem?_eq_none (by rw [List.length_map, List.length_range]; omega)]

/-- A whole chunk of the buffer does not depend on where the buffer is cut after it. -/
theorem chunk_within_cut (buf : List Byte) (buflen i : Nat) (h : 1024 * (i + 1) ≤ buflen) :
    ((buf.take buflen).drop (1024 * i)).take 1024 = (buf.drop (1024 * i)).take 1024 := by
  rw [List.drop_take, List.take_take]
  congr 1
  omega

theorem scalarCVs_length (E : Engine) (buf : List Byte) (buflen : Nat) (key : CV)
    (counter flags : Nat) (h : buflen ≤ 16384) :
    (scalarCVs E buf buflen key counter flags).length = 16 := by
  unfold scalarCVs
  rw [List.length_append, List.length_map, List.length_range, List.length_replicate]
  omega

theorem scalarCVs_take (E : Engine) (buf : List Byte) (buflen : Nat) (key : CV)
    (counter flags : Nat) :
    (scalarCVs E buf buflen key counter flags).take ((buflen + 1023) / 1024)
      = (List.range ((buflen + 1023) / 1024)).map (scalarCV E buf buflen key counter flags) := by
  unfold scalarCVs
  rw [List.take_left' (by rw [List.length_map, List.length_range])]

theorem u64_add_u64 (a b c : Nat) : u64 (u64 (a + b) + c) = u64 (a + b + c) := by
  unfold u64
  omega

/-- The shared tail on an array that holds the scalar values of the whole chunks: the result is
`mergeSubtrees` of the scalar values of all the chunks. -/
theorem tail_spec (E : Engine) (cvs : List CV) (buf : List Byte) (buflen : Nat) (key : CV)
    (counter flags : Nat) (hcvs : cvs.length = 16) (hbuf : buf.length = 16384)
    (hlo : 2048 ≤ buflen) (hhi : buflen ≤ 16384)
    (hfull : ∀ i, i < buflen / 1024 → cvs[i]? = some (scalarCV E buf buflen key counter flags i)) :
    compressBufferTail E true cvs buf buflen key counter flags
      = mergeSubtrees E true (scalarCVs E buf buflen key counter flags)
          ((buflen + 1023) / 1024) key flags := by
  unfold compressBufferTail
  simp only [ChunkSize]
  by_cases hr : buflen % 1024 = 0
  · rw [if_neg (by simpa using hr)]
    have hn : (buflen + 1023) / 1024 = buflen / 1024 := by omega
    rw [hn]
    apply mergeSubtrees_congr E key flags _ _ _ (scalarCVs_length E buf buflen key counter flags hhi)
      hcvs (by omega) (by omega)
    rw [← hn, scalarCVs_take, hn]
    exact take_eq_map_range cvs _ _ hfull
  · rw [if_pos hr, if_neg (by omega), if_neg (by omega)]
    have hn : (buflen + 1023) / 1024 = buflen / 1024 + 1 := by omega
    rw [hn, u64_of_lt (by omega : buflen / 1024 + 1 < 2 ^ 64)]
    apply mergeSubtrees_congr E key flags _ _ _ (scalarCVs_length E buf buflen key counter flags hhi)
      (by rw [List.length_set]; exact hcvs) (by omega) (by omega)
    rw [← hn, scalarCVs_take, hn]
    apply take_eq_map_range
    intro i hi
    rw [List.getElem?_set]
    by_cases hq : buflen / 1024 = i
    · rw [if_pos hq, if_pos (by omega)]
      subst hq
      unfold scalarCV
      have e : buflen - buflen % 1024 = 1024 * (buflen / 1024) := by omega
      have ht : ((buf.take buflen).drop (1024 * (buflen / 1024))).take 1024
          = (buf.take buflen).drop (1024 * (buflen / 1024)) :=
        List.take_of_length_le (by
          rw [List.length_drop, List.length_take]
          omega)
      rw [e, ht]
    · rw [if_neg hq]
      exact hfull i (by omega)

theorem lanes512_get (E : Engine) (buf : List Byte) (key : CV) (counter flags i : Nat)
    (hi : i < 16) :
    (compressChunksAVX512 E buf key counter flags)[i]?
      = some (E.ChainingValue (amd64.CompressChunk E ((buf.drop (1024 * i)).take 1024) key
          (u64 (counter + i)) flags)) := by
  unfold compressChunksAVX512
  rw [List.getElem?_map, List.getElem?_range hi]
  rfl

theorem lanes256_get (E : Engine) (buf : List Byte) (key : CV) (counter flags i : Nat)
    (hi : i < 8) :
    (compressChunksAVX2 E buf key counter flags)[i]?
      = some (E.ChainingValue (amd64.CompressChunk E ((buf.drop (1024 * i)).take 1024) key
          (u64 (counter + i)) flags)) := by
  unfold compressChunksAVX2
  rw [List.getElem?_map, List.getElem?_range hi]
  rfl

theorem lanes256_length (E : Engine) (buf : List Byte) (key : CV) (counter flags : Nat) :
    (compressChunksAVX2 E buf key counter flags).length = 8 := by
  unfold compressChunksAVX2
  rw [List.length_map, List.length_range]

theorem avx512_spec (E : Engine) (buf : List Byte) (buflen : Nat) (key : CV)
    (counter flags : Nat) (hbuf : buf.length = 16384) (hlo : 2048 ≤ buflen)
    (hhi : buflen ≤ 16384) :
    compressBufferAVX512 E true buf buflen key counter flags
      = mergeSubtrees E true (scalarCVs E buf buflen key counter flags)
          ((buflen + 1023) / 1024) key flags := by
  unfold compressBufferAVX512
  apply tail_spec E _ buf buflen key counter flags _ hbuf hlo hhi
  · intro i hi
    rw [lanes512_get E buf key counter flags i (by omega)]
    unfold scalarCV
    rw [chunk_within_cut buf buflen i (by omega)]
  · unfold compressChunksAVX512
    rw [List.length_map, List.length_range]

theorem avx2_spec (E : Engine) (buf : List Byte) (buflen : Nat) (key : CV)
    (counter flags : Nat) (hbuf : buf.length = 16384) (hlo : 2048 ≤ buflen)
    (hhi : buflen ≤ 16384) :
    compressBufferAVX2 E true buf buflen key counter flags
      = mergeSubtrees E true (scalarCVs E buf buflen key counter flags)
          ((buflen + 1023) / 1024) key flags := by
  unfold compressBufferAVX2
  simp only [ChunkSize, maxSIMD]
  have hL := lanes256_length E (buf.take (8 * 1024)) key counter flags
  have hB := lanes256_length E ((buf.drop (8 * 1024)).take (8 * 1024)) key (u64 (counter + 8))
    flags
  apply tail_spec E _ buf buflen key counter flags _ hbuf hlo hhi
  · intro i hi
    by_cases h8 : i < 8
    · have hget : (compressChunksAVX2 E (buf.take (8 * 1024)) key counter flags)[i]?
          = some (scalarCV E buf buflen key counter flags i) := by
        rw [lanes256_get E _ key counter flags i h8]
        unfold scalarCV
        rw [chunk_within_cut buf (8 * 1024) i (by omega),
          chunk_within_cut buf buflen i (by omega)]
      split
      · rw [List.take_left' hL, List.getElem?_append_left (by omega), hget]
      · rw [List.getElem?_append_left (by omega), hget]
    · rw [if_pos (by omega), List.take_left' hL, List.getElem?_append_right (by omega), hL,
        lanes256_get E _ key _ flags (i - 8) (by omega)]
      unfold scalarCV
      rw [chunk_within_cut (buf.drop (8 * 1024)) (8 * 1024) (i - 8) (by omega), List.drop_drop,
        chunk_within_cut buf buflen i (by omega), u64_add_u64]
      have e1 : 1024 * (i - 8) + 8 * 1024 = 1024 * i := by omega
      have e2 : counter + 8 + (i - 8) = counter + i := by omega
      first
        | rw [e1, e2]
        | (have e3 : 8 * 1024 + 1024 * (i - 8) = 1024 * i := by omega
           rw [e3, e2])
  · split
    · rw [List.take_left' hL, List.length_append, hL, hB]
    · rw [List.length_append, hL, List.length_drop, List.length_replicate]

/-- C17. For a buffer of `16 * 1024` bytes and `2 * 1024 ≤ buflen ≤ 16 * 1024`,
`compressBufferAVX512` (one 16-lane call) and `compressBufferAVX2` (two 8-lane calls), each lane
computing what the scalar chunk path computes, return the same node without panicking: the node
`mergeSubtrees` returns on the scalar values
`ChainingValue(CompressChunk(chunk_i, key, counter + i, flags))` of the `⌈buflen/1024⌉` chunks of
`buf[:buflen]`; `compressBuffer` returns it on either wide path; and a buffer with the same first
`buflen` bytes gives the same result. -/
theorem compressBuffer_wide_eq_scalar (E : Engine) (buf : List Byte) (buflen : Nat) (key : CV)
    (counter flags : Nat) (hbuf : buf.length = 16 * 1024) (hlo : 2 * 1024 ≤ buflen)
    (hhi : buflen ≤ 16 * 1024) :
    compressBufferAVX512 E true buf buflen key counter flags
      = mergeSubtrees E true (scalarCVs E buf buflen key counter flags)
          ((buflen + 1023) / 1024) key flags ∧
    compressBufferAVX2 E true buf buflen key counter flags
      = mergeSubtrees E true (scalarCVs E buf buflen key counter flags)
          ((buflen + 1023) / 1024) key flags ∧
    (∃ node : Node, mergeSubtrees E true (scalarCVs E buf buflen key counter flags)
          ((buflen + 1023) / 1024) key flags = .ok node) ∧
    (∀ generic : List Byte → Nat → CV → Nat → Nat → Node,
      compressBuffer E true true generic buf buflen key counter flags
        = compressBufferAVX512 E true buf buflen key counter flags ∧
      compressBuffer E false true generic buf buflen key counter flags
        = compressBufferAVX2 E true buf buflen key counter flags) ∧
    (∀ buf1 : List Byte, buf1.length = 16 * 1024 → buf1.take buflen = buf.take buflen →
      compressBufferAVX512 E true buf1 buflen key counter flags
        = compressBufferAVX512 E true buf buflen key counter flags ∧
      compressBufferAVX2 E true buf1 buflen key counter flags
        = compressBufferAVX2 E true buf buflen key counter flags) := by
  have hbuf0 : buf.length = 16384 := hbuf
  have hlo0 : 2048 ≤ buflen := hlo
  have hhi0 : buflen ≤ 16384 := hhi
  have h512 := avx512_spec E buf buflen key counter flags hbuf0 hlo0 hhi0
  have h256 := avx2_spec E buf buflen key counter flags hbuf0 hlo0 hhi0
  refine ⟨h512, h256, ?_, ?_, ?_⟩
  · exact ⟨_, mergeSubtrees_spec E key flags _ _
      (scalarCVs_length E buf buflen key counter flags hhi0) (by omega) (by omega)⟩
  · intro generic
    unfold compressBuffer
    simp only [ChunkSize]
    constructor
    · rw [if_pos ⟨trivial, by omega⟩]
    · rw [if_neg (by simp), if_pos ⟨trivial, by omega⟩]
  · intro buf1 hbuf1 ht
    have hs : scalarCVs E buf1 buflen key counter flags
        = scalarCVs E buf buflen key counter flags := by
      unfold scalarCVs scalarCV
      rw [ht]
    rw [h512, h256, avx512_spec E buf1 buflen key counter flags hbuf1 hlo0 hhi0,
      avx2_spec E buf1 buflen key counter flags hbuf1 hlo0 hhi0, hs]
    exact ⟨rfl, rfl⟩

theorem compressBuffer_wide_eq_scalar_witness :
    ((List.replicate 16384 (0 : Byte)).length = 16 * 1024 ∧ 2 * 1024 ≤ 3000 ∧ 3000 ≤ 16 * 1024) ∧
    compressBufferAVX512 sampleEngine true (List.replicate 16384 0) 3000 CV.zero 0 0
      = mergeSubtrees sampleEngine true
          (scalarCVs sampleEngine (List.replicate 16384 0) 3000 CV.zero 0 0)
          ((3000 + 1023) / 1024) CV.zero 0 ∧
    compressBufferAVX2 sampleEngine true (List.replicate 16384 0) 3000 CV.zero 0 0
      = mergeSubtrees sampleEngine true
          (scalarCVs sampleEngine (List.replicate 16384 0) 3000 CV.zero 0 0)
          ((3000 + 1023) / 1024) CV.zero 0 :=
  ⟨⟨by rw [List.length_replicate], by norm_num, by norm_num⟩,
   (compressBuffer_wide_eq_scalar sampleEngine (List.replicate 16384 0) 3000 CV.zero 0 0
      (by rw [List.length_replicate]) (by norm_num) (by norm_num)).1,
   (compressBuffer_wide_eq_scalar sampleEngine (List.replicate 16384 0) 3000 CV.zero 0 0
      (by rw [List.length_replicate]) (by norm_num) (by norm_num)).2.1⟩

end Blake3
